import Mathlib

/-!
Verification of the dlmalloc-style allocator in `src/sample/dlmalloc/malloc.c`.

The development shallowly embeds the allocator for the configuration the
specification describes (W = 8): `INTERNAL_SIZE_T`/`size_t`/`unsigned long`
are 64-bit, `unsigned int` is 32-bit.  Machine arithmetic is modelled over
`Nat` with explicit wraparound (`% 2^64`, `% 2^32`) where the C code can
overflow.  Pure macros and functions are transcribed directly; the stateful
routines are embedded as explicit state-passing functions over an allocator
state further below.
-/

namespace Dlmalloc

/-- 2^64, the modulus of `size_t`/`unsigned long` arithmetic (W = 8 build). -/
def W64 : Nat := 2 ^ 64

/-- 2^32, the modulus of `unsigned int` arithmetic. -/
def U32 : Nat := 2 ^ 32

/-- Truncation to 64-bit unsigned. -/
def u64 (n : Nat) : Nat := n % W64

/-- Truncation to 32-bit unsigned. -/
def u32 (n : Nat) : Nat := n % U32

/-- 64-bit unsigned wrap-around subtraction (`a - b` on `size_t`). -/
def usub64 (a b : Nat) : Nat := (a + W64 - u64 b) % W64

/-- 32-bit unsigned wrap-around subtraction (`a - b` on `unsigned int`). -/
def usub32 (a b : Nat) : Nat := (a + U32 - u32 b) % U32

/-- Reinterpret a 64-bit unsigned value as signed (`long`, two's complement). -/
def toInt64 (n : Nat) : Int := if n < 2 ^ 63 then (n : Int) else (n : Int) - (W64 : Int)

/-- `#define SIZE_SZ (sizeof(INTERNAL_SIZE_T))`, = 8 on the W = 8 build. -/
def SIZE_SZ : Nat := 8

/-- `#define MALLOC_ALIGNMENT (2 * SIZE_SZ)`. -/
def MALLOC_ALIGNMENT : Nat := 2 * SIZE_SZ

/-- `#define MALLOC_ALIGN_MASK (MALLOC_ALIGNMENT - 1)`. -/
def MALLOC_ALIGN_MASK : Nat := MALLOC_ALIGNMENT - 1

/-- `#define MIN_CHUNK_SIZE (sizeof(struct malloc_chunk))` = 4 words = 32. -/
def MIN_CHUNK_SIZE : Nat := 32

/-- `#define MINSIZE (((MIN_CHUNK_SIZE+MALLOC_ALIGN_MASK) & ~MALLOC_ALIGN_MASK))`. -/
def MINSIZE : Nat := (MIN_CHUNK_SIZE + MALLOC_ALIGN_MASK) &&& (W64 - MALLOC_ALIGNMENT)

/-- `#define NBINS 96`. -/
def NBINS : Nat := 96

/-- `#define NSMALLBINS 32`. -/
def NSMALLBINS : Nat := 32

/-- `#define SMALLBIN_WIDTH 8`. -/
def SMALLBIN_WIDTH : Nat := 8

/-- `#define MIN_LARGE_SIZE 256`. -/
def MIN_LARGE_SIZE : Nat := 256

/-- `#define MAX_FAST_SIZE 80`. -/
def MAX_FAST_SIZE : Nat := 80

/-- `#define DEFAULT_MXFAST 64`. -/
def DEFAULT_MXFAST : Nat := 64

/-- `#define DEFAULT_TRIM_THRESHOLD (256 * 1024)`. -/
def DEFAULT_TRIM_THRESHOLD : Nat := 256 * 1024

/-- `#define DEFAULT_TOP_PAD (0)`. -/
def DEFAULT_TOP_PAD : Nat := 0

/-- `#define DEFAULT_MMAP_THRESHOLD (256 * 1024)`. -/
def DEFAULT_MMAP_THRESHOLD : Nat := 256 * 1024

/-- `#define DEFAULT_MMAP_MAX (65536)`. -/
def DEFAULT_MMAP_MAX : Int := 65536

/-- `#define DEFAULT_SYS_PAGE_SIZE 4096`. -/
def DEFAULT_SYS_PAGE_SIZE : Nat := 4096

/-- `#define MMAP_AS_MORECORE_SIZE (1024 * 1024)`. -/
def MMAP_AS_MORECORE_SIZE : Nat := 1024 * 1024

/-- `#define FASTBIN_CONSOLIDATION_THRESHOLD ((unsigned long)(DEFAULT_TRIM_THRESHOLD) >> 1)`. -/
def FASTBIN_CONSOLIDATION_THRESHOLD : Nat := DEFAULT_TRIM_THRESHOLD >>> 1

/-- `#define REQUEST_OUT_OF_RANGE(req) ((CHUNK_SIZE_T)(req) >= (CHUNK_SIZE_T)(INTERNAL_SIZE_T)(-2 * MINSIZE))`.
On the 64-bit build `(INTERNAL_SIZE_T)(-2 * MINSIZE) = 2^64 - 64`. -/
def REQUEST_OUT_OF_RANGE (req : Nat) : Bool := W64 - 2 * MINSIZE ≤ req

/-- `#define request2size(req) (((req) + SIZE_SZ + MALLOC_ALIGN_MASK < MINSIZE) ? MINSIZE :
((req) + SIZE_SZ + MALLOC_ALIGN_MASK) & ~MALLOC_ALIGN_MASK)`, with `size_t` wraparound. -/
def request2size (req : Nat) : Nat :=
  if u64 (req + SIZE_SZ + MALLOC_ALIGN_MASK) < MINSIZE then MINSIZE
  else u64 (req + SIZE_SZ + MALLOC_ALIGN_MASK) &&& (W64 - MALLOC_ALIGNMENT)

/-- `#define in_smallbin_range(sz) ((CHUNK_SIZE_T)(sz) < (CHUNK_SIZE_T)MIN_LARGE_SIZE)`. -/
def in_smallbin_range (sz : Nat) : Bool := sz < MIN_LARGE_SIZE

/-- `#define smallbin_index(sz) (((unsigned)(sz)) >> 3)`. -/
def smallbin_index (sz : Nat) : Nat := u32 sz >>> 3

/-- The inner block of `static int largebin_index(unsigned int sz)`: the
branch-free nlz computation ("based on the nlz algorithm in Hacker's
Delight") of the bit position `m` of the highest set bit of `x`, transcribed
with 32-bit wraparound arithmetic. -/
def largebin_nlz (x : Nat) : Nat :=
  let n := (usub32 x 0x100 >>> 16) &&& 8
  let x := u32 (x <<< n)
  let m := (usub32 x 0x1000 >>> 16) &&& 4
  let n := n + m
  let x := u32 (x <<< m)
  let m := (usub32 x 0x4000 >>> 16) &&& 2
  let n := n + m
  let x := u32 (x <<< m) >>> 14
  usub32 (13 + (x &&& (U32 - 1 - (x >>> 1)))) n

/-- `static int largebin_index(unsigned int sz)`: `m` is the position of the
highest set bit of `sz >> 8` (computed by `largebin_nlz`), and the next two
bits create finer-granularity bins. -/
def largebin_index (sz : Nat) : Nat :=
  let x := u32 sz >>> SMALLBIN_WIDTH
  if 0x10000 ≤ x then NBINS - 1
  else
    let m := largebin_nlz x
    NSMALLBINS + (m <<< 2) + ((u32 sz >>> (m + 6)) &&& 3)

/-- `#define bin_index(sz) ((in_smallbin_range(sz)) ? smallbin_index(sz) : largebin_index(sz))`. -/
def bin_index (sz : Nat) : Nat :=
  if in_smallbin_range sz then smallbin_index sz else largebin_index sz

/-- `#define fastbin_index(sz) ((((unsigned int)(sz)) >> 3) - 2)` (wrap-around on
`unsigned int`, though all call sites keep it positive). -/
def fastbin_index (sz : Nat) : Nat := usub32 (u32 sz >>> 3) 2

/-- `#define NFASTBINS (fastbin_index(request2size(MAX_FAST_SIZE))+1)`. -/
def NFASTBINS : Nat := fastbin_index (request2size MAX_FAST_SIZE) + 1

/-- `#define BINMAPSHIFT 5`. -/
def BINMAPSHIFT : Nat := 5

/-- `#define BINMAPSIZE (NBINS / BITSPERMAP)`. -/
def BINMAPSIZE : Nat := NBINS / (1 <<< BINMAPSHIFT)

/-- `#define idx2block(i) ((i) >> BINMAPSHIFT)`. -/
def idx2block (i : Nat) : Nat := i >>> BINMAPSHIFT

/-- `#define idx2bit(i) ((1U << ((i) & ((1U << BINMAPSHIFT)-1))))`. -/
def idx2bit (i : Nat) : Nat := 1 <<< (i &&& ((1 <<< BINMAPSHIFT) - 1))

/-- `ANYCHUNKS_BIT`, flag bit 0 of `max_fast`. -/
def ANYCHUNKS_BIT : Nat := 1

/-- `FASTCHUNKS_BIT`, flag bit 1 of `max_fast`. -/
def FASTCHUNKS_BIT : Nat := 2

/-- `#define set_max_fast(M, s)`: the new cap is `SMALLBIN_WIDTH` when `s == 0`
and `request2size(s)` otherwise, or-ed with the preserved flag bits. -/
def set_max_fast_val (oldMaxFast s : Nat) : Nat :=
  (if s = 0 then SMALLBIN_WIDTH else request2size s) |||
    (oldMaxFast &&& (FASTCHUNKS_BIT ||| ANYCHUNKS_BIT))

/-- `#define get_max_fast(M) ((M)->max_fast & ~(FASTCHUNKS_BIT | ANYCHUNKS_BIT))`. -/
def get_max_fast_val (maxFast : Nat) : Nat :=
  maxFast &&& (W64 - 1 - (FASTCHUNKS_BIT ||| ANYCHUNKS_BIT))

/-! ### The allocator state

The stateful routines are embedded as explicit state-passing functions.
The contiguous heap is a physically consecutive list of chunks starting at
`heapBase`; a chunk's boundary-tag bits are represented as follows:

* the real size (`size & ~(PREV_INUSE|IS_MMAPPED)`) is the `csize` field;
* the `P` (prev-inuse) bit of a chunk is derived: it is set exactly when the
  physically preceding chunk is allocated or parked in a fastbin (fastbin
  chunks keep the successor's `P` bit set), or when there is no preceding
  chunk ("the very first chunk allocated always has this bit set");
* a free chunk's foot (the successor's `prev_size`) always mirrors `csize`
  (the code re-writes head and foot together whenever a chunk becomes free);
* the `M` bit is represented by membership in the separate `mmapped` map.

Doubly-linked bin lists are lists of chunk addresses in `fd` order: the head
of the list is `bin->fd` (most recently inserted at the head) and the last
element is `bin->bk`.  Fastbin stacks are lists of addresses with the head
being `*fb`.

The OS is modelled as a well-behaved contiguous `sbrk` region (`osBrk` is the
current break, `osAvail` the memory still available to `MORECORE`) plus an
anonymous-mapping allocator handing out fresh page-aligned regions at
`mmapNext` while `mmapAvail` lasts.  `MORECORE` never returns space below the
previous break and never interleaves with foreign sbrk calls, so the
foreign-sbrk / fencepost repair path of `sysmalloc` is unreachable; the
mmap-as-morecore fallback is modelled as unavailable (it would make the heap
discontiguous).
-/

/-- Allocation status of a chunk of the contiguous heap. -/
inductive CStatus where
  | inuse
  | fast
  | unsorted
  | binned
  | top
deriving DecidableEq, Repr

/-- One chunk of the contiguous heap: real size, status, abstract payload. -/
structure HChunk where
  csize : Nat
  status : CStatus
  data : List Nat
deriving DecidableEq, Repr

/-- A direct-mapped (`IS_MMAPPED`) chunk: its chunksize, the leading pad
stored in its `prev_size` field, and its abstract payload. -/
structure MmChunk where
  msize : Nat
  offset : Nat
  data : List Nat
deriving DecidableEq, Repr

/-- The allocator state: the fields of `struct malloc_state` plus the heap,
the direct mappings, and the modelled OS. -/
structure AState where
  max_fast : Nat
  fastbins : List (List Nat)
  bins : List (List Nat)
  binmap : List Nat
  top : Nat
  last_remainder : Nat
  trim_threshold : Nat
  top_pad : Nat
  mmap_threshold : Nat
  n_mmaps : Int
  n_mmaps_max : Int
  max_n_mmaps : Int
  pagesize : Nat
  morecore_properties : Nat
  mmapped_mem : Nat
  sbrked_mem : Nat
  max_sbrked_mem : Nat
  max_mmapped_mem : Nat
  max_total_mem : Nat
  heapBase : Nat
  heap : List HChunk
  mmapped : List (Nat × MmChunk)
  osBrk : Nat
  osAvail : Nat
  mmapNext : Nat
  mmapAvail : Nat
deriving DecidableEq, Repr

/-- Find the heap chunk whose base address is `a` (`base` is the address of
the first chunk in `hp`). -/
def chunkAtGo (base : Nat) (hp : List HChunk) (a : Nat) : Option HChunk :=
  match hp with
  | [] => none
  | c :: rest => if base = a then some c else chunkAtGo (base + c.csize) rest a

/-- The heap chunk based at address `a`, if any. -/
def AState.chunkAt (s : AState) (a : Nat) : Option HChunk :=
  chunkAtGo s.heapBase s.heap a

/-- Find the heap chunk that ends exactly at address `a` (the physical
predecessor of a chunk based at `a`). -/
def prevChunkGo (base : Nat) (hp : List HChunk) (a : Nat) : Option HChunk :=
  match hp with
  | [] => none
  | c :: rest =>
    if base + c.csize = a then some c else prevChunkGo (base + c.csize) rest a

/-- The heap chunk physically preceding address `a`, if any. -/
def AState.prevChunkOf (s : AState) (a : Nat) : Option HChunk :=
  prevChunkGo s.heapBase s.heap a

/-- The derived `P` (prev-inuse) bit of the boundary tag at address `a`: set
when the chunk ending at `a` is in use or parked in a fastbin, and set when
no chunk ends at `a` (the first chunk always has `P` set). -/
def pbitAt (s : AState) (a : Nat) : Bool :=
  match s.prevChunkOf a with
  | some c => c.status = CStatus.inuse ∨ c.status = CStatus.fast
  | none => true

/-- `p->prev_size`: the foot written by a free physical predecessor, i.e. the
predecessor's chunksize.  (Read only when the predecessor is free.) -/
def prevsizeAt (s : AState) (a : Nat) : Nat :=
  match s.prevChunkOf a with
  | some c => c.csize
  | none => 0

/-- Lookup of a direct-mapped chunk by address. -/
def mmLookup (s : AState) (a : Nat) : Option MmChunk :=
  List.lookup a s.mmapped

/-- `chunk_is_mmapped(p)`: the `M` bit of the chunk at `a`. -/
def chunk_is_mmapped (s : AState) (a : Nat) : Bool :=
  (mmLookup s a).isSome

/-- `chunksize(p)`: the size word with its status bits masked off. -/
def chunksizeAt (s : AState) (a : Nat) : Nat :=
  match s.chunkAt a with
  | some c => c.csize
  | none =>
    match mmLookup s a with
    | some mc => mc.msize
    | none => 0

/-- Rewrite the heap chunk based at `a` through `f`. -/
def mapChunkGo (base : Nat) (hp : List HChunk) (a : Nat) (f : HChunk → HChunk) :
    List HChunk :=
  match hp with
  | [] => []
  | c :: rest =>
    if base = a then f c :: rest else c :: mapChunkGo (base + c.csize) rest a f

/-- Rewrite the heap chunk based at `a` through `f`. -/
def AState.mapChunk (s : AState) (a : Nat) (f : HChunk → HChunk) : AState :=
  { s with heap := mapChunkGo s.heapBase s.heap a f }

/-- Record that the chunk based at `a` now has status `st`. -/
def setChunkStatus (s : AState) (a : Nat) (st : CStatus) : AState :=
  s.mapChunk a (fun c => { c with status := st })

/-- Overwrite the payload of the chunk based at `a`. -/
def setChunkData (s : AState) (a : Nat) (d : List Nat) : AState :=
  s.mapChunk a (fun c => { c with data := d })

/-- The payload of the chunk based at `a`. -/
def dataAt (s : AState) (a : Nat) : List Nat :=
  match s.chunkAt a with
  | some c => c.data
  | none => []

/-- Merge the heap chunk based at `a` with its physical successor: one chunk
with the combined size (boundary-tag coalescing). -/
def heapMergeGo (base : Nat) (hp : List HChunk) (a : Nat) : List HChunk :=
  match hp with
  | [] => []
  | c1 :: rest =>
    if base = a then
      match rest with
      | [] => [c1]
      | c2 :: rest2 =>
        { csize := c1.csize + c2.csize, status := c1.status, data := c1.data } :: rest2
    else c1 :: heapMergeGo (base + c1.csize) rest a

/-- Merge the heap chunk based at `a` with its physical successor. -/
def heapMergeAt (s : AState) (a : Nat) : AState :=
  { s with heap := heapMergeGo s.heapBase s.heap a }

/-- Split the chunk based at `a` into a front part of size `nb` with status
`st1` (keeping the payload) and a remainder with status `st2`. -/
def heapSplitGo (base : Nat) (hp : List HChunk) (a nb : Nat) (st1 st2 : CStatus) :
    List HChunk :=
  match hp with
  | [] => []
  | c :: rest =>
    if base = a then
      { csize := nb, status := st1, data := c.data } ::
        { csize := c.csize - nb, status := st2, data := [] } :: rest
    else c :: heapSplitGo (base + c.csize) rest a nb st1 st2

/-- Split the chunk based at `a` (front size `nb`, statuses `st1`/`st2`). -/
def heapSplit (s : AState) (a nb : Nat) (st1 st2 : CStatus) : AState :=
  { s with heap := heapSplitGo s.heapBase s.heap a nb st1 st2 }

/-- One past the end of the contiguous heap. -/
def heapEnd (s : AState) : Nat :=
  s.heapBase + (s.heap.map HChunk.csize).sum

/-- `set_fastchunks(M)`: `max_fast |= (FASTCHUNKS_BIT|ANYCHUNKS_BIT)`. -/
def AState.set_fastchunks (s : AState) : AState :=
  { s with max_fast := s.max_fast ||| (FASTCHUNKS_BIT ||| ANYCHUNKS_BIT) }

/-- `clear_fastchunks(M)`: `max_fast &= ~FASTCHUNKS_BIT`. -/
def AState.clear_fastchunks (s : AState) : AState :=
  { s with max_fast := s.max_fast &&& (W64 - 1 - FASTCHUNKS_BIT) }

/-- `set_anychunks(M)`: `max_fast |= ANYCHUNKS_BIT`. -/
def AState.set_anychunks (s : AState) : AState :=
  { s with max_fast := s.max_fast ||| ANYCHUNKS_BIT }

/-- `have_fastchunks(M)`. -/
def AState.have_fastchunks (s : AState) : Bool :=
  s.max_fast &&& FASTCHUNKS_BIT ≠ 0

/-- `have_anychunks(M)`. -/
def AState.have_anychunks (s : AState) : Bool :=
  s.max_fast &&& ANYCHUNKS_BIT ≠ 0

/-- `contiguous(M)`. -/
def AState.contiguous (s : AState) : Bool :=
  s.morecore_properties &&& 1 ≠ 0

/-- `unlink(P, BK, FD)`: remove a chunk address from the doubly-linked bin
list containing it (a free chunk is linked in exactly one normal-bin or
unsorted list). -/
def unlinkAddr (s : AState) (a : Nat) : AState :=
  { s with bins := s.bins.map (fun l => l.erase a) }

/-- `mark_bin(m, i)`. -/
def mark_bin (s : AState) (i : Nat) : AState :=
  { s with binmap :=
      s.binmap.set (idx2block i) (s.binmap.getD (idx2block i) 0 ||| idx2bit i) }

/-! ### Initialization and consolidation -/

/-- `malloc_init_state`: empty circular bins, default tunables, contiguous,
default `max_fast`, `top` pointing at the zero-sized initial pseudo-top
(modelled as address 0 with an empty heap, so `chunksize(top) = 0`). -/
def malloc_init_state (s : AState) : AState :=
  { s with
    bins := List.replicate NBINS []
    top_pad := DEFAULT_TOP_PAD
    n_mmaps_max := DEFAULT_MMAP_MAX
    mmap_threshold := DEFAULT_MMAP_THRESHOLD
    trim_threshold := DEFAULT_TRIM_THRESHOLD
    morecore_properties := s.morecore_properties ||| 1
    max_fast := set_max_fast_val s.max_fast DEFAULT_MXFAST
    top := 0
    pagesize := DEFAULT_SYS_PAGE_SIZE }

/-- The placement tail of one `malloc_consolidate` iteration: after the
backward coalesce, either coalesce forward and link the result at the head
of the unsorted queue, or fold it into `top`. -/
def consolidatePlace (s : AState) (p nextchunk nextsize : Nat) : AState :=
  if nextchunk ≠ s.top then
    let nextinuse := pbitAt s (nextchunk + nextsize)
    let s :=
      if ¬ nextinuse then heapMergeAt (unlinkAddr s nextchunk) p else s
    let s := setChunkStatus s p CStatus.unsorted
    { s with bins := s.bins.set 1 (p :: s.bins.getD 1 []) }
  else
    let s := heapMergeAt s p
    let s := setChunkStatus s p CStatus.top
    { s with top := p }

/-- One iteration of the inner do-while of `malloc_consolidate`: coalesce the
fastbin chunk `p0` with its free physical neighbors and link the result at
the head of the unsorted queue, or fold it into `top`. -/
def consolidateChunk (s0 : AState) (p0 : Nat) : AState :=
  let size0 := chunksizeAt s0 p0
  let nextchunk := p0 + size0
  let nextsize := chunksizeAt s0 nextchunk
  let back := ¬ pbitAt s0 p0
  let prevsize := prevsizeAt s0 p0
  let p := if back then p0 - prevsize else p0
  let s := if back then heapMergeAt (unlinkAddr s0 p) p else s0
  consolidatePlace s p nextchunk nextsize

/-- The fastbin sweep of `malloc_consolidate`: empty `count` fastbins
starting at index `i` (the do-while runs over indices `0` to
`fastbin_index(max_fast)` inclusive), consolidating each chain in order. -/
def consolidateBins : Nat → AState → Nat → AState
  | 0, s, _ => s
  | count + 1, s, i =>
    let lst := s.fastbins.getD i []
    let s1 := { s with fastbins := s.fastbins.set i [] }
    let s2 := lst.foldl consolidateChunk s1
    consolidateBins count s2 (i + 1)

/-- `static void malloc_consolidate(mstate av)`: tear down all fastbins,
clearing `FASTCHUNKS`; on the uninitialized state (`max_fast == 0`) perform
initialization instead. -/
def malloc_consolidate (s : AState) : AState :=
  if s.max_fast ≠ 0 then
    let s := s.clear_fastchunks
    consolidateBins (fastbin_index s.max_fast + 1) s 0
  else
    malloc_init_state s

/-! ### System trim -/

/-- The `extra` computation of `systrim`, in `unsigned long` arithmetic:
`extra = ((top_size - pad - MINSIZE + (pagesz-1)) / pagesz - 1) * pagesz`
(the operands are promoted to `unsigned long`; the result is the bit pattern
later reinterpreted as a signed `long`). -/
def systrim_extra (topSize pad pagesz : Nat) : Nat :=
  u64 (usub64 (u64 (usub64 (usub64 topSize pad) MINSIZE + (pagesz - 1)) / pagesz) 1
    * pagesz)

/-- Modelled from the spec: the release amount exactly as the specification
writes it, `extra = ((size(top) − pad − MIN_CHUNK) / page − 1) * page`, in
exact integer arithmetic.  Used only to compare the specified formula with
the one implemented by `systrim`. -/
def systrim_extra_spec (topSize pad pagesz : Nat) : Int :=
  (((topSize : Int) - (pad : Int) - (MINSIZE : Int)) / (pagesz : Int) - 1) * (pagesz : Int)

/-- `static int systrim(size_t pad, mstate av)`: release memory at the top of
the heap.  Computes `extra`; only if it is positive (as a signed `long`) and
the current break (`MORECORE(0)`) equals `top + top_size` does it call
`MORECORE(-extra)`, re-query the break, and shrink `top` by the released
amount.  Returns 1 iff memory was released. -/
def systrim (s : AState) (pad : Nat) : Int × AState :=
  let pagesz := s.pagesize
  let top_size := chunksizeAt s s.top
  let extra := systrim_extra top_size pad pagesz
  if 0 < toInt64 extra then
    let current_brk := s.osBrk
    if current_brk = s.top + top_size then
      let s1 := { s with osBrk := s.osBrk - extra, osAvail := s.osAvail + extra }
      let new_brk := s1.osBrk
      let released := current_brk - new_brk
      if released ≠ 0 then
        let s2 := { s1 with sbrked_mem := usub64 s1.sbrked_mem released }
        let s3 := s2.mapChunk s2.top (fun c => { c with csize := top_size - released })
        (1, s3)
      else (0, s1)
    else (0, s)
  else (0, s)

/-! ### Free -/

/-- The trailing block of the coalescing branch of `free`: above
`FASTBIN_CONSOLIDATION_THRESHOLD`, consolidate pending fastbin chunks and trim
the top of the heap past `trim_threshold`. -/
def freeCoalesceTail (s : AState) (size : Nat) : AState :=
  if FASTBIN_CONSOLIDATION_THRESHOLD ≤ size then
    let s := if s.have_fastchunks then malloc_consolidate s else s
    if s.trim_threshold ≤ chunksizeAt s s.top then (systrim s s.top_pad).2 else s
  else s

/-- The coalescing branch of `free` (a non-mmapped chunk above the fastbin
threshold): coalesce backward, then either coalesce forward and park the
result at the head of the unsorted queue, or fold it into `top`; finally
trigger consolidation and trimming above `FASTBIN_CONSOLIDATION_THRESHOLD`. -/
def freeCoalesce (s0 : AState) (p0 size0 : Nat) : AState :=
  let s := s0.set_anychunks
  let nextchunk := p0 + size0
  let nextsize := chunksizeAt s nextchunk
  let back := ¬ pbitAt s p0
  let prevsize := prevsizeAt s p0
  let p := if back then p0 - prevsize else p0
  let size1 := if back then size0 + prevsize else size0
  let s := if back then heapMergeAt (unlinkAddr s p) p else s
  if nextchunk ≠ s.top then
    let nextinuse := pbitAt s (nextchunk + nextsize)
    let s := if ¬ nextinuse then heapMergeAt (unlinkAddr s nextchunk) p else s
    let size := if ¬ nextinuse then size1 + nextsize else size1
    let s := setChunkStatus s p CStatus.unsorted
    freeCoalesceTail { s with bins := s.bins.set 1 (p :: s.bins.getD 1 []) } size
  else
    let s := heapMergeAt s p
    let s := setChunkStatus s p CStatus.top
    freeCoalesceTail { s with top := p } (size1 + nextsize)

/-- `void free(void* mem)`: no-op on null; fastbin push below the `max_fast`
threshold (without touching the successor's `P` bit); coalescing for other
non-mmapped chunks; `munmap` for direct mappings. -/
def free (s : AState) (mem : Nat) : AState :=
  if mem = 0 then s
  else
    let p := mem - 2 * SIZE_SZ
    let size := chunksizeAt s p
    if size ≤ s.max_fast then
      let s := s.set_fastchunks
      let idx := fastbin_index size
      let s := { s with fastbins := s.fastbins.set idx (p :: s.fastbins.getD idx []) }
      setChunkStatus s p CStatus.fast
    else if ¬ chunk_is_mmapped s p then
      freeCoalesce s p size
    else
      match mmLookup s p with
      | some mc =>
        { s with
          n_mmaps := s.n_mmaps - 1
          mmapped_mem := usub64 s.mmapped_mem (size + mc.offset)
          mmapped := s.mmapped.filter (fun e => e.1 ≠ p) }
      | none => s

/-! ### Malloc -/

/-- `#define FIRST_SORTED_BIN_SIZE MIN_LARGE_SIZE`. -/
def FIRST_SORTED_BIN_SIZE : Nat := MIN_LARGE_SIZE

/-- The raw `size` head word of the (non-mmapped) chunk at `a`: chunksize
plus the derived `P` bit. -/
def rawHead (s : AState) (a : Nat) : Nat :=
  chunksizeAt s a + (if pbitAt s a then 1 else 0)

/-- The sorted-insertion walk for large bins
(`while ((CHUNK_SIZE_T)(size) < (CHUNK_SIZE_T)(fwd->size)) fwd = fwd->fd`):
insert `victim` before the first chunk in `fd` order whose head word is not
larger than `size1 = size | PREV_INUSE`; ties place the new chunk first. -/
def sortedInsert (s : AState) (size1 victim : Nat) : List Nat → List Nat
  | [] => [victim]
  | a :: rest =>
    if size1 < rawHead s a then a :: sortedInsert s size1 victim rest
    else victim :: a :: rest

/-- The placement switch at the end of the drain loop: route an unconsumed
drained chunk into its definitive bin (head insertion for small bins and for
the pre-sort sizes; descending-size insertion for sorted large bins; a chunk
smaller than the bin's current smallest goes to the tail), then mark the
binmap bit. -/
def drainBinVictim (s : AState) (victim size : Nat) : AState :=
  let vidx :=
    if in_smallbin_range size then smallbin_index size else largebin_index size
  let blist := s.bins.getD vidx []
  let blist' :=
    if in_smallbin_range size then victim :: blist
    else
      match blist with
      | [] => victim :: blist
      | _ :: _ =>
        if size < rawHead s (blist.getLast?.getD 0) then blist ++ [victim]
        else if FIRST_SORTED_BIN_SIZE ≤ size then
          sortedInsert s (size ||| 1) victim blist
        else victim :: blist
  let s := mark_bin s vidx
  let s := setChunkStatus s victim CStatus.binned
  { s with bins := s.bins.set vidx blist' }

/-- Advance to the next nonempty binmap word
(`do { if (++block >= BINMAPSIZE) goto use_top; } while (binmap[block]==0)`);
the counter `c` bounds the walk by the number of remaining words. -/
def binmapNextBlockGo : Nat → AState → Nat → Option Nat
  | 0, _, _ => none
  | c + 1, s, block =>
    if BINMAPSIZE ≤ block + 1 then none
    else if s.binmap.getD (block + 1) 0 ≠ 0 then some (block + 1)
    else binmapNextBlockGo c s (block + 1)

/-- Advance to the next nonempty binmap word below `BINMAPSIZE`. -/
def binmapNextBlock (s : AState) (block : Nat) : Option Nat :=
  binmapNextBlockGo BINMAPSIZE s block

/-- The final placement of `sysmalloc`: update high-water statistics and
split the request off the grown top if it now suffices, else fail. -/
def sysmallocFinish (s : AState) (nb : Nat) : Option Nat × AState :=
  let s := { s with max_sbrked_mem := max s.sbrked_mem s.max_sbrked_mem }
  let s := { s with
    max_total_mem := max (u64 (s.sbrked_mem + s.mmapped_mem)) s.max_total_mem }
  let p := s.top
  let size := chunksizeAt s p
  if nb + MINSIZE ≤ size then
    let remainder := p + nb
    let s := heapSplit s p nb CStatus.inuse CStatus.top
    let s := { s with top := remainder }
    (some (p + 2 * SIZE_SZ), s)
  else (none, s)

/-- The contiguous-extension branch of `sysmalloc`: compute the padded,
page-rounded request, call `MORECORE`, and either grow `top` in place
(extension at the previous break) or install the first heap region (aligning
its start and padding its end to a page boundary with a second `MORECORE`
call).  The modelled OS has no mmap-as-morecore fallback and never produces
a foreign-sbrk hole, so on `MORECORE` failure the allocation fails, and the
fencepost repair path for a hole after a nonempty heap is unreachable. -/
def sysmallocSbrk (s : AState) (nb : Nat) : Option Nat × AState :=
  let pagemask := s.pagesize - 1
  let old_top := s.top
  let old_size := chunksizeAt s old_top
  let old_end := old_top + old_size
  let size0 :=
    usub64 (u64 (nb + s.top_pad + MINSIZE)) (if s.contiguous then old_size else 0)
  let size := u64 (size0 + pagemask) &&& (W64 - s.pagesize)
  if 0 < toInt64 size ∧ size ≤ s.osAvail then
    let brk := s.osBrk
    let s := { s with osBrk := s.osBrk + size, osAvail := s.osAvail - size }
    let s := { s with sbrked_mem := u64 (s.sbrked_mem + size) }
    if brk = old_end then
      let s := s.mapChunk old_top (fun c => { c with csize := c.csize + size })
      sysmallocFinish s nb
    else if old_size = 0 then
      let front_misalign := (brk + 2 * SIZE_SZ) &&& MALLOC_ALIGN_MASK
      let correction0 :=
        if 0 < front_misalign then MALLOC_ALIGNMENT - front_misalign else 0
      let aligned_brk := brk + correction0
      let end_misalign := u64 (brk + size + correction0)
      let correction1 := correction0 +
        ((u64 (end_misalign + pagemask) &&& (W64 - s.pagesize)) - end_misalign)
      let sndOk := correction1 ≤ s.osAvail
      let snd_brk := s.osBrk
      let s :=
        if sndOk then
          { s with osBrk := s.osBrk + correction1, osAvail := s.osAvail - correction1,
                   sbrked_mem := u64 (s.sbrked_mem + correction1) }
        else s
      let correction := if sndOk then correction1 else 0
      let topsize := snd_brk - aligned_brk + correction
      let s := { s with top := aligned_brk, heapBase := aligned_brk,
                        heap := [{ csize := topsize, status := CStatus.top, data := [] }] }
      sysmallocFinish s nb
    else (none, s)
  else (none, s)

/-- The direct-mapping branch of `sysmalloc` (request at or above
`mmap_threshold` with mappings available): map a page-rounded region at a
fresh address, record the front pad in `prev_size`, set the `M` bit and the
statistics; fall to the contiguous extension branch when this path does not
apply or the mapping fails. -/
def sysmallocCore (s : AState) (nb : Nat) : Option Nat × AState :=
  let pagemask := s.pagesize - 1
  if s.mmap_threshold ≤ nb ∧ s.n_mmaps < s.n_mmaps_max then
    let size := u64 (nb + SIZE_SZ + MALLOC_ALIGN_MASK + pagemask) &&& (W64 - s.pagesize)
    if nb < size ∧ size ≤ s.mmapAvail then
      let mm := s.mmapNext
      let front_misalign := (mm + 2 * SIZE_SZ) &&& MALLOC_ALIGN_MASK
      let correction :=
        if 0 < front_misalign then MALLOC_ALIGNMENT - front_misalign else 0
      let p := mm + correction
      let s := { s with
        mmapNext := s.mmapNext + size + s.pagesize
        mmapAvail := s.mmapAvail - size
        n_mmaps := s.n_mmaps + 1
        max_n_mmaps := max (s.n_mmaps + 1) s.max_n_mmaps
        mmapped :=
          (p, { msize := size - correction, offset := correction, data := [] })
            :: s.mmapped
        mmapped_mem := u64 (s.mmapped_mem + size) }
      let s := { s with
        max_mmapped_mem := max s.mmapped_mem s.max_mmapped_mem
        max_total_mem := max (u64 (s.mmapped_mem + s.sbrked_mem)) s.max_total_mem }
      (some (p + 2 * SIZE_SZ), s)
    else sysmallocSbrk s nb
  else sysmallocSbrk s nb

/-- The type of the retry continuation threaded through the `malloc`
phases: `sysmalloc` re-enters `malloc` (with one unit of fuel consumed)
after consolidating pending fastbin chunks. -/
abbrev Retry := AState → Nat → Option Nat × AState

/-- `static void* sysmalloc(INTERNAL_SIZE_T nb, mstate av)`: if fastbin
chunks are pending (small request), consolidate and retry `malloc` from
scratch; otherwise acquire system memory. -/
def sysmalloc (retry : Retry) (s : AState) (nb : Nat) : Option Nat × AState :=
  if s.have_fastchunks then
    let s := malloc_consolidate s
    retry s (nb - MALLOC_ALIGN_MASK)
  else sysmallocCore s nb

/-- `use_top`: split the request off `top` when it is large enough to leave a
legal top, else go to the system allocator. -/
def mallocUseTop (retry : Retry) (s : AState) (nb : Nat) : Option Nat × AState :=
  let victim := s.top
  let size := chunksizeAt s victim
  if nb + MINSIZE ≤ size then
    let remainder := victim + nb
    let s := heapSplit s victim nb CStatus.inuse CStatus.top
    let s := { s with top := remainder }
    (some (victim + 2 * SIZE_SZ), s)
  else sysmalloc retry s nb

/-- The binmap scan of `malloc`: skip empty map words, advance to the next
set bit, clear stale bits, and take the tail chunk of the first nonempty
bin, splitting any remainder of at least `MINSIZE` into the unsorted queue
(recording it as `last_remainder` for small requests). -/
def mallocBinmapScan (retry : Retry) (s : AState) (nb block bit binIdx : Nat) :
    Nat → Option Nat × AState
  | 0 => mallocUseTop retry s nb
  | b + 1 =>
    let map := s.binmap.getD block 0
    if map < bit ∨ bit = 0 then
      match binmapNextBlock s block with
      | none => mallocUseTop retry s nb
      | some block' =>
        mallocBinmapScan retry s nb block' 1 (block' <<< BINMAPSHIFT) b
    else if map &&& bit = 0 then
      mallocBinmapScan retry s nb block (u32 (bit <<< 1)) (binIdx + 1) b
    else
      let blist := s.bins.getD binIdx []
      match blist.getLast? with
      | none =>
        let s := { s with binmap := s.binmap.set block (map &&& (U32 - 1 - bit)) }
        mallocBinmapScan retry s nb block (u32 (bit <<< 1)) (binIdx + 1) b
      | some victim =>
        let size := chunksizeAt s victim
        let remainder_size := usub64 size nb
        let s := { s with bins := s.bins.set binIdx blist.dropLast }
        if remainder_size < MINSIZE then
          (some (victim + 2 * SIZE_SZ), setChunkStatus s victim CStatus.inuse)
        else
          let remainder := victim + nb
          let s := heapSplit s victim nb CStatus.inuse CStatus.unsorted
          let s := { s with bins := s.bins.set 1 [remainder] }
          let s :=
            if in_smallbin_range nb then { s with last_remainder := remainder }
            else s
          (some (victim + 2 * SIZE_SZ), s)

/-- Start of the binmap best-fit scan, from the bin above the target. -/
def mallocBinmapStart (retry : Retry) (s : AState) (nb idx : Nat) :
    Option Nat × AState :=
  mallocBinmapScan retry s nb (idx2block (idx + 1)) (idx2bit (idx + 1)) (idx + 1)
    (4 * NBINS)

/-- The body of the targeted large-bin search (candidates in `bk` order). -/
def mallocLargeScanLoop (retry : Retry) (s : AState) (nb idx : Nat) :
    List Nat → Option Nat × AState
  | [] => mallocBinmapStart retry s nb idx
  | victim :: rest =>
    let size := chunksizeAt s victim
    if nb ≤ size then
      let remainder_size := size - nb
      let s := unlinkAddr s victim
      if remainder_size < MINSIZE then
        (some (victim + 2 * SIZE_SZ), setChunkStatus s victim CStatus.inuse)
      else
        let remainder := victim + nb
        let s := heapSplit s victim nb CStatus.inuse CStatus.unsorted
        let s := { s with bins := s.bins.set 1 [remainder] }
        (some (victim + 2 * SIZE_SZ), s)
    else mallocLargeScanLoop retry s nb idx rest

/-- The targeted large-bin search: for a large request, scan the bin at `idx`
from its tail (smallest end) for the first chunk of size at least `nb`. -/
def mallocLargeScan (retry : Retry) (s : AState) (nb idx : Nat) :
    Option Nat × AState :=
  if ¬ in_smallbin_range nb then
    mallocLargeScanLoop retry s nb idx (s.bins.getD idx []).reverse
  else mallocBinmapStart retry s nb idx

/-- The outcome of one iteration of the unsorted-queue drain: the loop
returns a payload from `malloc`, or continues with the chunk binned, or
exits because the queue is empty. -/
inductive DrainOutcome where
  | ret (mem : Nat) (s : AState)
  | next (s : AState)
  | exit (s : AState)
deriving DecidableEq, Repr

/-- One iteration of the unsorted-queue drain of `malloc`
(`while ((victim = unsorted_chunks(av)->bk) != unsorted_chunks(av))`): pop
`victim` from the tail; a small request takes a sole `last_remainder` chunk
by splitting it when its size strictly exceeds `nb + MINSIZE` (re-linking
the remainder as the sole unsorted chunk and new `last_remainder`); an exact
fit is taken; any other chunk is routed to its definitive bin and the loop
continues. -/
def drainIteration (s : AState) (nb : Nat) : DrainOutcome :=
  let ulist := s.bins.getD 1 []
  match ulist.getLast? with
  | none => DrainOutcome.exit s
  | some victim =>
    let size := chunksizeAt s victim
    if in_smallbin_range nb ∧ ulist.length = 1 ∧ victim = s.last_remainder ∧
        nb + MINSIZE < size then
      let remainder := victim + nb
      let s := heapSplit s victim nb CStatus.inuse CStatus.unsorted
      let s := { s with bins := s.bins.set 1 [remainder],
                        last_remainder := remainder }
      DrainOutcome.ret (victim + 2 * SIZE_SZ) s
    else
      let s := { s with bins := s.bins.set 1 ulist.dropLast }
      if size = nb then
        DrainOutcome.ret (victim + 2 * SIZE_SZ) (setChunkStatus s victim CStatus.inuse)
      else
        DrainOutcome.next (drainBinVictim s victim size)

/-- Whether a drain iteration returned a payload. -/
def DrainOutcome.isRet : DrainOutcome → Bool
  | DrainOutcome.ret _ _ => true
  | _ => false

/-- The payload returned by a drain iteration, if any. -/
def DrainOutcome.mem? : DrainOutcome → Option Nat
  | DrainOutcome.ret m _ => some m
  | _ => none

/-- The state carried by a drain-iteration outcome. -/
def DrainOutcome.state : DrainOutcome → AState
  | DrainOutcome.ret _ s => s
  | DrainOutcome.next s => s
  | DrainOutcome.exit s => s

/-- The unsorted-queue drain of `malloc`: iterate `drainIteration` until it
returns or the queue is exhausted, then fall to the large-bin search. -/
def mallocDrainLoop (retry : Retry) (s : AState) (nb idx : Nat) :
    Nat → Option Nat × AState
  | 0 => mallocLargeScan retry s nb idx
  | d + 1 =>
    match drainIteration s nb with
    | DrainOutcome.exit s => mallocLargeScan retry s nb idx
    | DrainOutcome.ret mem s => (some mem, s)
    | DrainOutcome.next s => mallocDrainLoop retry s nb idx d

/-- Entry to the unsorted-queue drain (the drain removes one chunk per
iteration, so the queue length bounds it). -/
def mallocDrain (retry : Retry) (s : AState) (nb idx : Nat) :
    Option Nat × AState :=
  mallocDrainLoop retry s nb idx ((s.bins.getD 1 []).length + 1)

/-- The small-bin attempt of `malloc`: exact-fit tail pop from the small bin;
for large requests, set the large-bin index and consolidate fastbins first. -/
def mallocSmall (retry : Retry) (s : AState) (nb : Nat) : Option Nat × AState :=
  if in_smallbin_range nb then
    let idx := smallbin_index nb
    let bin := s.bins.getD idx []
    match bin.getLast? with
    | some victim =>
      let s := { s with bins := s.bins.set idx bin.dropLast }
      (some (victim + 2 * SIZE_SZ), setChunkStatus s victim CStatus.inuse)
    | none => mallocDrain retry s nb idx
  else
    let idx := largebin_index nb
    let s := if s.have_fastchunks then malloc_consolidate s else s
    mallocDrain retry s nb idx

/-- The fastbin attempt of `malloc` (`nb ≤ av->max_fast`): LIFO pop. -/
def mallocFast (retry : Retry) (s : AState) (nb : Nat) : Option Nat × AState :=
  if nb ≤ s.max_fast then
    let idx := fastbin_index nb
    match (s.fastbins.getD idx []).head? with
    | some victim =>
      if victim ≠ 0 then
        let s := { s with
          fastbins := s.fastbins.set idx (s.fastbins.getD idx []).tail }
        (some (victim + 2 * SIZE_SZ), setChunkStatus s victim CStatus.inuse)
      else mallocSmall retry s nb
    | none => mallocSmall retry s nb
  else mallocSmall retry s nb

/-- `void* malloc(size_t bytes)`: range-check and normalize the request, then
run the bin hierarchy.  `fuel` bounds the consolidate-and-retry recursion of
`sysmalloc` (with fuel 0 the model reports failure; one recursion can occur
per call, so any positive fuel beyond the retry depth is adequate). -/
def malloc : Nat → AState → Nat → Option Nat × AState
  | 0, s, _ => (none, s)
  | f + 1, s, bytes =>
    if REQUEST_OUT_OF_RANGE bytes then (none, s)
    else
      let nb := request2size bytes
      if ¬ s.have_anychunks then
        let s := if s.max_fast = 0 then malloc_consolidate s else s
        mallocUseTop (malloc f) s nb
      else mallocFast (malloc f) s nb

/-! ### Realloc, calloc, memalign and the remaining public routines -/

/-- The "free extra space in old or extended chunk" tail of `realloc`: keep
the whole chunk when the slack is below `MINSIZE`, else split the tail off as
a temporarily-inuse chunk and `free` it (routing it to a fastbin or the
unsorted queue). -/
def reallocSplit (s : AState) (newp newsize nb : Nat) : Option Nat × AState :=
  let remainder_size := newsize - nb
  if remainder_size < MINSIZE then
    (some (newp + 2 * SIZE_SZ), s)
  else
    let s := heapSplit s newp nb CStatus.inuse CStatus.inuse
    let s := free s (newp + nb + 2 * SIZE_SZ)
    (some (newp + 2 * SIZE_SZ), s)

/-- `void* realloc(void* oldmem, size_t bytes)`: null relays to `malloc`;
non-mmapped chunks try in-place reuse, forward expansion into `top` or into a
free successor, then allocate-copy-free (with the no-copy splice when the new
chunk directly follows the old); mmapped chunks are kept when big enough,
else reallocated and unmapped. -/
def realloc (fuel : Nat) (s : AState) (oldmem bytes : Nat) : Option Nat × AState :=
  if oldmem = 0 then malloc fuel s bytes
  else if REQUEST_OUT_OF_RANGE bytes then (none, s)
  else
    let nb := request2size bytes
    let oldp := oldmem - 2 * SIZE_SZ
    let oldsize := chunksizeAt s oldp
    if ¬ chunk_is_mmapped s oldp then
      if nb ≤ oldsize then reallocSplit s oldp oldsize nb
      else
        let next := oldp + oldsize
        let nextsize := chunksizeAt s next
        if next = s.top ∧ nb + MINSIZE ≤ oldsize + nextsize then
          let s := heapSplit (heapMergeAt s oldp) oldp nb CStatus.inuse CStatus.top
          let s := { s with top := oldp + nb }
          (some (oldp + 2 * SIZE_SZ), s)
        else if next ≠ s.top ∧ ¬ pbitAt s (next + nextsize) ∧
            nb ≤ oldsize + nextsize then
          let s := heapMergeAt (unlinkAddr s next) oldp
          reallocSplit s oldp (oldsize + nextsize) nb
        else
          match malloc fuel s (nb - MALLOC_ALIGN_MASK) with
          | (none, s1) => (none, s1)
          | (some newmem, s1) =>
            let newp := newmem - 2 * SIZE_SZ
            let newsize := chunksizeAt s1 newp
            if newp = next then
              let s2 := heapMergeAt s1 oldp
              reallocSplit s2 oldp (oldsize + newsize) nb
            else
              let s2 := setChunkData s1 newp (dataAt s1 oldp)
              let s3 := free s2 oldmem
              (some newmem, s3)
    else
      if nb + SIZE_SZ ≤ oldsize then (some oldmem, s)
      else
        match malloc fuel s (nb - MALLOC_ALIGN_MASK) with
        | (none, s1) => (none, s1)
        | (some newmem, s1) =>
          let s2 := setChunkData s1 (newmem - 2 * SIZE_SZ)
            (((mmLookup s1 (oldmem - 2 * SIZE_SZ)).map MmChunk.data).getD [])
          let s3 := free s2 oldmem
          (some newmem, s3)

/-- `void* calloc(size_t n_elements, size_t elem_size)`: `malloc` of the
`size_t` product `n_elements * elem_size` (wrapping on overflow, with no
overflow check), then clear the payload of a non-mmapped result. -/
def calloc (fuel : Nat) (s : AState) (n_elements elem_size : Nat) :
    Option Nat × AState :=
  match malloc fuel s (u64 (n_elements * elem_size)) with
  | (none, s1) => (none, s1)
  | (some mem, s1) =>
    let p := mem - 2 * SIZE_SZ
    if ¬ chunk_is_mmapped s1 p then
      let clearsize := chunksizeAt s1 p - SIZE_SZ
      (some mem, setChunkData s1 p (List.replicate (clearsize / SIZE_SZ) 0))
    else (some mem, s1)

/-- `void cfree(void* mem)`. -/
def cfree (s : AState) (mem : Nat) : AState := free s mem

/-- The power-of-two round-up loop of `memalign`
(`a = MALLOC_ALIGNMENT*2; while (a < alignment) a <<= 1`). -/
def alignPow2go : Nat → Nat → Nat → Nat
  | 0, a, _ => a
  | f + 1, a, alignment =>
    if a < alignment then alignPow2go f (a <<< 1) alignment else a

/-- The trailing split of `memalign` ("give back spare room at the end"). -/
def memalignTail (s : AState) (p nb : Nat) : Option Nat × AState :=
  if ¬ chunk_is_mmapped s p then
    let size := chunksizeAt s p
    if nb + MINSIZE < size then
      let s := heapSplit s p nb CStatus.inuse CStatus.inuse
      let s := free s (p + nb + 2 * SIZE_SZ)
      (some (p + 2 * SIZE_SZ), s)
    else (some (p + 2 * SIZE_SZ), s)
  else (some (p + 2 * SIZE_SZ), s)

/-- `void* memalign(size_t alignment, size_t bytes)`: degenerate to `malloc`
for small alignments; else over-allocate by `alignment + MINSIZE`, move to
the lowest aligned payload inside (skipping one more alignment unit when the
leader would be below `MINSIZE`), free the leader, free the tail.
`memalignAdjust` is the alignment adjustment applied to a successful
over-allocation. -/
def memalignAdjust (s1 : AState) (m alignment nb : Nat) : Option Nat × AState :=
  let p := m - 2 * SIZE_SZ
  if m % alignment ≠ 0 then
    let aligned := u64 (m + alignment - 1) &&& (W64 - alignment)
    let brk0 := aligned - 2 * SIZE_SZ
    let brk := if brk0 - p < MINSIZE then brk0 + alignment else brk0
    let leadsize := brk - p
    let newsize := chunksizeAt s1 p - leadsize
    if chunk_is_mmapped s1 p then
      match mmLookup s1 p with
      | some mc =>
        let s2 := { s1 with mmapped :=
          (brk, { msize := newsize, offset := mc.offset + leadsize,
                  data := mc.data }) ::
            s1.mmapped.filter (fun e => e.1 ≠ p) }
        (some (brk + 2 * SIZE_SZ), s2)
      | none => (some (brk + 2 * SIZE_SZ), s1)
    else
      let s2 := heapSplit s1 p leadsize CStatus.inuse CStatus.inuse
      let s3 := free s2 (p + 2 * SIZE_SZ)
      memalignTail s3 brk nb
  else memalignTail s1 p nb

/-- The continuation of `memalign` on the result of its over-allocation. -/
def memalignAfter (r : Option Nat × AState) (alignment nb : Nat) :
    Option Nat × AState :=
  match r with
  | (none, s1) => (none, s1)
  | (some m, s1) => memalignAdjust s1 m alignment nb

def memalign (fuel : Nat) (s : AState) (alignment bytes : Nat) :
    Option Nat × AState :=
  if alignment ≤ MALLOC_ALIGNMENT then malloc fuel s bytes
  else
    let alignment := if alignment < MINSIZE then MINSIZE else alignment
    let alignment :=
      if alignment &&& (alignment - 1) ≠ 0 then
        alignPow2go 64 (MALLOC_ALIGNMENT * 2) alignment
      else alignment
    if REQUEST_OUT_OF_RANGE bytes then (none, s)
    else
      let nb := request2size bytes
      memalignAfter (malloc fuel s (nb + alignment + MINSIZE)) alignment nb

/-- `void* valloc(size_t bytes)`. -/
def valloc (fuel : Nat) (s : AState) (bytes : Nat) : Option Nat × AState :=
  let s := if s.max_fast = 0 then malloc_consolidate s else s
  memalign fuel s s.pagesize bytes

/-- `void* pvalloc(size_t bytes)`. -/
def pvalloc (fuel : Nat) (s : AState) (bytes : Nat) : Option Nat × AState :=
  let s := if s.max_fast = 0 then malloc_consolidate s else s
  let pagesz := s.pagesize
  memalign fuel s pagesz (u64 (bytes + pagesz - 1) &&& (W64 - pagesz))

/-- `int malloc_trim(size_t pad)`: consolidate, then `systrim`. -/
def malloc_trim (s : AState) (pad : Nat) : Int × AState :=
  systrim (malloc_consolidate s) pad

/-- `size_t malloc_usable_size(void* mem)`: 0 for null; `chunksize - 2*SIZE_SZ`
for an mmapped chunk; `chunksize - SIZE_SZ` when the chunk is in use (the `P`
bit of its physical successor is set); 0 otherwise (a free chunk). -/
def malloc_usable_size (s : AState) (mem : Nat) : Nat :=
  if mem ≠ 0 then
    let p := mem - 2 * SIZE_SZ
    if chunk_is_mmapped s p then chunksizeAt s p - 2 * SIZE_SZ
    else if pbitAt s (p + chunksizeAt s p) then chunksizeAt s p - SIZE_SZ
    else 0
  else 0

/-- The tunable parameter numbers accepted by `mallopt` (their numeric values
live in the repository's `malloc.h`, which only declares them; the switch in
`malloc.c` distinguishes the five cases). -/
inductive MallocParam where
  | M_MXFAST
  | M_TRIM_THRESHOLD
  | M_TOP_PAD
  | M_MMAP_THRESHOLD
  | M_MMAP_MAX
deriving DecidableEq, Repr

/-- Conversion of a C `int` value to a `size_t` field (two's complement). -/
def intToU64 (v : Int) : Nat := (v % (W64 : Int)).toNat

/-- `int mallopt(int param_number, int value)`: consolidate (ensuring
initialization), then set the tunable; `M_MXFAST` applies only for
`0 ≤ value ≤ MAX_FAST_SIZE`. -/
def mallopt (s : AState) (param : MallocParam) (value : Int) : Int × AState :=
  let s := malloc_consolidate s
  match param with
  | MallocParam.M_MXFAST =>
    if 0 ≤ value ∧ value ≤ (MAX_FAST_SIZE : Int) then
      (1, { s with max_fast := set_max_fast_val s.max_fast value.toNat })
    else (0, s)
  | MallocParam.M_TRIM_THRESHOLD => (1, { s with trim_threshold := intToU64 value })
  | MallocParam.M_TOP_PAD => (1, { s with top_pad := intToU64 value })
  | MallocParam.M_MMAP_THRESHOLD => (1, { s with mmap_threshold := intToU64 value })
  | MallocParam.M_MMAP_MAX => (1, { s with n_mmaps_max := value })

/-! ### The public-operation machine -/

/-- A public operation of the allocator (the state-mutating entry points
embedded above). -/
inductive MOp where
  | mMalloc (bytes : Nat)
  | mFree (mem : Nat)
  | mRealloc (mem bytes : Nat)
  | mCalloc (k sz : Nat)
  | mMemalign (al bytes : Nat)
  | mValloc (bytes : Nat)
  | mPvalloc (bytes : Nat)
  | mCfree (mem : Nat)
  | mTrim (pad : Nat)
  | mMallopt (p : MallocParam) (v : Int)
deriving DecidableEq, Repr

/-- The state transition of one public operation. -/
def step (fuel : Nat) (op : MOp) (s : AState) : AState :=
  match op with
  | MOp.mMalloc bytes => (malloc fuel s bytes).2
  | MOp.mFree mem => free s mem
  | MOp.mRealloc mem bytes => (realloc fuel s mem bytes).2
  | MOp.mCalloc k sz => (calloc fuel s k sz).2
  | MOp.mMemalign al bytes => (memalign fuel s al bytes).2
  | MOp.mValloc bytes => (valloc fuel s bytes).2
  | MOp.mPvalloc bytes => (pvalloc fuel s bytes).2
  | MOp.mCfree mem => cfree s mem
  | MOp.mTrim pad => (malloc_trim s pad).2
  | MOp.mMallopt p v => (mallopt s p v).2

/-- The all-zero static `malloc_state` at process start, over a modelled OS
(initial break `brk0`, contiguous budget `avail0`, anonymous mappings at
`mnext0` with budget `mavail0`). -/
def initialAState (brk0 avail0 mnext0 mavail0 : Nat) : AState :=
  { max_fast := 0, fastbins := List.replicate NFASTBINS [],
    bins := List.replicate NBINS [], binmap := List.replicate (BINMAPSIZE + 1) 0,
    top := 0, last_remainder := 0, trim_threshold := 0, top_pad := 0,
    mmap_threshold := 0, n_mmaps := 0, n_mmaps_max := 0, max_n_mmaps := 0,
    pagesize := 0, morecore_properties := 0, mmapped_mem := 0, sbrked_mem := 0,
    max_sbrked_mem := 0, max_mmapped_mem := 0, max_total_mem := 0,
    heapBase := 0, heap := [], mmapped := [], osBrk := brk0, osAvail := avail0,
    mmapNext := mnext0, mmapAvail := mavail0 }

/-- Example state for exercising `malloc_usable_size`: a two-chunk heap at
base 64 (a free binned chunk followed by an in-use chunk) plus one
direct-mapped chunk at 4096. -/
def C9exState : AState :=
  { initialAState 4096 0 0 0 with
    heapBase := 64
    heap := [⟨32, CStatus.binned, []⟩, ⟨32, CStatus.inuse, []⟩]
    mmapped := [(4096, ⟨4112, 16, []⟩)] }

/-- Example initialized state for the `max_fast` invariant: the freshly
initialized allocator over the modelled OS. -/
def C10exState : AState :=
  malloc_init_state (initialAState 4096 (2 ^ 24) (2 ^ 60) (2 ^ 30))

/-- Example state for the `realloc`-failure frame: one 32-byte in-use chunk
at 4096 below a 4064-byte top, with the contiguous OS budget exhausted, so a
growing `realloc` must fail. -/
def C8exState : AState :=
  (malloc 10 (initialAState 4096 4096 (2 ^ 60) 0) 24).2

/-- The frame conditions under which an in-use, non-mmapped chunk `c` at
address `a` is untouched by a failing allocation: the chunk is present, in
use and nonempty; the allocator is initialized (`max_fast` value nonzero
under its flag mask); the `top` chunk is present with status `top` and is
the physically last chunk; every heap chunk has positive size; every normal
bin holds distinct addresses of unsorted/binned chunks, each address in one
bin only; and every fastbin holds distinct addresses of fastbin-status
chunks, each address in one fastbin only. -/
def frame8 (a : Nat) (c : HChunk) (t : AState) : Prop :=
  t.chunkAt a = some c ∧ c.status = CStatus.inuse ∧ 0 < c.csize ∧
  get_max_fast_val t.max_fast ≠ 0 ∧
  (∃ tc, t.chunkAt t.top = some tc ∧ tc.status = CStatus.top) ∧
  (∀ x cx, t.chunkAt x = some cx → x ≤ t.top) ∧
  (∀ ch ∈ t.heap, 0 < ch.csize) ∧
  (∀ i, ∀ x ∈ t.bins.getD i [], ∃ b, t.chunkAt x = some b ∧
    (b.status = CStatus.unsorted ∨ b.status = CStatus.binned)) ∧
  (∀ i, (t.bins.getD i []).Nodup) ∧
  (∀ i j, i ≠ j → ∀ x ∈ t.bins.getD i [], x ∉ t.bins.getD j []) ∧
  (∀ i, ∀ x ∈ t.fastbins.getD i [], ∃ f, t.chunkAt x = some f ∧
    f.status = CStatus.fast) ∧
  (∀ i, (t.fastbins.getD i []).Nodup) ∧
  (∀ i j, i ≠ j → ∀ x ∈ t.fastbins.getD i [], x ∉ t.fastbins.getD j [])


/-- On 16-bit inputs, the `(x - c) >> 16` trick leaves 0xFFFF exactly when the
subtraction borrowed, and 0 otherwise. -/
theorem usub32_shiftRight16 (x c : Nat) (hx : x < 65536) (hc : 0 < c)
    (hc' : c ≤ 65536) :
    usub32 x c >>> 16 = if x < c then 65535 else 0 := by
  simp only [usub32, u32, U32, Nat.shiftRight_eq_div_pow]
  norm_num
  split <;> omega

/-- The tail of the nlz block: once the value has been normalized into
`[2^14, 2^16)` by the accumulated shift `S`, the final `13 - n + (x & ~(x>>1))`
step recovers the bit position `k` of the original value. -/
theorem largebin_nlz_endgame (x k S y : Nat) (hS : S ≤ 14) (hy : y = x * 2 ^ S)
    (hx : 2 ^ k ≤ x) (hx2 : x < 2 ^ (k + 1)) (hlo : 16384 ≤ y) (hhi : y < 65536) :
    usub32 (13 + ((y >>> 14) &&& (U32 - 1 - (y >>> 14 >>> 1)))) S = k := by
  have e1 : 2 ^ (k + S) ≤ y := by
    rw [hy, pow_add]; exact Nat.mul_le_mul_right _ hx
  have e2 : y < 2 ^ (k + S + 1) := by
    rw [hy]
    calc x * 2 ^ S < 2 ^ (k + 1) * 2 ^ S :=
          (Nat.mul_lt_mul_right (Nat.two_pow_pos S)).mpr hx2
      _ = 2 ^ (k + S + 1) := by rw [← pow_add]; congr 1; omega
  have hks : k + S = 14 ∨ k + S = 15 := by
    have l1 : k + S < 16 := by
      by_contra hcon
      have : (2 : Nat) ^ 16 ≤ 2 ^ (k + S) :=
        Nat.pow_le_pow_right (by norm_num) (by omega)
      omega
    have l2 : 13 < k + S := by
      by_contra hcon
      have : (2 : Nat) ^ (k + S + 1) ≤ 2 ^ 14 :=
        Nat.pow_le_pow_right (by norm_num) (by omega)
      omega
    omega
  have hy14 : y >>> 14 = y / 16384 := by
    rw [Nat.shiftRight_eq_div_pow]
  rcases hks with h14 | h15
  · have hy1 : y >>> 14 = 1 := by
      rw [hy14]
      have p1 : (2 : Nat) ^ (k + S) = 16384 := by rw [h14]; norm_num
      have p2 : (2 : Nat) ^ (k + S + 1) = 32768 := by rw [h14]; norm_num
      rw [p1] at e1; rw [p2] at e2
      omega
    rw [hy1]
    have e4 : (1 : Nat) &&& (U32 - 1 - (1 >>> 1)) = 1 := by decide
    rw [e4]
    simp only [usub32, u32, U32]
    norm_num
    omega
  · have hy23 : y >>> 14 = 2 ∨ y >>> 14 = 3 := by
      rw [hy14]
      have p1 : (2 : Nat) ^ (k + S) = 32768 := by rw [h15]; norm_num
      rw [p1] at e1
      omega
    have e5 : (y >>> 14) &&& (U32 - 1 - (y >>> 14 >>> 1)) = 2 := by
      rcases hy23 with e | e <;> rw [e] <;> decide
    rw [e5]
    simp only [usub32, u32, U32]
    norm_num
    omega

/-- `largebin_nlz` computes the position of the highest set bit: if
`2^k ≤ x < 2^(k+1)` with `k ≤ 15`, the result is `k`. -/
theorem largebin_nlz_eq (x k : Nat) (hk : k ≤ 15) (h1 : 2 ^ k ≤ x)
    (h2 : x < 2 ^ (k + 1)) : largebin_nlz x = k := by
  have hx16 : x < 65536 := by
    have : (2 : Nat) ^ (k + 1) ≤ 2 ^ 16 := Nat.pow_le_pow_right (by norm_num) (by omega)
    omega
  have hx1 : 1 ≤ x := le_trans Nat.one_le_two_pow h1
  simp only [largebin_nlz]
  rw [usub32_shiftRight16 x 0x100 hx16 (by norm_num) (by norm_num)]
  by_cases c1 : x < 0x100
  · rw [if_pos c1]
    rw [show (65535 : Nat) &&& 8 = 8 by decide]
    have s1 : u32 (x <<< 8) = x * 256 := by
      rw [Nat.shiftLeft_eq]; simp only [u32, U32]; norm_num; omega
    rw [s1]
    rw [usub32_shiftRight16 (x * 256) 0x1000 (by omega) (by norm_num) (by norm_num)]
    by_cases c2 : x * 256 < 0x1000
    · rw [if_pos c2]
      rw [show (65535 : Nat) &&& 4 = 4 by decide]
      have s2 : u32 ((x * 256) <<< 4) = x * 4096 := by
        rw [Nat.shiftLeft_eq]; simp only [u32, U32]; norm_num; omega
      rw [s2]
      rw [usub32_shiftRight16 (x * 4096) 0x4000 (by omega) (by norm_num) (by norm_num)]
      by_cases c3 : x * 4096 < 0x4000
      · rw [if_pos c3]
        rw [show (65535 : Nat) &&& 2 = 2 by decide]
        have s3 : u32 ((x * 4096) <<< 2) = x * 16384 := by
          rw [Nat.shiftLeft_eq]; simp only [u32, U32]; norm_num; omega
        rw [s3]
        exact largebin_nlz_endgame x k _ (x * 16384) (by norm_num)
          (by norm_num) h1 h2 (by omega) (by omega)
      · rw [if_neg c3]
        rw [show (0 : Nat) &&& 2 = 0 by decide]
        have s3 : u32 ((x * 4096) <<< 0) = x * 4096 := by
          rw [Nat.shiftLeft_eq]; simp only [u32, U32]; norm_num; omega
        rw [s3]
        exact largebin_nlz_endgame x k _ (x * 4096) (by norm_num)
          (by norm_num) h1 h2 (by omega) (by omega)
    · rw [if_neg c2]
      rw [show (0 : Nat) &&& 4 = 0 by decide]
      have s2 : u32 ((x * 256) <<< 0) = x * 256 := by
        rw [Nat.shiftLeft_eq]; simp only [u32, U32]; norm_num; omega
      rw [s2]
      rw [usub32_shiftRight16 (x * 256) 0x4000 (by omega) (by norm_num) (by norm_num)]
      by_cases c3 : x * 256 < 0x4000
      · rw [if_pos c3]
        rw [show (65535 : Nat) &&& 2 = 2 by decide]
        have s3 : u32 ((x * 256) <<< 2) = x * 1024 := by
          rw [Nat.shiftLeft_eq]; simp only [u32, U32]; norm_num; omega
        rw [s3]
        exact largebin_nlz_endgame x k _ (x * 1024) (by norm_num)
          (by norm_num) h1 h2 (by omega) (by omega)
      · rw [if_neg c3]
        rw [show (0 : Nat) &&& 2 = 0 by decide]
        have s3 : u32 ((x * 256) <<< 0) = x * 256 := by
          rw [Nat.shiftLeft_eq]; simp only [u32, U32]; norm_num; omega
        rw [s3]
        exact largebin_nlz_endgame x k _ (x * 256) (by norm_num)
          (by norm_num) h1 h2 (by omega) (by omega)
  · rw [if_neg c1]
    rw [show (0 : Nat) &&& 8 = 0 by decide]
    have s1 : u32 (x <<< 0) = x := by
      rw [Nat.shiftLeft_eq]; simp only [u32, U32]; norm_num; omega
    rw [s1]
    rw [usub32_shiftRight16 x 0x1000 hx16 (by norm_num) (by norm_num)]
    by_cases c2 : x < 0x1000
    · rw [if_pos c2]
      rw [show (65535 : Nat) &&& 4 = 4 by decide]
      have s2 : u32 (x <<< 4) = x * 16 := by
        rw [Nat.shiftLeft_eq]; simp only [u32, U32]; norm_num; omega
      rw [s2]
      rw [usub32_shiftRight16 (x * 16) 0x4000 (by omega) (by norm_num) (by norm_num)]
      by_cases c3 : x * 16 < 0x4000
      · rw [if_pos c3]
        rw [show (65535 : Nat) &&& 2 = 2 by decide]
        have s3 : u32 ((x * 16) <<< 2) = x * 64 := by
          rw [Nat.shiftLeft_eq]; simp only [u32, U32]; norm_num; omega
        rw [s3]
        exact largebin_nlz_endgame x k _ (x * 64) (by norm_num)
          (by norm_num) h1 h2 (by omega) (by omega)
      · rw [if_neg c3]
        rw [show (0 : Nat) &&& 2 = 0 by decide]
        have s3 : u32 ((x * 16) <<< 0) = x * 16 := by
          rw [Nat.shiftLeft_eq]; simp only [u32, U32]; norm_num; omega
        rw [s3]
        exact largebin_nlz_endgame x k _ (x * 16) (by norm_num)
          (by norm_num) h1 h2 (by omega) (by omega)
    · rw [if_neg c2]
      rw [show (0 : Nat) &&& 4 = 0 by decide]
      have s2 : u32 (x <<< 0) = x := by
        rw [Nat.shiftLeft_eq]; simp only [u32, U32]; norm_num; omega
      rw [s2]
      rw [usub32_shiftRight16 x 0x4000 hx16 (by norm_num) (by norm_num)]
      by_cases c3 : x < 0x4000
      · rw [if_pos c3]
        rw [show (65535 : Nat) &&& 2 = 2 by decide]
        have s3 : u32 (x <<< 2) = x * 4 := by
          rw [Nat.shiftLeft_eq]; simp only [u32, U32]; norm_num; omega
        rw [s3]
        exact largebin_nlz_endgame x k _ (x * 4) (by norm_num)
          (by norm_num) h1 h2 (by omega) (by omega)
      · rw [if_neg c3]
        rw [show (0 : Nat) &&& 2 = 0 by decide]
        have s3 : u32 (x <<< 0) = x := by
          rw [Nat.shiftLeft_eq]; simp only [u32, U32]; norm_num; omega
        rw [s3]
        exact largebin_nlz_endgame x k _ x (by norm_num)
          (by norm_num) h1 h2 (by omega) (by omega)

/-- In the band `2^(k+8) ≤ sz`, the quotient `sz / 2^(k+6)` is at least 4. -/
theorem band_div_lo (sz k : Nat) (h1 : 2 ^ (k + 8) ≤ sz) : 4 ≤ sz / 2 ^ (k + 6) := by
  rw [Nat.le_div_iff_mul_le (Nat.two_pow_pos _)]
  calc 4 * 2 ^ (k + 6) = 2 ^ (k + 8) := by
        rw [show k + 8 = k + 6 + 2 by omega, pow_add]; ring
    _ ≤ sz := h1

/-- In the band `sz < 2^(k+9)`, the quotient `sz / 2^(k+6)` is below 8. -/
theorem band_div_hi (sz k : Nat) (h2 : sz < 2 ^ (k + 9)) : sz / 2 ^ (k + 6) < 8 := by
  rw [Nat.div_lt_iff_lt_mul (Nat.two_pow_pos _)]
  calc sz < 2 ^ (k + 9) := h2
    _ = 8 * 2 ^ (k + 6) := by rw [show k + 9 = k + 6 + 3 by omega, pow_add]; ring

/-- Closed form of `largebin_index` on the power-of-two band
`2^(k+8) ≤ sz < 2^(k+9)` (`k ≤ 15`): 32 + four sub-bins per band. -/
theorem largebin_index_closed (sz k : Nat) (hk : k ≤ 15) (h1 : 2 ^ (k + 8) ≤ sz)
    (h2 : sz < 2 ^ (k + 9)) :
    largebin_index sz = 28 + 4 * k + sz / 2 ^ (k + 6) := by
  have hsz24 : sz < 2 ^ 24 :=
    lt_of_lt_of_le h2 (Nat.pow_le_pow_right (by norm_num) (by omega))
  have hu : u32 sz = sz := by
    simp only [u32, U32]
    exact Nat.mod_eq_of_lt (lt_trans hsz24 (by norm_num))
  have hsr : sz >>> 8 = sz / 256 := by rw [Nat.shiftRight_eq_div_pow]
  have hxlo : 2 ^ k ≤ sz >>> 8 := by
    rw [hsr, Nat.le_div_iff_mul_le (by norm_num)]
    calc 2 ^ k * 256 = 2 ^ (k + 8) := by rw [pow_add]; norm_num
      _ ≤ sz := h1
  have hxhi : sz >>> 8 < 2 ^ (k + 1) := by
    rw [hsr, Nat.div_lt_iff_lt_mul (by norm_num)]
    calc sz < 2 ^ (k + 9) := h2
      _ = 2 ^ (k + 1) * 256 := by
        rw [show k + 9 = k + 1 + 8 by omega, pow_add]; norm_num
  have hxhi16 : sz >>> 8 < 65536 := by
    have : (2 : Nat) ^ (k + 1) ≤ 2 ^ 16 :=
      Nat.pow_le_pow_right (by norm_num) (by omega)
    omega
  simp only [largebin_index, SMALLBIN_WIDTH]
  rw [hu, if_neg (by omega)]
  rw [largebin_nlz_eq (sz >>> 8) k hk hxlo hxhi]
  have hq : sz >>> (k + 6) = sz / 2 ^ (k + 6) := Nat.shiftRight_eq_div_pow _ _
  have hq4 : 4 ≤ sz / 2 ^ (k + 6) := band_div_lo sz k h1
  have hq8 : sz / 2 ^ (k + 6) < 8 := band_div_hi sz k h2
  have hand : (sz / 2 ^ (k + 6)) &&& 3 = sz / 2 ^ (k + 6) % 4 := by
    have h3 := Nat.and_pow_two_sub_one_eq_mod (sz / 2 ^ (k + 6)) 2
    norm_num at h3
    exact h3
  rw [hq, hand, Nat.shiftLeft_eq]
  simp only [NSMALLBINS]
  omega

/-- Very large sizes (`sz >> 8 ≥ 0x10000`) all map to the last bin, `NBINS-1 = 95`. -/
theorem largebin_index_big (sz : Nat) (hbig : 2 ^ 24 ≤ sz) (h32 : sz < 2 ^ 32) :
    largebin_index sz = NBINS - 1 := by
  have hu : u32 sz = sz := by
    simp only [u32, U32]; exact Nat.mod_eq_of_lt h32
  simp only [largebin_index, SMALLBIN_WIDTH]
  rw [hu, if_pos]
  rw [Nat.shiftRight_eq_div_pow, Nat.le_div_iff_mul_le (by norm_num)]
  calc (0x10000 : Nat) * 2 ^ 8 = 2 ^ 24 := by norm_num
    _ ≤ sz := hbig

/-- `largebin_index` never exceeds 95 on the large range. -/
theorem largebin_index_le (sz : Nat) (h256 : 256 ≤ sz) (h32 : sz < 2 ^ 32) :
    largebin_index sz ≤ 95 := by
  by_cases hbig : 2 ^ 24 ≤ sz
  · rw [largebin_index_big sz hbig h32]
    simp [NBINS]
  · have hL1 : 2 ^ Nat.log 2 sz ≤ sz := Nat.pow_log_le_self 2 (by omega)
    have hL2 : sz < 2 ^ (Nat.log 2 sz + 1) := Nat.lt_pow_succ_log_self (by norm_num) _
    have hL8 : 8 ≤ Nat.log 2 sz := by
      by_contra hcon
      have h8 : (2 : Nat) ^ (Nat.log 2 sz + 1) ≤ 2 ^ 8 :=
        Nat.pow_le_pow_right (by norm_num) (by omega)
      norm_num at h8
      omega
    have hL23 : Nat.log 2 sz ≤ 23 := by
      by_contra hcon
      have h24 : (2 : Nat) ^ 24 ≤ 2 ^ Nat.log 2 sz :=
        Nat.pow_le_pow_right (by norm_num) (by omega)
      exact hbig (le_trans h24 hL1)
    rw [largebin_index_closed sz (Nat.log 2 sz - 8) (by omega)
      (by rw [show Nat.log 2 sz - 8 + 8 = Nat.log 2 sz by omega]; exact hL1)
      (by rw [show Nat.log 2 sz - 8 + 9 = Nat.log 2 sz + 1 by omega]; exact hL2)]
    have hq8 : sz / 2 ^ (Nat.log 2 sz - 8 + 6) < 8 :=
      band_div_hi sz _ (by rw [show Nat.log 2 sz - 8 + 9 = Nat.log 2 sz + 1 by omega]; exact hL2)
    omega

/-- `largebin_index` is monotone non-decreasing on the large-size range. -/
theorem largebin_index_mono_aux (sz1 sz2 : Nat) (h1 : 256 ≤ sz1) (h12 : sz1 ≤ sz2)
    (h2 : sz2 < 2 ^ 32) : largebin_index sz1 ≤ largebin_index sz2 := by
  by_cases hbig : 2 ^ 24 ≤ sz2
  · rw [largebin_index_big sz2 hbig h2]
    have := largebin_index_le sz1 h1 (lt_of_le_of_lt h12 h2)
    simp only [NBINS]
    omega
  · have h2' : 256 ≤ sz2 := le_trans h1 h12
    have hs1 : sz1 < 2 ^ 24 := lt_of_le_of_lt h12 (by omega)
    have hA1 : 2 ^ Nat.log 2 sz1 ≤ sz1 := Nat.pow_log_le_self 2 (by omega)
    have hA2 : sz1 < 2 ^ (Nat.log 2 sz1 + 1) := Nat.lt_pow_succ_log_self (by norm_num) _
    have hB1 : 2 ^ Nat.log 2 sz2 ≤ sz2 := Nat.pow_log_le_self 2 (by omega)
    have hB2 : sz2 < 2 ^ (Nat.log 2 sz2 + 1) := Nat.lt_pow_succ_log_self (by norm_num) _
    have hA8 : 8 ≤ Nat.log 2 sz1 := by
      by_contra hcon
      have h8 : (2 : Nat) ^ (Nat.log 2 sz1 + 1) ≤ 2 ^ 8 :=
        Nat.pow_le_pow_right (by norm_num) (by omega)
      norm_num at h8
      omega
    have hB8 : 8 ≤ Nat.log 2 sz2 := le_trans hA8 (Nat.log_mono_right h12)
    have hA23 : Nat.log 2 sz1 ≤ 23 := by
      by_contra hcon
      have h24 : (2 : Nat) ^ 24 ≤ 2 ^ Nat.log 2 sz1 :=
        Nat.pow_le_pow_right (by norm_num) (by omega)
      omega
    have hB23 : Nat.log 2 sz2 ≤ 23 := by
      by_contra hcon
      have h24 : (2 : Nat) ^ 24 ≤ 2 ^ Nat.log 2 sz2 :=
        Nat.pow_le_pow_right (by norm_num) (by omega)
      exact hbig (le_trans h24 hB1)
    have hAB : Nat.log 2 sz1 ≤ Nat.log 2 sz2 := Nat.log_mono_right h12
    rw [largebin_index_closed sz1 (Nat.log 2 sz1 - 8) (by omega)
      (by rw [show Nat.log 2 sz1 - 8 + 8 = Nat.log 2 sz1 by omega]; exact hA1)
      (by rw [show Nat.log 2 sz1 - 8 + 9 = Nat.log 2 sz1 + 1 by omega]; exact hA2)]
    rw [largebin_index_closed sz2 (Nat.log 2 sz2 - 8) (by omega)
      (by rw [show Nat.log 2 sz2 - 8 + 8 = Nat.log 2 sz2 by omega]; exact hB1)
      (by rw [show Nat.log 2 sz2 - 8 + 9 = Nat.log 2 sz2 + 1 by omega]; exact hB2)]
    by_cases heq : Nat.log 2 sz1 = Nat.log 2 sz2
    · rw [heq]
      have := Nat.div_le_div_right (c := 2 ^ (Nat.log 2 sz2 - 8 + 6)) h12
      omega
    · have hlt : Nat.log 2 sz1 < Nat.log 2 sz2 := by omega
      have hq1 : sz1 / 2 ^ (Nat.log 2 sz1 - 8 + 6) < 8 :=
        band_div_hi sz1 _
          (by rw [show Nat.log 2 sz1 - 8 + 9 = Nat.log 2 sz1 + 1 by omega]; exact hA2)
      have hq2 : 4 ≤ sz2 / 2 ^ (Nat.log 2 sz2 - 8 + 6) :=
        band_div_lo sz2 _
          (by rw [show Nat.log 2 sz2 - 8 + 8 = Nat.log 2 sz2 by omega]; exact hB1)
      omega

example : MINSIZE = 32 := by decide
example : request2size 0 = 32 := by decide
example : request2size 24 = 32 := by decide
example : request2size 64 = 80 := by decide
example : request2size 80 = 96 := by decide
example : NFASTBINS = 11 := by decide
example : BINMAPSIZE = 3 := by decide
example : largebin_index 256 = 32 := by decide
example : largebin_index 320 = 33 := by decide
example : largebin_index 511 = 35 := by decide
example : largebin_index 512 = 36 := by decide
example : largebin_index 576 = 36 := by decide
example : largebin_index 640 = 37 := by decide
example : largebin_index 0xFFFFFF = 95 := by decide
example : largebin_index 0x1000000 = 95 := by decide
example : largebin_index 0x2000000 = 95 := by decide
example : set_max_fast_val 0 DEFAULT_MXFAST = 80 := by decide
example : set_max_fast_val 83 0 = 11 := by decide
example : FASTBIN_CONSOLIDATION_THRESHOLD = 131072 := by decide

/-! ### Claim C3 -/

/-- C3, counterexample: the allocator does not maintain 128 logical bins and
`largebin_index` does not map very large sizes to bin 127: `NBINS` is 96 and
the size `0x2000000` (whose `sz >> 8` exceeds the last ordinary band) maps to
bin 95, the last bin. -/
theorem C3_counterexample :
    NBINS ≠ 128 ∧ largebin_index 0x2000000 ≠ 127 ∧
      NBINS = 96 ∧ largebin_index 0x2000000 = 95 := by decide

/-- C3 (amended): the allocator maintains 96 logical normal bins, and the
bin-index function maps every remaining very large size (every `unsigned int`
size whose `sz >> 8` is at least `0x10000`, so that its index is not a
small-bin or ordinary large-bin index) to bin 95, the last bin. -/
theorem C3_bins96_last_bin :
    NBINS = 96 ∧
      ∀ sz, sz < 2 ^ 32 → 2 ^ 24 ≤ sz → largebin_index sz = NBINS - 1 := by
  refine ⟨rfl, fun sz h32 h24 => largebin_index_big sz h24 h32⟩

/-- C3, witness: the amended theorem at the concrete very large size `2^25`. -/
theorem C3_witness :
    2 ^ 25 < 2 ^ 32 ∧ 2 ^ 24 ≤ 2 ^ 25 ∧ largebin_index (2 ^ 25) = NBINS - 1 :=
  ⟨by decide, by decide, C3_bins96_last_bin.2 (2 ^ 25) (by decide) (by decide)⟩

/-! ### Claim C6 -/

/-- C6: the large-bin index function is monotonic non-decreasing: for all
sizes `sz1 ≤ sz2` in the large-bin range (at least `MIN_LARGE_SIZE = 256`,
within the `unsigned int` domain), `largebin_index sz1 ≤ largebin_index sz2`. -/
theorem C6_largebin_index_mono (sz1 sz2 : Nat) (h1 : 256 ≤ sz1)
    (h12 : sz1 ≤ sz2) (h2 : sz2 < 2 ^ 32) :
    largebin_index sz1 ≤ largebin_index sz2 :=
  largebin_index_mono_aux sz1 sz2 h1 h12 h2

/-- C6, witness: monotonicity at the concrete pair `300 ≤ 70000`. -/
theorem C6_witness :
    256 ≤ 300 ∧ 300 ≤ 70000 ∧ 70000 < 2 ^ 32 ∧
      largebin_index 300 ≤ largebin_index 70000 :=
  ⟨by decide, by decide, by decide,
    C6_largebin_index_mono 300 70000 (by decide) (by decide) (by decide)⟩

/-! ### Claim C1 -/

/-- C1: `calloc` computes `n_elements * elem_size` in wrapping `size_t`
arithmetic with no overflow check.  At the failing input
`n_elements = elem_size = 2^32` the product wraps to 0, and from a fresh
state (with system memory available) `calloc` returns a non-null payload
whose chunk is the 32-byte minimum chunk — not the null return the contract
requires for an overflowing `k*s`. -/
theorem C1_calloc_overflow :
    (2 ^ 32) * (2 ^ 32) = 2 ^ 64 ∧
    u64 ((2 ^ 32) * (2 ^ 32)) = 0 ∧
    (calloc 10 (initialAState 4096 (2 ^ 24) (2 ^ 60) (2 ^ 30)) (2 ^ 32) (2 ^ 32)).1 =
      some 4112 ∧
    chunksizeAt
      (calloc 10 (initialAState 4096 (2 ^ 24) (2 ^ 60) (2 ^ 30)) (2 ^ 32) (2 ^ 32)).2
      4096 = 32 := by decide

/-! ### Claim C4 -/

/-- C4, counterexample: at `size(top) = 4144`, `pad = 0`, page size 4096, the
specified formula `((size(top) − pad − MIN_CHUNK) / page − 1) * page` yields
0 — not positive, so no release should be attempted — but `systrim` computes
`extra = 4096` and, with the break matching `top + size(top)`, performs the
shrink: the break moves down by 4096 and 1 is returned. -/
theorem C4_counterexample :
    systrim_extra_spec 4144 0 4096 = 0 ∧
    systrim_extra 4144 0 4096 = 4096 ∧
    (systrim { initialAState 8240 0 (2 ^ 60) 0 with
        heapBase := 4096, top := 4096, pagesize := 4096,
        heap := [{ csize := 4144, status := CStatus.top, data := [] }] } 0).1 = 1 ∧
    (systrim { initialAState 8240 0 (2 ^ 60) 0 with
        heapBase := 4096, top := 4096, pagesize := 4096,
        heap := [{ csize := 4144, status := CStatus.top, data := [] }] } 0).2.osBrk
      = 4144 := by decide

/-- C4 (amended): `systrim(pad)` computes the amount to release as
`extra = ((size(top) − pad − MIN_CHUNK + (page − 1)) / page − 1) * page`
(the numerator is rounded up to a whole page before one page is withheld),
and attempts a release exactly when this quantity is positive as a signed
`long` and the current OS break equals `top + size(top)`: then the break
moves down by `extra`; otherwise the state is untouched and 0 is returned. -/
theorem C4_systrim_extra_and_guard :
    (∀ topSize pad, pad + MINSIZE < topSize → topSize < 2 ^ 63 →
      systrim_extra topSize pad 4096 =
        ((topSize - pad - MINSIZE + 4095) / 4096 - 1) * 4096) ∧
    (∀ (s : AState) (pad : Nat),
      (¬ (0 < toInt64 (systrim_extra (chunksizeAt s s.top) pad s.pagesize) ∧
            s.osBrk = s.top + chunksizeAt s s.top) →
        (systrim s pad).2 = s ∧ (systrim s pad).1 = 0) ∧
      ((0 < toInt64 (systrim_extra (chunksizeAt s s.top) pad s.pagesize) ∧
            s.osBrk = s.top + chunksizeAt s s.top) →
        (systrim s pad).2.osBrk =
          s.osBrk - systrim_extra (chunksizeAt s s.top) pad s.pagesize)) := by
  constructor
  · intro topSize pad h1 h2
    have hM : MINSIZE = 32 := by decide
    rw [hM] at h1 ⊢
    simp only [systrim_extra, usub64, u64, W64, hM]
    norm_num
    omega
  · intro s pad
    constructor
    · intro h
      simp only [systrim]
      split_ifs with hx hb hr
      · exact absurd ⟨hx, hb⟩ h
      · exact absurd ⟨hx, hb⟩ h
      · exact ⟨rfl, rfl⟩
      · exact ⟨rfl, rfl⟩
    · rintro ⟨hx, hb⟩
      simp only [systrim]
      split_ifs with hr
      · rfl
      · rfl

/-- C4, witness: the amended theorem at `size(top) = 4144`, `pad = 0` (formula
part) and at the concrete zero state (guard part, no release attempted). -/
theorem C4_witness :
    (systrim_extra 4144 0 4096 = ((4144 - 0 - MINSIZE + 4095) / 4096 - 1) * 4096) ∧
    ((systrim (initialAState 0 0 0 0) 0).2 = initialAState 0 0 0 0 ∧
      (systrim (initialAState 0 0 0 0) 0).1 = 0) :=
  ⟨C4_systrim_extra_and_guard.1 4144 0 (by decide) (by decide),
    (C4_systrim_extra_and_guard.2 (initialAState 0 0 0 0) 0).1 (by decide)⟩

/-! ### Heap geometry lemmas -/

theorem getD_set_self {α : Type} (l : List α) (i : Nat) (v d : α)
    (h : i < l.length) : (l.set i v).getD i d = v := by
  simp [List.getD_eq_getElem?_getD, List.getElem?_set_eq_of_lt _ h]

/-- A chunk found by `chunkAtGo` lies at or above the scan base. -/
theorem chunkAtGo_le (hp : List HChunk) :
    ∀ (base a : Nat) (c : HChunk), chunkAtGo base hp a = some c → base ≤ a := by
  induction hp with
  | nil => intro base a c h; simp [chunkAtGo] at h
  | cons c1 rest ih =>
    intro base a c h
    simp only [chunkAtGo] at h
    split at h
    · omega
    · have := ih (base + c1.csize) a c h
      omega

/-- The front part of a split is found at the split address. -/
theorem chunkAtGo_heapSplitGo_front (hp : List HChunk) :
    ∀ (base a nb : Nat) (st1 st2 : CStatus) (c : HChunk),
      chunkAtGo base hp a = some c →
      chunkAtGo base (heapSplitGo base hp a nb st1 st2) a =
        some { csize := nb, status := st1, data := c.data } := by
  induction hp with
  | nil => intro base a nb st1 st2 c h; simp [chunkAtGo] at h
  | cons c1 rest ih =>
    intro base a nb st1 st2 c h
    simp only [chunkAtGo, heapSplitGo] at h ⊢
    split at h
    · rename_i hbase
      cases h
      simp [chunkAtGo, hbase]
    · rename_i hbase
      simp only [if_neg hbase, chunkAtGo]
      exact ih (base + c1.csize) a nb st1 st2 c h

/-- The remainder of a split is found at `a + nb` (positive sizes keep chunk
bases strictly increasing, so no earlier chunk captures that address). -/
theorem chunkAtGo_heapSplitGo_rem (hp : List HChunk) :
    ∀ (base a nb : Nat) (st1 st2 : CStatus) (c : HChunk),
      chunkAtGo base hp a = some c → 0 < nb →
      chunkAtGo base (heapSplitGo base hp a nb st1 st2) (a + nb) =
        some { csize := c.csize - nb, status := st2, data := [] } := by
  induction hp with
  | nil => intro base a nb st1 st2 c h _; simp [chunkAtGo] at h
  | cons c1 rest ih =>
    intro base a nb st1 st2 c h hnb
    simp only [chunkAtGo, heapSplitGo] at h ⊢
    split at h
    · rename_i hbase
      cases h
      have h1 : ¬ base = a + nb := by omega
      simp only [if_pos hbase, chunkAtGo, if_neg h1, hbase]
      simp [chunkAtGo]
      intro h2
      exact absurd h2 (by omega)
    · rename_i hbase
      have hle : base + c1.csize ≤ a := chunkAtGo_le rest (base + c1.csize) a c h
      have h1 : ¬ base = a + nb := by omega
      simp only [if_neg hbase, chunkAtGo, if_neg h1]
      exact ih (base + c1.csize) a nb st1 st2 c h hnb

/-! ### Claim C5 -/

/-- C5, counterexample: a state whose sole unsorted chunk `v` (at 4128, of
size 64) equals `last_remainder` while the small normalized request `nb = 32`
satisfies `size(v) = nb + MINSIZE` — every hypothesis of the claim (with its
`≥` comparison) holds, yet the drain iteration does not split `v` and return
its front: it routes `v` to small bin 8 and continues the loop. -/
theorem C5_counterexample :
    (let s : AState :=
      { initialAState 0 0 0 0 with
        bins := (List.replicate NBINS []).set 1 [4128],
        last_remainder := 4128, heapBase := 4096, top := 4192,
        heap := [{ csize := 32, status := CStatus.inuse, data := [] },
                 { csize := 64, status := CStatus.unsorted, data := [] },
                 { csize := 4000, status := CStatus.top, data := [] }] }
    in_smallbin_range 32 = true ∧
    s.bins.getD 1 [] = [4128] ∧
    s.last_remainder = 4128 ∧
    chunksizeAt s 4128 = 32 + MINSIZE ∧
    (drainIteration s 32).isRet = false ∧
    ((drainIteration s 32).state).bins.getD 8 [] = [4128]) := by decide

/-- C5 (amended): during the unsorted-queue drain in allocate, for every
small normalized request `nb`, if the chunk `v` popped from the tail is the
sole unsorted chunk, equals `last_remainder`, and satisfies
`size(v) > nb + MIN_CHUNK` (strictly), then the iteration splits `v`,
returns its front as the result, and re-links the remainder into the
unsorted queue as the new `last_remainder`. -/
theorem C5_drain_split (s : AState) (nb v : Nat) (hc : HChunk)
    (hbins : 1 < s.bins.length)
    (hv : s.chunkAt v = some hc)
    (hsmall : in_smallbin_range nb = true)
    (hsole : s.bins.getD 1 [] = [v])
    (hlr : v = s.last_remainder)
    (hsz : nb + MINSIZE < hc.csize)
    (hnb : 0 < nb) :
    (drainIteration s nb).mem? = some (v + 2 * SIZE_SZ) ∧
    ((drainIteration s nb).state).bins.getD 1 [] = [v + nb] ∧
    ((drainIteration s nb).state).last_remainder = v + nb ∧
    ((drainIteration s nb).state).chunkAt v =
      some { csize := nb, status := CStatus.inuse, data := hc.data } ∧
    ((drainIteration s nb).state).chunkAt (v + nb) =
      some { csize := hc.csize - nb, status := CStatus.unsorted, data := [] } := by
  have hsize : chunksizeAt s v = hc.csize := by
    simp [chunksizeAt, hv]
  have hcond : in_smallbin_range nb ∧ (s.bins.getD 1 []).length = 1 ∧
      v = s.last_remainder ∧ nb + MINSIZE < chunksizeAt s v := by
    refine ⟨hsmall, ?_, hlr, ?_⟩
    · rw [hsole]; rfl
    · rw [hsize]; exact hsz
  have hlast : (s.bins.getD 1 []).getLast? = some v := by
    rw [hsole]; rfl
  simp only [drainIteration, hlast, if_pos hcond]
  have hfront := chunkAtGo_heapSplitGo_front s.heap s.heapBase v nb
    CStatus.inuse CStatus.unsorted hc hv
  have hrem := chunkAtGo_heapSplitGo_rem s.heap s.heapBase v nb
    CStatus.inuse CStatus.unsorted hc hv hnb
  refine ⟨rfl, ?_, rfl, ?_, ?_⟩
  · simp only [DrainOutcome.state]
    exact getD_set_self _ 1 _ _ (by simpa [heapSplit] using hbins)
  · simpa [DrainOutcome.state, AState.chunkAt, heapSplit] using hfront
  · simpa [DrainOutcome.state, AState.chunkAt, heapSplit] using hrem

/-- C5, witness: the amended theorem at a concrete state whose sole unsorted
`last_remainder` chunk has size 80 > 32 + MINSIZE for the request `nb = 32`. -/
theorem C5_witness :
    (let s : AState :=
      { initialAState 0 0 0 0 with
        bins := (List.replicate NBINS []).set 1 [4128],
        last_remainder := 4128, heapBase := 4096, top := 4208,
        heap := [{ csize := 32, status := CStatus.inuse, data := [] },
                 { csize := 80, status := CStatus.unsorted, data := [] },
                 { csize := 4000, status := CStatus.top, data := [] }] }
    (drainIteration s 32).mem? = some (4128 + 2 * SIZE_SZ) ∧
    ((drainIteration s 32).state).bins.getD 1 [] = [4128 + 32] ∧
    ((drainIteration s 32).state).last_remainder = 4128 + 32 ∧
    ((drainIteration s 32).state).chunkAt 4128 =
      some { csize := 32, status := CStatus.inuse, data := [] } ∧
    ((drainIteration s 32).state).chunkAt (4128 + 32) =
      some { csize := 80 - 32, status := CStatus.unsorted, data := [] }) :=
  C5_drain_split _ 32 4128 { csize := 80, status := CStatus.unsorted, data := [] }
    (by decide) (by decide) (by decide) (by decide) (by decide) (by decide)
    (by decide)

/-! ### Claim C7 -/

/-- Or-ing in the two flag bits only touches the low two bits. -/
theorem or_three (a : Nat) : a ||| 3 = 4 * (a / 4) + 3 := by
  apply Nat.eq_of_testBit_eq
  intro j
  rw [Nat.testBit_or]
  rw [show (4 : Nat) * (a / 4) + 3 = 2 ^ 2 * (a / 4) + 3 by norm_num]
  rw [Nat.testBit_mul_pow_two_add (a / 4) (show (3 : Nat) < 2 ^ 2 by norm_num) j]
  by_cases hj : j < 2
  · have h3 : Nat.testBit 3 j = true := by interval_cases j <;> rfl
    simp [if_pos hj, h3]
  · simp only [if_neg hj]
    have h3 : Nat.testBit 3 j = false := by
      apply Nat.testBit_lt_two_pow
      calc (3 : Nat) < 2 ^ 2 := by norm_num
        _ ≤ 2 ^ j := Nat.pow_le_pow_right (by norm_num) (by omega)
    rw [h3, Bool.or_false]
    rw [Nat.testBit_to_div_mod, Nat.testBit_to_div_mod, Nat.div_div_eq_div_mul]
    rw [show (4 : Nat) * 2 ^ (j - 2) = 2 ^ j by
      rw [show (4 : Nat) = 2 ^ 2 by norm_num, ← pow_add]
      congr 1
      omega]

/-- The fastbin pop of `malloc`: with `ANYCHUNKS` set, a normalized request
`nb ≤ max_fast`, and a non-null chunk at the head of the fastbin for `nb`,
`malloc` returns that chunk's payload. -/
theorem malloc_fastbin_pop (fuel : Nat) (s1 : AState) (p nb bytes : Nat)
    (hreq : REQUEST_OUT_OF_RANGE bytes = false)
    (hnb : request2size bytes = nb)
    (hany : s1.max_fast &&& 1 ≠ 0)
    (hle : nb ≤ s1.max_fast)
    (hhead : (s1.fastbins.getD (fastbin_index nb) []).head? = some p)
    (hp : p ≠ 0) :
    (malloc (fuel + 1) s1 bytes).1 = some (p + 2 * SIZE_SZ) := by
  have hany' : s1.have_anychunks = true := by
    simp only [AState.have_anychunks, ANYCHUNKS_BIT]
    exact decide_eq_true hany
  simp only [malloc, hreq, Bool.false_eq_true, if_false, hnb, hany',
    not_true_eq_false, mallocFast, if_pos hle, hhead]
  simp [hp]

/-- The fastbin push of `free`: for a non-mmapped-size chunk at or below the
`max_fast` threshold, `free` sets the fast flags and pushes the chunk onto
the head of its fastbin stack. -/
theorem free_fastbin_push (s : AState) (p nb : Nat)
    (hsz : chunksizeAt s p = nb)
    (hmf : nb ≤ s.max_fast) :
    (free s (p + 2 * SIZE_SZ)).max_fast = s.max_fast ||| 3 ∧
    (free s (p + 2 * SIZE_SZ)).fastbins =
      s.fastbins.set (fastbin_index nb)
        (p :: s.fastbins.getD (fastbin_index nb) []) := by
  have hmem : ¬ (p + 2 * SIZE_SZ = 0) := by simp [SIZE_SZ]
  have hcancel : p + 2 * SIZE_SZ - 2 * SIZE_SZ = p := by simp
  simp only [free, if_neg hmem, hcancel, hsz, if_pos hmf, AState.set_fastchunks,
    FASTCHUNKS_BIT, ANYCHUNKS_BIT, setChunkStatus, AState.mapChunk]
  exact ⟨by trivial, by trivial⟩

/-- C7: fast bins are LIFO: for every state and every chunk `p` whose
normalized size `nb` is fast-bin eligible (`nb ≤ max_fast`), `free` of `p`'s
payload immediately followed by an allocation normalizing to the same `nb`
returns the payload address of `p` again. -/
theorem C7_fastbin_lifo (s : AState) (p nb bytes fuel : Nat)
    (hp0 : 0 < p)
    (hsz : chunksizeAt s p = nb)
    (hmf : nb ≤ s.max_fast)
    (hidx : fastbin_index nb < s.fastbins.length)
    (hreq : REQUEST_OUT_OF_RANGE bytes = false)
    (hnb : request2size bytes = nb) :
    (malloc (fuel + 1) (free s (p + 2 * SIZE_SZ)) bytes).1 =
      some (p + 2 * SIZE_SZ) := by
  obtain ⟨hmax, hfb⟩ := free_fastbin_push s p nb hsz hmf
  apply malloc_fastbin_pop fuel _ p nb bytes hreq hnb
  · rw [hmax, or_three, Nat.and_one_is_mod]
    omega
  · rw [hmax, or_three]
    omega
  · rw [hfb, getD_set_self _ _ _ _ hidx]
    rfl
  · omega

/-- C7, witness: the S2 scenario — `a = allocate(24); b = allocate(24);
free(a); c = allocate(24)` gives `c = a` — run concretely; the second
allocation lands at 4128, freeing 4096 and allocating 24 again returns its
payload 4112. -/
theorem C7_witness :
    (malloc 9
      (free
        ((malloc 10 ((malloc 10 (initialAState 4096 (2 ^ 24) (2 ^ 60) (2 ^ 30)) 24).2)
          24).2)
        (4096 + 2 * SIZE_SZ))
      24).1 = some (4096 + 2 * SIZE_SZ) := by
  apply C7_fastbin_lifo _ 4096 32 24 8 (by decide) (by decide) (by decide)
    (by decide) (by decide) (by decide)

/-! ### Claim C9 -/

/-- A chunk of positive size found at `p` is the physical predecessor of the
address `p + csize`: the boundary-tag scan that reads the successor's `P` bit
lands back on this chunk. -/
theorem prevChunk_of_chunkAt (hp : List HChunk) :
    ∀ (base p : Nat) (c : HChunk), chunkAtGo base hp p = some c → 0 < c.csize →
      prevChunkGo base hp (p + c.csize) = some c := by
  induction hp with
  | nil => intro base p c h _; simp [chunkAtGo] at h
  | cons c1 rest ih =>
    intro base p c h hpos
    simp only [chunkAtGo] at h
    simp only [prevChunkGo]
    by_cases hb : base = p
    · rw [if_pos hb] at h
      injection h with h
      subst h
      rw [if_pos (by omega)]
    · rw [if_neg hb] at h
      have hle := chunkAtGo_le rest (base + c1.csize) p c h
      rw [if_neg (by omega)]
      exact ih _ _ _ h hpos

/-- C9: `malloc_usable_size` returns 0 for the null pointer; 0 for a payload
pointer of a non-mmapped chunk that is currently free (not in use and not in
a fastbin, so its successor's derived `P` bit is clear); `chunksize - 2*SIZE_SZ`
for an mmapped chunk; and `chunksize - SIZE_SZ` for an in-use chunk. -/
theorem C9_usable_size (s : AState) (p : Nat) (c : HChunk) (mc : MmChunk)
    (hpos : 0 < c.csize) :
    malloc_usable_size s 0 = 0 ∧
    (s.chunkAt p = some c → chunk_is_mmapped s p = false →
      c.status ≠ CStatus.inuse → c.status ≠ CStatus.fast →
      malloc_usable_size s (p + 2 * SIZE_SZ) = 0) ∧
    (s.chunkAt p = none → mmLookup s p = some mc →
      malloc_usable_size s (p + 2 * SIZE_SZ) = mc.msize - 2 * SIZE_SZ) ∧
    (s.chunkAt p = some c → chunk_is_mmapped s p = false →
      c.status = CStatus.inuse →
      malloc_usable_size s (p + 2 * SIZE_SZ) = c.csize - SIZE_SZ) := by
  have hmem : p + 2 * SIZE_SZ ≠ 0 := by simp [SIZE_SZ]
  have hcancel : p + 2 * SIZE_SZ - 2 * SIZE_SZ = p := by simp
  refine ⟨by simp [malloc_usable_size], ?_, ?_, ?_⟩
  · intro hc hmm h1 h2
    have hsz : chunksizeAt s p = c.csize := by
      simp [chunksizeAt, AState.chunkAt] at hc ⊢
      simp [hc]
    have hpb : pbitAt s (p + c.csize) = false := by
      have hprev : s.prevChunkOf (p + c.csize) = some c :=
        prevChunk_of_chunkAt s.heap s.heapBase p c hc hpos
      simp [pbitAt, hprev, h1, h2]
    simp [malloc_usable_size, hmem, hcancel, hmm, hsz, hpb]
  · intro hc hmm
    have hsz : chunksizeAt s p = mc.msize := by
      simp [chunksizeAt, AState.chunkAt] at hc ⊢
      simp [hc, hmm]
    have hmm' : chunk_is_mmapped s p = true := by
      simp [chunk_is_mmapped, hmm]
    simp [malloc_usable_size, hmem, hcancel, hmm', hsz]
  · intro hc hmm h1
    have hsz : chunksizeAt s p = c.csize := by
      simp [chunksizeAt, AState.chunkAt] at hc ⊢
      simp [hc]
    have hpb : pbitAt s (p + c.csize) = true := by
      have hprev : s.prevChunkOf (p + c.csize) = some c :=
        prevChunk_of_chunkAt s.heap s.heapBase p c hc hpos
      simp [pbitAt, hprev, h1]
    simp [malloc_usable_size, hmem, hcancel, hmm, hsz, hpb]

/-- C9, witness: on the example heap, the null pointer and the free chunk's
payload report 0, the mmapped chunk reports `4112 - 16 = 4096`, and the
in-use chunk reports `32 - 8 = 24`. -/
theorem C9_witness :
    malloc_usable_size C9exState 0 = 0 ∧
    malloc_usable_size C9exState (64 + 2 * SIZE_SZ) = 0 ∧
    malloc_usable_size C9exState (4096 + 2 * SIZE_SZ) = 4112 - 2 * SIZE_SZ ∧
    malloc_usable_size C9exState (96 + 2 * SIZE_SZ) = 32 - SIZE_SZ := by
  refine ⟨(C9_usable_size C9exState 64 ⟨32, CStatus.binned, []⟩ ⟨4112, 16, []⟩
      (by decide)).1,
    (C9_usable_size C9exState 64 ⟨32, CStatus.binned, []⟩ ⟨4112, 16, []⟩
      (by decide)).2.1 (by decide) (by decide) (by decide) (by decide),
    (C9_usable_size C9exState 4096 ⟨32, CStatus.binned, []⟩ ⟨4112, 16, []⟩
      (by decide)).2.2.1 (by decide) (by decide),
    (C9_usable_size C9exState 96 ⟨32, CStatus.inuse, []⟩ ⟨4112, 16, []⟩
      (by decide)).2.2.2 (by decide) (by decide) (by decide)⟩

/-! ### Claim C10 -/

/-- Or-ing a value supported on the two flag bits into `max_fast` does not
change `get_max_fast`. -/
theorem get_mf_or (m c : Nat)
    (hc : c &&& (W64 - 1 - (FASTCHUNKS_BIT ||| ANYCHUNKS_BIT)) = 0) :
    get_max_fast_val (m ||| c) = get_max_fast_val m := by
  simp [get_max_fast_val, Nat.and_distrib_right, hc]

/-- `set_fastchunks` does not change `get_max_fast`. -/
theorem get_mf_set_fastchunks (s : AState) :
    get_max_fast_val s.set_fastchunks.max_fast = get_max_fast_val s.max_fast :=
  get_mf_or _ _ (by decide)

/-- `set_anychunks` does not change `get_max_fast`. -/
theorem get_mf_set_anychunks (s : AState) :
    get_max_fast_val s.set_anychunks.max_fast = get_max_fast_val s.max_fast :=
  get_mf_or _ _ (by decide)

/-- `clear_fastchunks` does not change `get_max_fast`. -/
theorem get_mf_clear_fastchunks (s : AState) :
    get_max_fast_val s.clear_fastchunks.max_fast = get_max_fast_val s.max_fast := by
  show get_max_fast_val (s.max_fast &&& (W64 - 1 - FASTCHUNKS_BIT)) = _
  simp only [get_max_fast_val, Nat.and_assoc]
  congr 1

/-- `set_max_fast` masks the preserved flag bits out of `get_max_fast`. -/
theorem get_mf_set_max_fast (old v : Nat) :
    get_max_fast_val (set_max_fast_val old v) =
      get_max_fast_val (if v = 0 then SMALLBIN_WIDTH else request2size v) := by
  simp only [set_max_fast_val, get_max_fast_val]
  rw [Nat.and_distrib_right, Nat.and_assoc,
    show (FASTCHUNKS_BIT ||| ANYCHUNKS_BIT) &&&
      (W64 - 1 - (FASTCHUNKS_BIT ||| ANYCHUNKS_BIT)) = 0 by decide]
  simp

/-- For every `mallopt`-admissible value (`v ≤ MAX_FAST_SIZE`), `set_max_fast`
installs a nonzero cap: `SMALLBIN_WIDTH` for 0 and `request2size v` otherwise. -/
theorem set_max_fast_pos (old v : Nat) (hv : v ≤ MAX_FAST_SIZE) :
    get_max_fast_val (set_max_fast_val old v) ≠ 0 := by
  rw [get_mf_set_max_fast]
  have h : ∀ w, w < 81 →
      get_max_fast_val (if w = 0 then SMALLBIN_WIDTH else request2size w) ≠ 0 := by
    decide
  refine h v ?_
  simp only [MAX_FAST_SIZE] at hv
  omega

/-- A state with a nonzero masked cap has nonzero raw `max_fast` (the
uninitialized-state sentinel cannot fire). -/
theorem raw_max_fast_ne_zero (s : AState)
    (h : get_max_fast_val s.max_fast ≠ 0) : s.max_fast ≠ 0 := by
  intro h0
  apply h
  rw [h0]
  decide

/-- `consolidateChunk` does not touch `max_fast`. -/
theorem max_fast_consolidateChunk (s : AState) (p : Nat) :
    (consolidateChunk s p).max_fast = s.max_fast := by
  simp only [consolidateChunk, consolidatePlace]
  split_ifs <;> rfl

/-- Folding `consolidateChunk` over a fastbin chain does not touch `max_fast`. -/
theorem max_fast_foldl_consolidate (l : List Nat) :
    ∀ s : AState, (l.foldl consolidateChunk s).max_fast = s.max_fast := by
  induction l with
  | nil => intro s; rfl
  | cons a rest ih =>
    intro s
    rw [List.foldl_cons, ih, max_fast_consolidateChunk]

/-- The fastbin sweep of `malloc_consolidate` does not touch `max_fast`. -/
theorem max_fast_consolidateBins (count : Nat) :
    ∀ (s : AState) (i : Nat), (consolidateBins count s i).max_fast = s.max_fast := by
  induction count with
  | zero => intro s i; rfl
  | succ n ih =>
    intro s i
    simp only [consolidateBins]
    rw [ih, max_fast_foldl_consolidate]

/-- On an initialized state, `malloc_consolidate` does not change
`get_max_fast` (it only clears the `FASTCHUNKS` flag). -/
theorem get_mf_malloc_consolidate (s : AState)
    (h : get_max_fast_val s.max_fast ≠ 0) :
    get_max_fast_val (malloc_consolidate s).max_fast =
      get_max_fast_val s.max_fast := by
  have hraw := raw_max_fast_ne_zero s h
  simp only [malloc_consolidate, if_pos hraw]
  rw [max_fast_consolidateBins, get_mf_clear_fastchunks]

/-- `systrim` does not touch `max_fast`. -/
theorem max_fast_systrim (s : AState) (pad : Nat) :
    (systrim s pad).2.max_fast = s.max_fast := by
  simp only [systrim]
  split_ifs <;> rfl

/-- Setting the `ANYCHUNKS` flag does not change `get_max_fast`. -/
theorem get_mf_or_any (m : Nat) :
    get_max_fast_val (m ||| ANYCHUNKS_BIT) = get_max_fast_val m :=
  get_mf_or _ _ (by decide)

/-- Setting both flags does not change `get_max_fast`. -/
theorem get_mf_or_flags (m : Nat) :
    get_max_fast_val (m ||| (FASTCHUNKS_BIT ||| ANYCHUNKS_BIT)) =
      get_max_fast_val m :=
  get_mf_or _ _ (by decide)

/-- Or-ing in the `ANYCHUNKS` flag always leaves `max_fast` nonzero. -/
theorem or_one_ne_zero (x : Nat) : x ||| 1 ≠ 0 := by
  intro h0
  have hb : (x ||| 1).testBit 0 = true := by simp [Nat.testBit_or]
  rw [h0] at hb
  simp at hb

/-- On a state with nonzero raw `max_fast`, `malloc_consolidate` does not
change `get_max_fast`. -/
theorem get_mf_malloc_consolidate_raw (s : AState) (h : s.max_fast ≠ 0) :
    get_max_fast_val (malloc_consolidate s).max_fast =
      get_max_fast_val s.max_fast := by
  simp only [malloc_consolidate, if_pos h]
  rw [max_fast_consolidateBins, get_mf_clear_fastchunks]

/-- On a state with nonzero raw `max_fast`, the consolidate-and-trim tail of
`free`'s coalescing branch does not change `get_max_fast`. -/
theorem get_mf_freeCoalesceTail (t : AState) (size : Nat) (htm : t.max_fast ≠ 0) :
    get_max_fast_val (freeCoalesceTail t size).max_fast =
      get_max_fast_val t.max_fast := by
  simp only [freeCoalesceTail]
  split_ifs <;>
    first
      | rfl
      | rw [max_fast_systrim, get_mf_malloc_consolidate_raw t htm]
      | rw [get_mf_malloc_consolidate_raw t htm]
      | rw [max_fast_systrim]

/-- The coalescing branch of `free` does not change `get_max_fast` (it sets
the `ANYCHUNKS` flag first, so its consolidation runs on a nonzero
`max_fast`). -/
theorem get_mf_freeCoalesce (s : AState) (p sz : Nat) :
    get_max_fast_val (freeCoalesce s p sz).max_fast =
      get_max_fast_val s.max_fast := by
  simp only [freeCoalesce]
  split_ifs <;>
    (rw [get_mf_freeCoalesceTail] <;>
      first
        | exact get_mf_or_any s.max_fast
        | exact or_one_ne_zero s.max_fast)

/-- `free` does not change `get_max_fast`. -/
theorem get_mf_free (s : AState) (mem : Nat) :
    get_max_fast_val (free s mem).max_fast = get_max_fast_val s.max_fast := by
  simp only [free]
  split_ifs <;>
    first
      | rfl
      | (exact get_mf_set_fastchunks s)
      | (exact get_mf_freeCoalesce _ _ _)
      | (split <;> rfl)

/-- `sysmallocFinish` does not touch `max_fast`. -/
theorem max_fast_sysmallocFinish (s : AState) (nb : Nat) :
    (sysmallocFinish s nb).2.max_fast = s.max_fast := by
  simp only [sysmallocFinish]
  split_ifs <;> rfl

/-- The contiguous extension branch of `sysmalloc` does not touch `max_fast`. -/
theorem max_fast_sysmallocSbrk (s : AState) (nb : Nat) :
    (sysmallocSbrk s nb).2.max_fast = s.max_fast := by
  simp only [sysmallocSbrk]
  split_ifs <;> simp [max_fast_sysmallocFinish, AState.mapChunk]

/-- The direct-mapping branch of `sysmalloc` does not touch `max_fast`. -/
theorem max_fast_sysmallocCore (s : AState) (nb : Nat) :
    (sysmallocCore s nb).2.max_fast = s.max_fast := by
  simp only [sysmallocCore]
  split_ifs <;> simp [max_fast_sysmallocSbrk]

/-- On an initialized state, `sysmalloc` does not change `get_max_fast`,
provided the retry continuation does not. -/
theorem get_mf_sysmalloc (retry : Retry)
    (hr : ∀ (t : AState) (n : Nat), get_max_fast_val t.max_fast ≠ 0 →
      get_max_fast_val ((retry t n).2).max_fast = get_max_fast_val t.max_fast)
    (s : AState) (nb : Nat) (h : get_max_fast_val s.max_fast ≠ 0) :
    get_max_fast_val (sysmalloc retry s nb).2.max_fast =
      get_max_fast_val s.max_fast := by
  simp only [sysmalloc]
  split_ifs with hf
  · have h1 := get_mf_malloc_consolidate s h
    rw [hr _ _ (by rw [h1]; exact h), h1]
  · rw [max_fast_sysmallocCore]

/-- On an initialized state, the `use_top` step of `malloc` does not change
`get_max_fast`, provided the retry continuation does not. -/
theorem get_mf_mallocUseTop (retry : Retry)
    (hr : ∀ (t : AState) (n : Nat), get_max_fast_val t.max_fast ≠ 0 →
      get_max_fast_val ((retry t n).2).max_fast = get_max_fast_val t.max_fast)
    (s : AState) (nb : Nat) (h : get_max_fast_val s.max_fast ≠ 0) :
    get_max_fast_val (mallocUseTop retry s nb).2.max_fast =
      get_max_fast_val s.max_fast := by
  simp only [mallocUseTop]
  split_ifs
  · rfl
  · exact get_mf_sysmalloc retry hr s nb h

/-- On an initialized state, the binmap scan of `malloc` does not change
`get_max_fast`, provided the retry continuation does not. -/
theorem get_mf_mallocBinmapScan (retry : Retry)
    (hr : ∀ (t : AState) (n : Nat), get_max_fast_val t.max_fast ≠ 0 →
      get_max_fast_val ((retry t n).2).max_fast = get_max_fast_val t.max_fast) :
    ∀ (b : Nat) (s : AState) (nb block bit binIdx : Nat),
      get_max_fast_val s.max_fast ≠ 0 →
      get_max_fast_val (mallocBinmapScan retry s nb block bit binIdx b).2.max_fast =
        get_max_fast_val s.max_fast := by
  intro b
  induction b with
  | zero =>
    intro s nb block bit binIdx h
    exact get_mf_mallocUseTop retry hr s nb h
  | succ n ih =>
    intro s nb block bit binIdx h
    simp only [mallocBinmapScan]
    rcases hl : (s.bins.getD binIdx []).getLast? with _ | victim <;>
      rcases hb : binmapNextBlock s block with _ | block' <;>
        simp only [hl, hb] <;>
          split_ifs <;>
            first
              | rfl
              | exact get_mf_mallocUseTop retry hr s nb h
              | exact ih s nb block' 1 (block' <<< BINMAPSHIFT) h
              | exact ih s nb block (u32 (bit <<< 1)) (binIdx + 1) h
              | exact ih _ nb block (u32 (bit <<< 1)) (binIdx + 1) h

/-- On an initialized state, the entry to the binmap scan does not change
`get_max_fast`, provided the retry continuation does not. -/
theorem get_mf_mallocBinmapStart (retry : Retry)
    (hr : ∀ (t : AState) (n : Nat), get_max_fast_val t.max_fast ≠ 0 →
      get_max_fast_val ((retry t n).2).max_fast = get_max_fast_val t.max_fast)
    (s : AState) (nb idx : Nat) (h : get_max_fast_val s.max_fast ≠ 0) :
    get_max_fast_val (mallocBinmapStart retry s nb idx).2.max_fast =
      get_max_fast_val s.max_fast :=
  get_mf_mallocBinmapScan retry hr _ s nb _ _ _ h

/-- On an initialized state, the large-bin search loop does not change
`get_max_fast`, provided the retry continuation does not. -/
theorem get_mf_mallocLargeScanLoop (retry : Retry)
    (hr : ∀ (t : AState) (n : Nat), get_max_fast_val t.max_fast ≠ 0 →
      get_max_fast_val ((retry t n).2).max_fast = get_max_fast_val t.max_fast) :
    ∀ (l : List Nat) (s : AState) (nb idx : Nat),
      get_max_fast_val s.max_fast ≠ 0 →
      get_max_fast_val (mallocLargeScanLoop retry s nb idx l).2.max_fast =
        get_max_fast_val s.max_fast := by
  intro l
  induction l with
  | nil =>
    intro s nb idx h
    exact get_mf_mallocBinmapStart retry hr s nb idx h
  | cons victim rest ih =>
    intro s nb idx h
    simp only [mallocLargeScanLoop]
    split_ifs <;> first | rfl | exact ih s nb idx h

/-- On an initialized state, the targeted large-bin search does not change
`get_max_fast`, provided the retry continuation does not. -/
theorem get_mf_mallocLargeScan (retry : Retry)
    (hr : ∀ (t : AState) (n : Nat), get_max_fast_val t.max_fast ≠ 0 →
      get_max_fast_val ((retry t n).2).max_fast = get_max_fast_val t.max_fast)
    (s : AState) (nb idx : Nat) (h : get_max_fast_val s.max_fast ≠ 0) :
    get_max_fast_val (mallocLargeScan retry s nb idx).2.max_fast =
      get_max_fast_val s.max_fast := by
  simp only [mallocLargeScan]
  split_ifs <;>
    first
      | exact get_mf_mallocLargeScanLoop retry hr _ s nb idx h
      | exact get_mf_mallocBinmapStart retry hr s nb idx h

/-- One drain iteration does not touch `max_fast`. -/
theorem max_fast_drainIteration (s : AState) (nb : Nat) :
    (drainIteration s nb).state.max_fast = s.max_fast := by
  simp only [drainIteration]
  rcases hl : (s.bins.getD 1 []).getLast? with _ | victim <;>
    simp only [hl] <;>
      first
        | rfl
        | (split_ifs <;> rfl)

/-- On an initialized state, the unsorted-queue drain loop does not change
`get_max_fast`, provided the retry continuation does not. -/
theorem get_mf_mallocDrainLoop (retry : Retry)
    (hr : ∀ (t : AState) (n : Nat), get_max_fast_val t.max_fast ≠ 0 →
      get_max_fast_val ((retry t n).2).max_fast = get_max_fast_val t.max_fast) :
    ∀ (d : Nat) (s : AState) (nb idx : Nat),
      get_max_fast_val s.max_fast ≠ 0 →
      get_max_fast_val (mallocDrainLoop retry s nb idx d).2.max_fast =
        get_max_fast_val s.max_fast := by
  intro d
  induction d with
  | zero =>
    intro s nb idx h
    exact get_mf_mallocLargeScan retry hr s nb idx h
  | succ n ih =>
    intro s nb idx h
    simp only [mallocDrainLoop]
    rcases hd : drainIteration s nb with ⟨mem, t⟩ | t | t
    · have hm : t.max_fast = s.max_fast := by
        have hq := max_fast_drainIteration s nb
        rw [hd] at hq
        exact hq
      simp only []
      rw [hm]
    · have hm : t.max_fast = s.max_fast := by
        have hq := max_fast_drainIteration s nb
        rw [hd] at hq
        exact hq
      simp only []
      rw [ih t nb idx (by rw [hm]; exact h), hm]
    · have hm : t.max_fast = s.max_fast := by
        have hq := max_fast_drainIteration s nb
        rw [hd] at hq
        exact hq
      simp only []
      rw [get_mf_mallocLargeScan retry hr t nb idx (by rw [hm]; exact h), hm]

/-- On an initialized state, the unsorted-queue drain does not change
`get_max_fast`, provided the retry continuation does not. -/
theorem get_mf_mallocDrain (retry : Retry)
    (hr : ∀ (t : AState) (n : Nat), get_max_fast_val t.max_fast ≠ 0 →
      get_max_fast_val ((retry t n).2).max_fast = get_max_fast_val t.max_fast)
    (s : AState) (nb idx : Nat) (h : get_max_fast_val s.max_fast ≠ 0) :
    get_max_fast_val (mallocDrain retry s nb idx).2.max_fast =
      get_max_fast_val s.max_fast :=
  get_mf_mallocDrainLoop retry hr _ s nb idx h

/-- On an initialized state, the small-bin attempt of `malloc` does not change
`get_max_fast`, provided the retry continuation does not. -/
theorem get_mf_mallocSmall (retry : Retry)
    (hr : ∀ (t : AState) (n : Nat), get_max_fast_val t.max_fast ≠ 0 →
      get_max_fast_val ((retry t n).2).max_fast = get_max_fast_val t.max_fast)
    (s : AState) (nb : Nat) (h : get_max_fast_val s.max_fast ≠ 0) :
    get_max_fast_val (mallocSmall retry s nb).2.max_fast =
      get_max_fast_val s.max_fast := by
  simp only [mallocSmall]
  have hmc := get_mf_malloc_consolidate s h
  rcases hl : (s.bins.getD (smallbin_index nb) []).getLast? with _ | victim <;>
    simp only [hl] <;>
      split_ifs <;>
        first
          | rfl
          | exact get_mf_mallocDrain retry hr s nb _ h
          | rw [get_mf_mallocDrain retry hr _ nb _ (by rw [hmc]; exact h), hmc]

/-- On an initialized state, the fastbin attempt of `malloc` does not change
`get_max_fast`, provided the retry continuation does not. -/
theorem get_mf_mallocFast (retry : Retry)
    (hr : ∀ (t : AState) (n : Nat), get_max_fast_val t.max_fast ≠ 0 →
      get_max_fast_val ((retry t n).2).max_fast = get_max_fast_val t.max_fast)
    (s : AState) (nb : Nat) (h : get_max_fast_val s.max_fast ≠ 0) :
    get_max_fast_val (mallocFast retry s nb).2.max_fast =
      get_max_fast_val s.max_fast := by
  simp only [mallocFast]
  rcases hl : (s.fastbins.getD (fastbin_index nb) []).head? with _ | victim <;>
    simp only [hl] <;>
      split_ifs <;>
        first
          | rfl
          | exact get_mf_mallocSmall retry hr s nb h

/-- On an initialized state, `malloc` does not change `get_max_fast` (for any
fuel). -/
theorem get_mf_malloc (fuel : Nat) :
    ∀ (s : AState) (bytes : Nat), get_max_fast_val s.max_fast ≠ 0 →
      get_max_fast_val (malloc fuel s bytes).2.max_fast =
        get_max_fast_val s.max_fast := by
  induction fuel with
  | zero => intro s bytes _; rfl
  | succ f ih =>
    intro s bytes h
    simp only [malloc]
    split_ifs <;>
      first
        | rfl
        | exact get_mf_mallocFast (malloc f) ih s _ h
        | exact get_mf_mallocUseTop (malloc f) ih s _ h
        | exact absurd (show s.max_fast = 0 by assumption)
            (raw_max_fast_ne_zero s h)

/-- The tail split of `realloc` does not change `get_max_fast`. -/
theorem get_mf_reallocSplit (s : AState) (newp newsize nb : Nat) :
    get_max_fast_val (reallocSplit s newp newsize nb).2.max_fast =
      get_max_fast_val s.max_fast := by
  simp only [reallocSplit]
  split_ifs <;> first | rfl | exact get_mf_free _ _

set_option maxHeartbeats 2000000 in
/-- On an initialized state, `realloc` does not change `get_max_fast`. -/
theorem get_mf_realloc (fuel : Nat) (s : AState) (oldmem bytes : Nat)
    (h : get_max_fast_val s.max_fast ≠ 0) :
    get_max_fast_val (realloc fuel s oldmem bytes).2.max_fast =
      get_max_fast_val s.max_fast := by
  simp only [realloc]
  rcases hm : malloc fuel s (request2size bytes - MALLOC_ALIGN_MASK)
    with ⟨_ | newmem, s1⟩ <;>
    (have hs1 : get_max_fast_val s1.max_fast = get_max_fast_val s.max_fast := by
      have hq := get_mf_malloc fuel s (request2size bytes - MALLOC_ALIGN_MASK) h
      rw [hm] at hq
      exact hq) <;>
    simp only [hm] <;>
      split_ifs <;>
        first
          | rfl
          | exact hs1
          | exact get_mf_malloc fuel s bytes h
          | exact get_mf_reallocSplit _ _ _ _
          | (rw [get_mf_reallocSplit]; exact hs1)
          | (rw [get_mf_free]; exact hs1)

/-- On an initialized state, `calloc` does not change `get_max_fast`. -/
theorem get_mf_calloc (fuel : Nat) (s : AState) (k sz : Nat)
    (h : get_max_fast_val s.max_fast ≠ 0) :
    get_max_fast_val (calloc fuel s k sz).2.max_fast =
      get_max_fast_val s.max_fast := by
  simp only [calloc]
  rcases hm : malloc fuel s (u64 (k * sz)) with ⟨_ | mem, s1⟩ <;>
    (have hs1 : get_max_fast_val s1.max_fast = get_max_fast_val s.max_fast := by
      have hq := get_mf_malloc fuel s (u64 (k * sz)) h
      rw [hm] at hq
      exact hq) <;>
    simp only [hm] <;>
      first
        | exact hs1
        | (split_ifs <;> exact hs1)

/-- The trailing split of `memalign` does not change `get_max_fast`. -/
theorem get_mf_memalignTail (s : AState) (p nb : Nat) :
    get_max_fast_val (memalignTail s p nb).2.max_fast =
      get_max_fast_val s.max_fast := by
  simp only [memalignTail]
  split_ifs <;> first | rfl | (rw [get_mf_free]; rfl)

/-- The alignment adjustment of `memalign` does not change `get_max_fast`. -/
theorem get_mf_memalignAdjust (s1 : AState) (m alignment nb : Nat) :
    get_max_fast_val (memalignAdjust s1 m alignment nb).2.max_fast =
      get_max_fast_val s1.max_fast := by
  simp only [memalignAdjust]
  rcases hl : mmLookup s1 (m - 2 * SIZE_SZ) with _ | mc <;>
    simp only [hl] <;>
      split_ifs <;>
        first
          | rfl
          | exact get_mf_memalignTail _ _ _
          | (rw [get_mf_memalignTail, get_mf_free]; rfl)

/-- The continuation of `memalign` does not change `get_max_fast`. -/
theorem get_mf_memalignAfter (r : Option Nat × AState) (alignment nb : Nat) :
    get_max_fast_val (memalignAfter r alignment nb).2.max_fast =
      get_max_fast_val r.2.max_fast := by
  rcases r with ⟨_ | m, s1⟩
  · rfl
  · exact get_mf_memalignAdjust s1 m alignment nb

/-- On an initialized state, `memalign` does not change `get_max_fast`. -/
theorem get_mf_memalign (fuel : Nat) (s : AState) (alignment bytes : Nat)
    (h : get_max_fast_val s.max_fast ≠ 0) :
    get_max_fast_val (memalign fuel s alignment bytes).2.max_fast =
      get_max_fast_val s.max_fast := by
  simp only [memalign]
  split_ifs <;>
    first
      | rfl
      | exact get_mf_malloc fuel s bytes h
      | (rw [get_mf_memalignAfter]; exact get_mf_malloc fuel s _ h)

/-- On an initialized state, `valloc` does not change `get_max_fast`. -/
theorem get_mf_valloc (fuel : Nat) (s : AState) (bytes : Nat)
    (h : get_max_fast_val s.max_fast ≠ 0) :
    get_max_fast_val (valloc fuel s bytes).2.max_fast =
      get_max_fast_val s.max_fast := by
  simp only [valloc]
  rw [if_neg (raw_max_fast_ne_zero s h)]
  exact get_mf_memalign fuel s _ bytes h

/-- On an initialized state, `pvalloc` does not change `get_max_fast`. -/
theorem get_mf_pvalloc (fuel : Nat) (s : AState) (bytes : Nat)
    (h : get_max_fast_val s.max_fast ≠ 0) :
    get_max_fast_val (pvalloc fuel s bytes).2.max_fast =
      get_max_fast_val s.max_fast := by
  simp only [pvalloc]
  rw [if_neg (raw_max_fast_ne_zero s h)]
  exact get_mf_memalign fuel s _ _ h

/-- On an initialized state, `malloc_trim` does not change `get_max_fast`. -/
theorem get_mf_malloc_trim (s : AState) (pad : Nat)
    (h : get_max_fast_val s.max_fast ≠ 0) :
    get_max_fast_val (malloc_trim s pad).2.max_fast =
      get_max_fast_val s.max_fast := by
  simp only [malloc_trim]
  rw [max_fast_systrim, get_mf_malloc_consolidate s h]

/-- `malloc_init_state` installs a nonzero fast-bin cap (the default
`request2size(DEFAULT_MXFAST) = 80`). -/
theorem get_mf_malloc_init (s : AState) :
    get_max_fast_val (malloc_init_state s).max_fast ≠ 0 :=
  set_max_fast_pos s.max_fast DEFAULT_MXFAST (by decide)

/-- Every public operation preserves a nonzero `get_max_fast`. -/
theorem get_mf_step (fuel : Nat) (op : MOp) (s : AState)
    (h : get_max_fast_val s.max_fast ≠ 0) :
    get_max_fast_val (step fuel op s).max_fast ≠ 0 := by
  cases op with
  | mMalloc bytes =>
    simp only [step]
    rw [get_mf_malloc fuel s bytes h]
    exact h
  | mFree mem =>
    simp only [step]
    rw [get_mf_free s mem]
    exact h
  | mRealloc mem bytes =>
    simp only [step]
    rw [get_mf_realloc fuel s mem bytes h]
    exact h
  | mCalloc k sz =>
    simp only [step]
    rw [get_mf_calloc fuel s k sz h]
    exact h
  | mMemalign al bytes =>
    simp only [step]
    rw [get_mf_memalign fuel s al bytes h]
    exact h
  | mValloc bytes =>
    simp only [step]
    rw [get_mf_valloc fuel s bytes h]
    exact h
  | mPvalloc bytes =>
    simp only [step]
    rw [get_mf_pvalloc fuel s bytes h]
    exact h
  | mCfree mem =>
    simp only [step, cfree]
    rw [get_mf_free s mem]
    exact h
  | mTrim pad =>
    simp only [step]
    rw [get_mf_malloc_trim s pad h]
    exact h
  | mMallopt p v =>
    have hmc := get_mf_malloc_consolidate s h
    cases p with
    | M_MXFAST =>
      simp only [step, mallopt]
      split_ifs with hv
      · apply set_max_fast_pos
        rw [show MAX_FAST_SIZE = 80 from rfl]
        have hv2 := hv.2
        rw [show ((MAX_FAST_SIZE : Nat) : Int) = 80 from rfl] at hv2
        omega
      · rw [hmc]
        exact h
    | M_TRIM_THRESHOLD =>
      simp only [step, mallopt]
      rw [hmc]
      exact h
    | M_TOP_PAD =>
      simp only [step, mallopt]
      rw [hmc]
      exact h
    | M_MMAP_THRESHOLD =>
      simp only [step, mallopt]
      rw [hmc]
      exact h
    | M_MMAP_MAX =>
      simp only [step, mallopt]
      rw [hmc]
      exact h

/-- C10: once the allocator is initialized (`get_max_fast` nonzero), every
public operation preserves a nonzero `max_fast` — so the uninitialized-state
sentinel `max_fast == 0` can never fire again — and `mallopt(M_MXFAST, 0)`
sets the fast-bin cap to `SMALLBIN_WIDTH = 8`, not to 0; initialization
itself establishes a nonzero cap. -/
theorem C10_max_fast_invariant (fuel : Nat) (op : MOp) (s : AState)
    (h : get_max_fast_val s.max_fast ≠ 0) :
    get_max_fast_val (step fuel op s).max_fast ≠ 0 ∧
    (step fuel op s).max_fast ≠ 0 ∧
    get_max_fast_val (malloc_init_state s).max_fast ≠ 0 ∧
    get_max_fast_val (mallopt s MallocParam.M_MXFAST 0).2.max_fast =
      SMALLBIN_WIDTH := by
  have h1 := get_mf_step fuel op s h
  refine ⟨h1, raw_max_fast_ne_zero _ h1, get_mf_malloc_init s, ?_⟩
  have hc : (0 : Int) ≤ 0 ∧ (0 : Int) ≤ (MAX_FAST_SIZE : Int) := by decide
  simp only [mallopt, if_pos hc]
  rw [get_mf_set_max_fast]
  decide

/-- C10, witness: on the freshly initialized allocator, a `malloc(24)` step
keeps `max_fast` nonzero, and `mallopt(M_MXFAST, 0)` yields cap 8. -/
theorem C10_witness :
    get_max_fast_val (step 10 (MOp.mMalloc 24) C10exState).max_fast ≠ 0 ∧
    (step 10 (MOp.mMalloc 24) C10exState).max_fast ≠ 0 ∧
    get_max_fast_val (malloc_init_state C10exState).max_fast ≠ 0 ∧
    get_max_fast_val (mallopt C10exState MallocParam.M_MXFAST 0).2.max_fast =
      SMALLBIN_WIDTH :=
  C10_max_fast_invariant 10 (MOp.mMalloc 24) C10exState (by decide)

/-! ### Claim C8 -/

/-- The chunk walk never finds an address below its starting base. -/
theorem chunkAtGo_none_of_lt (hp : List HChunk) :
    ∀ (base a : Nat), a < base → chunkAtGo base hp a = none := by
  induction hp with
  | nil => intro base a _; rfl
  | cons c rest ih =>
    intro base a hlt
    simp only [chunkAtGo]
    rw [if_neg (by omega)]
    exact ih _ a (by omega)

/-- Rewriting a chunk other than `a` through a size-preserving function does
not change the chunk found at `a`. -/
theorem chunkAtGo_mapChunkGo_ne (f : HChunk → HChunk)
    (hf : ∀ ch, (f ch).csize = ch.csize) (hp : List HChunk) :
    ∀ (base t a : Nat), t ≠ a →
      chunkAtGo base (mapChunkGo base hp t f) a = chunkAtGo base hp a := by
  induction hp with
  | nil => intro base t a _; rfl
  | cons c rest ih =>
    intro base t a hne
    simp only [mapChunkGo, chunkAtGo]
    by_cases hb : base = t
    · rw [if_pos hb]
      simp only [chunkAtGo]
      rw [if_neg (by omega), if_neg (by omega), hf]
    · rw [if_neg hb]
      simp only [chunkAtGo]
      by_cases ha : base = a
      · rw [if_pos ha, if_pos ha]
      · rw [if_neg ha, if_neg ha]
        exact ih _ t a hne

/-- Rewriting any chunk through a size-preserving function preserves the
sizes seen by the chunk walk at every address. -/
theorem chunkAtGo_mapChunkGo_csize (f : HChunk → HChunk)
    (hf : ∀ ch, (f ch).csize = ch.csize) (hp : List HChunk) :
    ∀ (base t x : Nat),
      Option.map HChunk.csize (chunkAtGo base (mapChunkGo base hp t f) x) =
        Option.map HChunk.csize (chunkAtGo base hp x) := by
  induction hp with
  | nil => intro base t x; rfl
  | cons c rest ih =>
    intro base t x
    simp only [mapChunkGo, chunkAtGo]
    by_cases hb : base = t
    · rw [if_pos hb]
      simp only [chunkAtGo]
      by_cases hx : base = x
      · rw [if_pos hx, if_pos hx]
        simp [hf]
      · rw [if_neg hx, if_neg hx, hf]
    · rw [if_neg hb]
      simp only [chunkAtGo]
      by_cases hx : base = x
      · rw [if_pos hx, if_pos hx]
      · rw [if_neg hx, if_neg hx]
        exact ih _ t x

/-- Rewriting a chunk strictly above `a` (even with a size change) does not
change the chunk found at `a`. -/
theorem chunkAtGo_mapChunkGo_lt (f : HChunk → HChunk) (hp : List HChunk) :
    ∀ (base t a : Nat), a < t →
      chunkAtGo base (mapChunkGo base hp t f) a = chunkAtGo base hp a := by
  induction hp with
  | nil => intro base t a _; rfl
  | cons c rest ih =>
    intro base t a hlt
    simp only [mapChunkGo, chunkAtGo]
    by_cases hb : base = t
    · rw [if_pos hb]
      simp only [chunkAtGo]
      rw [if_neg (by omega), if_neg (by omega)]
      rw [chunkAtGo_none_of_lt rest _ a (by omega),
        chunkAtGo_none_of_lt rest _ a (by omega)]
    · rw [if_neg hb]
      simp only [chunkAtGo]
      by_cases ha : base = a
      · rw [if_pos ha, if_pos ha]
      · rw [if_neg ha, if_neg ha]
        exact ih _ t a hlt

/-- The chunk found at the rewritten address is the rewritten chunk. -/
theorem chunkAtGo_mapChunkGo_self (f : HChunk → HChunk) (hp : List HChunk) :
    ∀ (base t : Nat),
      chunkAtGo base (mapChunkGo base hp t f) t =
        Option.map f (chunkAtGo base hp t) := by
  induction hp with
  | nil => intro base t; rfl
  | cons c rest ih =>
    intro base t
    simp only [mapChunkGo, chunkAtGo]
    by_cases hb : base = t
    · rw [if_pos hb]
      simp only [chunkAtGo, if_pos hb]
      rfl
    · rw [if_neg hb]
      simp only [chunkAtGo, if_neg hb]
      exact ih _ t

/-- Membership after the sorted insertion of `sortedInsert`. -/
theorem mem_sortedInsert (s : AState) (k v : Nat) (l : List Nat) :
    ∀ x ∈ sortedInsert s k v l, x = v ∨ x ∈ l := by
  induction l with
  | nil =>
    intro x hx
    simp [sortedInsert] at hx
    exact Or.inl hx
  | cons a rest ih =>
    intro x hx
    simp only [sortedInsert] at hx
    split_ifs at hx
    · rcases List.mem_cons.mp hx with h1 | h1
      · exact Or.inr (by simp [h1])
      · rcases ih x h1 with h2 | h2
        · exact Or.inl h2
        · exact Or.inr (by simp [h2])
    · rcases List.mem_cons.mp hx with h1 | h1
      · exact Or.inl h1
      · exact Or.inr h1

/-- After overwriting slot `idx` of a bins table with a list avoiding `a`,
every slot still avoids `a`. -/
theorem notMem_getD_set (l : List (List Nat)) (idx j : Nat) (B : List Nat)
    (a : Nat) (hB : a ∉ B) (hl : ∀ i, a ∉ l.getD i []) :
    a ∉ (l.set idx B).getD j [] := by
  rw [List.getD_eq_getElem?_getD, List.getElem?_set]
  split_ifs with h1 h2
  · simpa using hB
  · simp
  · rw [← List.getD_eq_getElem?_getD]
    exact hl j

/-- Rewriting one chunk through a size-preserving function preserves
`chunksize` at every address. -/
theorem chunksizeAt_mapChunk (t : AState) (v : Nat) (f : HChunk → HChunk)
    (hf : ∀ ch, (f ch).csize = ch.csize) (x : Nat) :
    chunksizeAt (t.mapChunk v f) x = chunksizeAt t x := by
  simp only [chunksizeAt, AState.mapChunk, AState.chunkAt]
  have h := chunkAtGo_mapChunkGo_csize f hf t.heap t.heapBase v x
  rcases h1 : chunkAtGo t.heapBase (mapChunkGo t.heapBase t.heap v f) x
    with _ | c1 <;>
    rcases h2 : chunkAtGo t.heapBase t.heap x with _ | c2 <;>
      rw [h1, h2] at h <;> simp only [Option.map] at h
  · rfl
  · exact absurd h (by simp)
  · exact absurd h (by simp)
  · simp only [Option.some.injEq] at h
    exact h

/-- A status change at `v ≠ a` does not affect the chunk at `a`. -/
theorem chunkAt_setChunkStatus_ne (t : AState) (v : Nat) (st : CStatus)
    (a : Nat) (hv : v ≠ a) :
    (setChunkStatus t v st).chunkAt a = t.chunkAt a :=
  chunkAtGo_mapChunkGo_ne (fun ch => { ch with status := st }) (fun _ => rfl)
    t.heap t.heapBase v a hv

/-- One consolidation iteration does not touch the direct mappings. -/
theorem mm_consolidateChunk (t : AState) (p : Nat) :
    (consolidateChunk t p).mmapped = t.mmapped := by
  simp only [consolidateChunk, consolidatePlace]
  split_ifs <;> rfl

/-- The consolidation fold does not touch the direct mappings. -/
theorem mm_foldl_consolidate (l : List Nat) :
    ∀ t : AState, (l.foldl consolidateChunk t).mmapped = t.mmapped := by
  induction l with
  | nil => intro t; rfl
  | cons x rest ih =>
    intro t
    rw [List.foldl_cons, ih, mm_consolidateChunk]

/-- The fastbin sweep does not touch the direct mappings. -/
theorem mm_consolidateBins (count : Nat) :
    ∀ (t : AState) (i : Nat), (consolidateBins count t i).mmapped = t.mmapped := by
  induction count with
  | zero => intro t i; rfl
  | succ n ih =>
    intro t i
    simp only [consolidateBins]
    rw [ih, mm_foldl_consolidate]

/-- `malloc_consolidate` does not touch the direct mappings. -/
theorem mm_malloc_consolidate (t : AState) :
    (malloc_consolidate t).mmapped = t.mmapped := by
  simp only [malloc_consolidate]
  split_ifs
  · rw [mm_consolidateBins]
    rfl
  · rfl

/-- Rewriting a chunk strictly above `a` does not affect the chunk at `a`. -/
theorem chunkAt_mapChunk_lt (t : AState) (v : Nat) (f : HChunk → HChunk)
    (a : Nat) (h : a < v) : (t.mapChunk v f).chunkAt a = t.chunkAt a :=
  chunkAtGo_mapChunkGo_lt f t.heap t.heapBase v a h

/-- Growing a chunk keeps its `chunksize` positive. -/
theorem chunksizeAt_grow_pos (t : AState) (v add : Nat)
    (h : 0 < chunksizeAt t v) :
    0 < chunksizeAt
      (t.mapChunk v (fun ch => { ch with csize := ch.csize + add })) v := by
  simp only [chunksizeAt, AState.mapChunk, AState.chunkAt] at h ⊢
  rw [chunkAtGo_mapChunkGo_self]
  rcases hc : chunkAtGo t.heapBase t.heap v with _ | tc <;>
    simp only [hc, Option.map] at h ⊢
  · exact h
  · omega

/-! #### Heap-walk geometry for the consolidation frame -/

/-- A chunk found by the walk is a member of the chunk list. -/
theorem chunkAtGo_mem (hp : List HChunk) :
    ∀ (base v : Nat) (cv : HChunk), chunkAtGo base hp v = some cv → cv ∈ hp := by
  induction hp with
  | nil => intro base v cv h; simp [chunkAtGo] at h
  | cons c rest ih =>
    intro base v cv h
    simp only [chunkAtGo] at h
    by_cases hb : base = v
    · rw [if_pos hb] at h
      injection h with h
      simp [h]
    · rw [if_neg hb] at h
      exact List.mem_cons_of_mem c (ih _ v cv h)

/-- Two distinct found chunks occupy disjoint extents (the walk advances by
the chunk sizes). -/
theorem chunkAtGo_disjoint (hp : List HChunk) :
    ∀ (base x y : Nat) (cx cy : HChunk), chunkAtGo base hp x = some cx →
      chunkAtGo base hp y = some cy → x ≠ y →
      x + cx.csize ≤ y ∨ y + cy.csize ≤ x := by
  induction hp with
  | nil => intro base x y cx cy h _ _; simp [chunkAtGo] at h
  | cons c rest ih =>
    intro base x y cx cy hx hy hne
    simp only [chunkAtGo] at hx hy
    by_cases hbx : base = x
    · rw [if_pos hbx] at hx
      injection hx with hx
      subst hx
      rw [if_neg (by omega)] at hy
      have := chunkAtGo_le rest (base + c.csize) y cy hy
      left
      omega
    · rw [if_neg hbx] at hx
      by_cases hby : base = y
      · rw [if_pos hby] at hy
        injection hy with hy
        subst hy
        have := chunkAtGo_le rest (base + c.csize) x cx hx
        right
        omega
      · rw [if_neg hby] at hy
        exact ih _ x y cx cy hx hy hne

/-- The chunk delivered by the physical-predecessor walk is found at the
address one size below the probe. -/
theorem chunkAt_of_prevChunkGo (hp : List HChunk) :
    ∀ (base x : Nat) (pc : HChunk), (∀ ch ∈ hp, 0 < ch.csize) →
      prevChunkGo base hp x = some pc →
      pc.csize ≤ x ∧ chunkAtGo base hp (x - pc.csize) = some pc := by
  induction hp with
  | nil => intro base x pc _ h; simp [prevChunkGo] at h
  | cons c rest ih =>
    intro base x pc hpos h
    simp only [prevChunkGo] at h
    simp only [chunkAtGo]
    by_cases hb : base + c.csize = x
    · rw [if_pos hb] at h
      injection h with h
      subst h
      refine ⟨by omega, ?_⟩
      rw [if_pos (by omega)]
    · rw [if_neg hb] at h
      have hrec := ih (base + c.csize) x pc
        (fun ch hch => hpos ch (List.mem_cons_of_mem c hch)) h
      have hle := chunkAtGo_le rest (base + c.csize) (x - pc.csize) pc hrec.2
      have hcpos : 0 < c.csize := hpos c (by simp)
      refine ⟨hrec.1, ?_⟩
      rw [if_neg (by omega)]
      exact hrec.2

/-- Merging at `v` does not move the chunk at `a` when `a` is neither `v` nor
the absorbed successor position. -/
theorem heapMergeGo_frame (hp : List HChunk) :
    ∀ (base v a : Nat), a ≠ v →
      (∀ c1, chunkAtGo base hp v = some c1 → a ≠ v + c1.csize) →
      chunkAtGo base (heapMergeGo base hp v) a = chunkAtGo base hp a := by
  induction hp with
  | nil => intro base v a _ _; rfl
  | cons c rest ih =>
    intro base v a hav habs
    simp only [heapMergeGo]
    by_cases hb : base = v
    · rw [if_pos hb]
      have habs2 : a ≠ v + c.csize := habs c (by simp [chunkAtGo, hb])
      rcases rest with _ | ⟨c2, rest2⟩
      · rfl
      · simp only [chunkAtGo]
        rw [if_neg (show ¬ base = a by omega),
          if_neg (show ¬ base = a by omega),
          if_neg (show ¬ base + c.csize = a by omega)]
        rw [show base + (c.csize + c2.csize) = base + c.csize + c2.csize by
          omega]
    · rw [if_neg hb]
      simp only [chunkAtGo]
      by_cases hba : base = a
      · rw [if_pos hba, if_pos hba]
      · rw [if_neg hba, if_neg hba]
        apply ih
        · exact hav
        · intro c1 hc1
          apply habs
          simp only [chunkAtGo]
          rw [if_neg hb]
          exact hc1

/-- Merging a found chunk with its found successor yields the combined chunk
at the merge base. -/
theorem heapMergeGo_succ (hp : List HChunk) :
    ∀ (base v : Nat) (c1 c2 : HChunk), (∀ ch ∈ hp, 0 < ch.csize) →
      chunkAtGo base hp v = some c1 →
      chunkAtGo base hp (v + c1.csize) = some c2 →
      chunkAtGo base (heapMergeGo base hp v) v =
        some ⟨c1.csize + c2.csize, c1.status, c1.data⟩ := by
  induction hp with
  | nil => intro base v c1 c2 _ h _; simp [chunkAtGo] at h
  | cons c rest ih =>
    intro base v c1 c2 hpos h1 h2
    simp only [chunkAtGo] at h1 h2
    simp only [heapMergeGo]
    by_cases hb : base = v
    · rw [if_pos hb] at h1 ⊢
      injection h1 with h1
      subst h1
      have hcpos : 0 < c.csize := hpos c (by simp)
      rw [if_neg (by omega)] at h2
      rcases rest with _ | ⟨cc, rest2⟩
      · simp [chunkAtGo] at h2
      · simp only [chunkAtGo] at h2
        rw [if_pos (by omega)] at h2
        injection h2 with h2
        subst h2
        simp [chunkAtGo, hb]
    · rw [if_neg hb] at h1
      have hle := chunkAtGo_le rest (base + c.csize) v c1 h1
      have hc1pos : 0 < c1.csize :=
        hpos c1 (List.mem_cons_of_mem c (chunkAtGo_mem rest _ v c1 h1))
      rw [if_neg (by omega)] at h2
      rw [if_neg hb]
      simp only [chunkAtGo]
      rw [if_neg hb]
      exact ih _ v c1 c2 (fun ch hch => hpos ch (List.mem_cons_of_mem c hch))
        h1 h2

/-- Merging a found chunk that has no physical successor leaves the list
unchanged. -/
theorem heapMergeGo_eq_of_last (hp : List HChunk) :
    ∀ (base v : Nat) (c1 : HChunk), (∀ ch ∈ hp, 0 < ch.csize) →
      chunkAtGo base hp v = some c1 →
      chunkAtGo base hp (v + c1.csize) = none →
      heapMergeGo base hp v = hp := by
  induction hp with
  | nil => intro base v c1 _ h _; simp [chunkAtGo] at h
  | cons c rest ih =>
    intro base v c1 hpos h1 h2
    simp only [chunkAtGo] at h1 h2
    simp only [heapMergeGo]
    by_cases hb : base = v
    · rw [if_pos hb]
      rw [if_pos hb] at h1
      injection h1 with h1
      subst h1
      have hcpos : 0 < c.csize := hpos c (by simp)
      rw [if_neg (by omega)] at h2
      rcases rest with _ | ⟨cc, rest2⟩
      · rfl
      · exfalso
        simp only [chunkAtGo] at h2
        rw [if_pos (by omega)] at h2
        simp at h2
    · rw [if_neg hb]
      rw [if_neg hb] at h1
      have hle := chunkAtGo_le rest (base + c.csize) v c1 h1
      have hc1pos : 0 < c1.csize :=
        hpos c1 (List.mem_cons_of_mem c (chunkAtGo_mem rest _ v c1 h1))
      rw [if_neg (by omega)] at h2
      rw [ih _ v c1 (fun ch hch => hpos ch (List.mem_cons_of_mem c hch)) h1 h2]

/-- After a successful merge at `v`, nothing is found at the absorbed
successor position. -/
theorem heapMergeGo_absorbed (hp : List HChunk) :
    ∀ (base v : Nat) (c1 c2 : HChunk), (∀ ch ∈ hp, 0 < ch.csize) →
      chunkAtGo base hp v = some c1 →
      chunkAtGo base hp (v + c1.csize) = some c2 →
      chunkAtGo base (heapMergeGo base hp v) (v + c1.csize) = none := by
  induction hp with
  | nil => intro base v c1 c2 _ h _; simp [chunkAtGo] at h
  | cons c rest ih =>
    intro base v c1 c2 hpos h1 h2
    simp only [chunkAtGo] at h1 h2
    simp only [heapMergeGo]
    by_cases hb : base = v
    · rw [if_pos hb]
      rw [if_pos hb] at h1
      injection h1 with h1
      subst h1
      have hcpos : 0 < c.csize := hpos c (by simp)
      rw [if_neg (by omega)] at h2
      rcases rest with _ | ⟨cc, rest2⟩
      · simp [chunkAtGo] at h2
      · simp only [chunkAtGo] at h2
        rw [if_pos (by omega)] at h2
        injection h2 with h2
        subst h2
        have hccpos : 0 < cc.csize := hpos cc (by simp)
        simp only [chunkAtGo]
        rw [if_neg (by omega)]
        apply chunkAtGo_none_of_lt
        show v + c.csize < base + (c.csize + cc.csize)
        omega
    · rw [if_neg hb]
      rw [if_neg hb] at h1
      have hle := chunkAtGo_le rest (base + c.csize) v c1 h1
      have hc1pos : 0 < c1.csize :=
        hpos c1 (List.mem_cons_of_mem c (chunkAtGo_mem rest _ v c1 h1))
      rw [if_neg (by omega)] at h2
      simp only [chunkAtGo]
      rw [if_neg (by omega)]
      exact ih _ v c1 c2 (fun ch hch => hpos ch (List.mem_cons_of_mem c hch))
        h1 h2

/-- Every position found after a merge was a position before it. -/
theorem chunkAtGo_heapMergeGo_sub (hp : List HChunk) :
    ∀ (base v x : Nat) (cx : HChunk),
      chunkAtGo base (heapMergeGo base hp v) x = some cx →
      ∃ cw, chunkAtGo base hp x = some cw := by
  induction hp with
  | nil => intro base v x cx h; simp [heapMergeGo, chunkAtGo] at h
  | cons c rest ih =>
    intro base v x cx h
    simp only [heapMergeGo] at h
    simp only [chunkAtGo]
    by_cases hb : base = v
    · rw [if_pos hb] at h
      rcases rest with _ | ⟨cc, rest2⟩
      · simp only [chunkAtGo] at h
        by_cases hx : base = x
        · rw [if_pos hx]
          exact ⟨c, rfl⟩
        · rw [if_neg hx] at h
          simp [chunkAtGo] at h
      · simp only [chunkAtGo] at h
        by_cases hx : base = x
        · rw [if_pos hx]
          exact ⟨c, rfl⟩
        · rw [if_neg hx] at h
          rw [if_neg hx]
          simp only [chunkAtGo]
          by_cases hx2 : base + c.csize = x
          · rw [if_pos hx2]
            exact ⟨cc, rfl⟩
          · rw [if_neg hx2]
            rw [show base + c.csize + cc.csize =
              base + (c.csize + cc.csize) by omega]
            exact ⟨cx, h⟩
    · rw [if_neg hb] at h
      simp only [chunkAtGo] at h
      by_cases hx : base = x
      · rw [if_pos hx]
        exact ⟨c, rfl⟩
      · rw [if_neg hx] at h
        rw [if_neg hx]
        exact ih _ v x cx h

/-- Chunks of a merged list arise from original chunks, sizes only growing. -/
theorem mem_heapMergeGo (hp : List HChunk) :
    ∀ (base v : Nat) (ch : HChunk), ch ∈ heapMergeGo base hp v →
      ∃ c0 ∈ hp, c0.csize ≤ ch.csize := by
  induction hp with
  | nil => intro base v ch h; simp [heapMergeGo] at h
  | cons c rest ih =>
    intro base v ch h
    simp only [heapMergeGo] at h
    by_cases hb : base = v
    · rw [if_pos hb] at h
      rcases rest with _ | ⟨cc, rest2⟩
      · simp at h
        exact ⟨c, by simp, by rw [h]⟩
      · rcases List.mem_cons.mp h with h1 | h1
        · refine ⟨c, by simp, ?_⟩
          rw [h1]
          exact Nat.le_add_right c.csize cc.csize
        · exact ⟨ch, List.mem_cons_of_mem c (List.mem_cons_of_mem cc h1),
            le_refl _⟩
    · rw [if_neg hb] at h
      rcases List.mem_cons.mp h with h1 | h1
      · exact ⟨ch, by simp [h1], le_refl _⟩
      · obtain ⟨c0, hc0, hle⟩ := ih _ v ch h1
        exact ⟨c0, List.mem_cons_of_mem c hc0, hle⟩

/-- Chunks of a rewritten list are original chunks or the rewrite image. -/
theorem mem_mapChunkGo (f : HChunk → HChunk) (hp : List HChunk) :
    ∀ (base v : Nat) (ch : HChunk), ch ∈ mapChunkGo base hp v f →
      ch ∈ hp ∨ ∃ c0 ∈ hp, ch = f c0 := by
  induction hp with
  | nil => intro base v ch h; simp [mapChunkGo] at h
  | cons c rest ih =>
    intro base v ch h
    simp only [mapChunkGo] at h
    by_cases hb : base = v
    · rw [if_pos hb] at h
      rcases List.mem_cons.mp h with h1 | h1
      · exact Or.inr ⟨c, by simp, h1⟩
      · exact Or.inl (List.mem_cons_of_mem c h1)
    · rw [if_neg hb] at h
      rcases List.mem_cons.mp h with h1 | h1
      · exact Or.inl (by simp [h1])
      · rcases ih _ v ch h1 with h2 | ⟨c0, hc0, he⟩
        · exact Or.inl (List.mem_cons_of_mem c h2)
        · exact Or.inr ⟨c0, List.mem_cons_of_mem c hc0, he⟩

/-- Membership in a slot after overwriting one slot of a table. -/
theorem mem_of_getD_set (l : List (List Nat)) (k i : Nat) (B : List Nat)
    (x : Nat) (hx : x ∈ (l.set k B).getD i []) : x ∈ B ∨ x ∈ l.getD i [] := by
  rw [List.getD_eq_getElem?_getD, List.getElem?_set] at hx
  split_ifs at hx
  · exact Or.inl (by simpa using hx)
  · simp at hx
  · exact Or.inr (by rw [List.getD_eq_getElem?_getD]; exact hx)

/-- Reading an untouched slot after overwriting another slot of a table. -/
theorem getD_set_ne (l : List (List Nat)) (k i : Nat) (B : List Nat)
    (hki : k ≠ i) : (l.set k B).getD i [] = l.getD i [] := by
  rw [List.getD_eq_getElem?_getD, List.getElem?_set, if_neg hki,
    ← List.getD_eq_getElem?_getD]

/-- Overwriting a slot with the empty list empties that slot. -/
theorem getD_set_nil (l : List (List Nat)) (k : Nat) :
    (l.set k ([] : List Nat)).getD k [] = [] := by
  rw [List.getD_eq_getElem?_getD, List.getElem?_set, if_pos rfl]
  split_ifs <;> simp

/-- The last element of a duplicate-free list does not occur in its front. -/
theorem getLast?_notMem_dropLast (l : List Nat) (v : Nat) (hnd : l.Nodup)
    (hl : l.getLast? = some v) : v ∉ l.dropLast := by
  have hne : l ≠ [] := by
    intro h
    rw [h] at hl
    simp at hl
  have hv : l.getLast hne = v := by
    rw [List.getLast?_eq_getLast l hne] at hl
    exact Option.some.inj hl
  have hsplit : l.dropLast ++ [l.getLast hne] = l :=
    List.dropLast_append_getLast hne
  have hnd2 : (l.dropLast ++ [l.getLast hne]).Nodup := by
    rw [hsplit]
    exact hnd
  have hdisj := List.disjoint_of_nodup_append hnd2
  intro hmem
  rw [← hv] at hmem
  exact hdisj hmem (by simp)

/-- Sorted insertion of a fresh element preserves duplicate-freedom. -/
theorem nodup_sortedInsert (s : AState) (k v : Nat) :
    ∀ (l : List Nat), v ∉ l → l.Nodup → (sortedInsert s k v l).Nodup := by
  intro l
  induction l with
  | nil => intro _ _; simp [sortedInsert]
  | cons a rest ih =>
    intro hv hnd
    simp only [sortedInsert]
    split_ifs
    · rw [List.nodup_cons] at hnd ⊢
      have hv2 : v ∉ rest := fun h => hv (List.mem_cons_of_mem a h)
      refine ⟨?_, ih hv2 hnd.2⟩
      intro hmem
      rcases mem_sortedInsert s k v rest a hmem with h | h
      · exact hv (by simp [h])
      · exact hnd.1 h
    · rw [List.nodup_cons]
      exact ⟨hv, hnd⟩

/-- Appending a fresh element preserves duplicate-freedom. -/
theorem nodup_append_single (l : List Nat) (v : Nat) (hv : v ∉ l)
    (hnd : l.Nodup) : (l ++ [v]).Nodup := by
  rw [List.nodup_append]
  refine ⟨hnd, List.nodup_singleton v, ?_⟩
  intro x hx hxv
  simp at hxv
  subst hxv
  exact hv hx

/-- A found chunk is a member of the state's heap. -/
theorem chunkAt_mem (t : AState) (x : Nat) (cx : HChunk)
    (h : t.chunkAt x = some cx) : cx ∈ t.heap :=
  chunkAtGo_mem t.heap t.heapBase x cx h

/-- Distinct found chunks have disjoint extents. -/
theorem chunkAt_disjoint (t : AState) (x y : Nat) (cx cy : HChunk)
    (hx : t.chunkAt x = some cx) (hy : t.chunkAt y = some cy) (hne : x ≠ y) :
    x + cx.csize ≤ y ∨ y + cy.csize ≤ x :=
  chunkAtGo_disjoint t.heap t.heapBase x y cx cy hx hy hne

/-- The physical predecessor of `x` is the chunk found one size below `x`. -/
theorem chunkAt_of_prevChunkOf (t : AState) (x : Nat) (pc : HChunk)
    (hpos : ∀ ch ∈ t.heap, 0 < ch.csize) (h : t.prevChunkOf x = some pc) :
    pc.csize ≤ x ∧ t.chunkAt (x - pc.csize) = some pc :=
  chunkAt_of_prevChunkGo t.heap t.heapBase x pc hpos h

/-- A clear derived `P` bit exhibits a free physical predecessor. -/
theorem pbit_false_prev (t : AState) (x : Nat) (h : pbitAt t x = false) :
    ∃ pc, t.prevChunkOf x = some pc ∧ pc.status ≠ CStatus.inuse ∧
      pc.status ≠ CStatus.fast := by
  simp only [pbitAt] at h
  rcases hp : t.prevChunkOf x with _ | pc <;> rw [hp] at h
  · simp at h
  · simp only [decide_eq_false_iff_not, not_or] at h
    exact ⟨pc, rfl, h.1, h.2⟩

/-- State-level frame for `heapMergeAt`. -/
theorem chunkAt_heapMergeAt_frame (t : AState) (v x : Nat) (hxv : x ≠ v)
    (habs : ∀ c1, t.chunkAt v = some c1 → x ≠ v + c1.csize) :
    (heapMergeAt t v).chunkAt x = t.chunkAt x :=
  heapMergeGo_frame t.heap t.heapBase v x hxv habs

/-- State-level successor merge for `heapMergeAt`. -/
theorem chunkAt_heapMergeAt_succ (t : AState) (v : Nat) (c1 c2 : HChunk)
    (hpos : ∀ ch ∈ t.heap, 0 < ch.csize)
    (h1 : t.chunkAt v = some c1) (h2 : t.chunkAt (v + c1.csize) = some c2) :
    (heapMergeAt t v).chunkAt v =
      some ⟨c1.csize + c2.csize, c1.status, c1.data⟩ :=
  heapMergeGo_succ t.heap t.heapBase v c1 c2 hpos h1 h2

/-- A merge whose base has no physical successor changes nothing. -/
theorem heapMergeAt_eq_of_last (t : AState) (v : Nat) (c1 : HChunk)
    (hpos : ∀ ch ∈ t.heap, 0 < ch.csize)
    (h1 : t.chunkAt v = some c1) (h2 : t.chunkAt (v + c1.csize) = none) :
    heapMergeAt t v = t := by
  show { t with heap := heapMergeGo t.heapBase t.heap v } = t
  rw [heapMergeGo_eq_of_last t.heap t.heapBase v c1 hpos h1 h2]

/-- State-level absorbed position after a merge. -/
theorem chunkAt_heapMergeAt_absorbed (t : AState) (v : Nat) (c1 c2 : HChunk)
    (hpos : ∀ ch ∈ t.heap, 0 < ch.csize)
    (h1 : t.chunkAt v = some c1) (h2 : t.chunkAt (v + c1.csize) = some c2) :
    (heapMergeAt t v).chunkAt (v + c1.csize) = none :=
  heapMergeGo_absorbed t.heap t.heapBase v c1 c2 hpos h1 h2

/-- State-level position subset for a merge. -/
theorem chunkAt_heapMergeAt_sub (t : AState) (v x : Nat) (cx : HChunk)
    (h : (heapMergeAt t v).chunkAt x = some cx) :
    ∃ cw, t.chunkAt x = some cw :=
  chunkAtGo_heapMergeGo_sub t.heap t.heapBase v x cx h

/-- Merging preserves positive chunk sizes. -/
theorem sizes_heapMergeAt (t : AState) (v : Nat)
    (hpos : ∀ ch ∈ t.heap, 0 < ch.csize) :
    ∀ ch ∈ (heapMergeAt t v).heap, 0 < ch.csize := by
  intro ch hch
  obtain ⟨c0, hc0, hle⟩ := mem_heapMergeGo t.heap t.heapBase v ch hch
  exact lt_of_lt_of_le (hpos c0 hc0) hle

/-- Rewriting one chunk through a size-preserving function keeps all chunk
sizes positive. -/
theorem sizes_mapChunk (t : AState) (v : Nat) (f : HChunk → HChunk)
    (hfs : ∀ ch, (f ch).csize = ch.csize)
    (hpos : ∀ ch ∈ t.heap, 0 < ch.csize) :
    ∀ ch ∈ (t.mapChunk v f).heap, 0 < ch.csize := by
  intro ch hch
  rcases mem_mapChunkGo f t.heap t.heapBase v ch hch with h | ⟨c0, hc0, he⟩
  · exact hpos ch h
  · rw [he, hfs]
    exact hpos c0 hc0

/-- Positions found after a size-preserving rewrite were present before. -/
theorem chunkAt_mapChunk_sub (t : AState) (v : Nat) (f : HChunk → HChunk)
    (hfs : ∀ ch, (f ch).csize = ch.csize) (x : Nat) (cx : HChunk)
    (hx : (t.mapChunk v f).chunkAt x = some cx) :
    ∃ cw, t.chunkAt x = some cw := by
  have h := chunkAtGo_mapChunkGo_csize f hfs t.heap t.heapBase v x
  rw [show (t.mapChunk v f).chunkAt x =
      chunkAtGo t.heapBase (mapChunkGo t.heapBase t.heap v f) x from rfl] at hx
  rw [hx] at h
  rcases h2 : chunkAtGo t.heapBase t.heap x with _ | cw
  · rw [h2] at h
    simp at h
  · exact ⟨cw, h2⟩

/-- The chunk at the address whose status is being set. -/
theorem chunkAt_setChunkStatus_self (t : AState) (v : Nat) (st : CStatus) :
    (setChunkStatus t v st).chunkAt v =
      (t.chunkAt v).map (fun ch => { ch with status := st }) :=
  chunkAtGo_mapChunkGo_self (fun ch => { ch with status := st }) t.heap
    t.heapBase v

/-- The slots of the bin table after an unlink. -/
theorem unlink_getD (t : AState) (v i : Nat) :
    (unlinkAddr t v).bins.getD i [] = (t.bins.getD i []).erase v := by
  show (t.bins.map (fun l => l.erase v)).getD i [] = _
  rw [List.getD_eq_getElem?_getD, List.getElem?_map,
    List.getD_eq_getElem?_getD]
  rcases hb : t.bins[i]? with _ | l <;> simp

/-- Under the frame conditions the preserved chunk lies strictly below top. -/
theorem frame8_a_lt_top (a : Nat) (c : HChunk) (t : AState)
    (hf : frame8 a c t) : a < t.top := by
  obtain ⟨g1, g2, _, _, ⟨tc, htc, htcs⟩, gL, _⟩ := hf
  have h1 := gL a c g1
  rcases Nat.eq_or_lt_of_le h1 with h | h
  · exfalso
    rw [h, htc] at g1
    injection g1 with g1
    rw [g1] at htcs
    rw [g2] at htcs
    exact absurd htcs (by decide)
  · exact h

/-- Under the frame conditions the top chunk has positive `chunksize`. -/
theorem frame8_top_pos (a : Nat) (c : HChunk) (t : AState)
    (hf : frame8 a c t) : 0 < chunksizeAt t t.top := by
  obtain ⟨_, _, _, _, ⟨tc, htc, _⟩, _, gP, _⟩ := hf
  rw [show chunksizeAt t t.top = tc.csize from by simp only [chunksizeAt, htc]]
  exact gP tc (chunkAt_mem t t.top tc htc)

/-- Under the frame conditions no bin links the preserved chunk. -/
theorem frame8_a_notMem_bins (a : Nat) (c : HChunk) (t : AState)
    (hf : frame8 a c t) : ∀ i, a ∉ t.bins.getD i [] := by
  obtain ⟨g1, g2, _, _, _, _, _, gB2, _⟩ := hf
  intro i hmem
  obtain ⟨b, hb1, hb2⟩ := gB2 i a hmem
  rw [g1] at hb1
  injection hb1 with hb1
  rw [← hb1] at hb2
  rcases hb2 with h | h <;> (rw [g2] at h; exact absurd h (by decide))
/-- Chunks with different statuses sit at different addresses. -/
theorem chunkAt_status_ne (t : AState) (x y : Nat) (cx cy : HChunk)
    (hx : t.chunkAt x = some cx) (hy : t.chunkAt y = some cy)
    (hst : cx.status ≠ cy.status) : x ≠ y := by
  intro h
  rw [h, hy] at hx
  injection hx with hx
  rw [hx] at hst
  exact hst rfl

/-- The unsorted-placement tail of a consolidation iteration preserves the
frame when the placed chunk `p` is fresh: present in the heap, not the
preserved chunk, not `top`, and linked nowhere. -/
theorem consPlace_unsorted (M : AState) (a p : Nat) (c mp2 : HChunk)
    (hfM : frame8 a c M)
    (hmp2 : M.chunkAt p = some mp2)
    (hptop : p ≠ M.top)
    (hpa : p ≠ a)
    (hpbin : ∀ j, p ∉ M.bins.getD j [])
    (hpfast : ∀ j, p ∉ M.fastbins.getD j []) :
    frame8 a c
      { setChunkStatus M p CStatus.unsorted with
        bins := (setChunkStatus M p CStatus.unsorted).bins.set 1
          (p :: (setChunkStatus M p CStatus.unsorted).bins.getD 1 []) } ∧
      (∀ x fx, M.chunkAt x = some fx → fx.status = CStatus.fast → x ≠ p →
        ({ setChunkStatus M p CStatus.unsorted with
          bins := (setChunkStatus M p CStatus.unsorted).bins.set 1
            (p :: (setChunkStatus M p CStatus.unsorted).bins.getD 1 []) } :
              AState).chunkAt x = some fx) := by
  obtain ⟨g1, g2, g3, g4, ⟨tc, htc, htcs⟩, gL, gP, gB2, gB3, gB4, gF2, gF3,
    gF4⟩ := hfM
  have hSne : ∀ x, x ≠ p →
      (setChunkStatus M p CStatus.unsorted).chunkAt x = M.chunkAt x :=
    fun x hx => chunkAt_setChunkStatus_ne M p CStatus.unsorted x (Ne.symm hx)
  have hSself : (setChunkStatus M p CStatus.unsorted).chunkAt p =
      some ⟨mp2.csize, CStatus.unsorted, mp2.data⟩ := by
    rw [chunkAt_setChunkStatus_self, hmp2]
    rfl
  refine ⟨⟨?_, g2, g3, g4, ?_, ?_, ?_, ?_, ?_, ?_, ?_, ?_, ?_⟩, ?_⟩
  · show (setChunkStatus M p CStatus.unsorted).chunkAt a = some c
    rw [hSne a (Ne.symm hpa)]
    exact g1
  · refine ⟨tc, ?_, htcs⟩
    show (setChunkStatus M p CStatus.unsorted).chunkAt M.top = some tc
    rw [hSne M.top (Ne.symm hptop)]
    exact htc
  · intro x cx hx
    show x ≤ M.top
    have hx2 : (setChunkStatus M p CStatus.unsorted).chunkAt x = some cx := hx
    obtain ⟨cw, hcw⟩ := chunkAt_mapChunk_sub M p
      (fun ch => { ch with status := CStatus.unsorted }) (fun _ => rfl) x cx hx2
    exact gL x cw hcw
  · show ∀ ch ∈ (setChunkStatus M p CStatus.unsorted).heap, 0 < ch.csize
    exact sizes_mapChunk M p (fun ch => { ch with status := CStatus.unsorted })
      (fun _ => rfl) gP
  · intro i x hx
    have hx2 : x ∈ (M.bins.set 1 (p :: M.bins.getD 1 [])).getD i [] := hx
    rcases mem_of_getD_set _ _ _ _ _ hx2 with h | h
    · rcases List.mem_cons.mp h with h1 | h1
      · subst h1
        exact ⟨⟨mp2.csize, CStatus.unsorted, mp2.data⟩, hSself, Or.inl rfl⟩
      · obtain ⟨b, hb1, hb2⟩ := gB2 1 x h1
        have hxp : x ≠ p := fun hh => hpbin 1 (hh ▸ h1)
        refine ⟨b, ?_, hb2⟩
        show (setChunkStatus M p CStatus.unsorted).chunkAt x = some b
        rw [hSne x hxp]
        exact hb1
    · obtain ⟨b, hb1, hb2⟩ := gB2 i x h
      have hxp : x ≠ p := fun hh => hpbin i (hh ▸ h)
      refine ⟨b, ?_, hb2⟩
      show (setChunkStatus M p CStatus.unsorted).chunkAt x = some b
      rw [hSne x hxp]
      exact hb1
  · intro i
    show ((M.bins.set 1 (p :: M.bins.getD 1 [])).getD i []).Nodup
    by_cases hi : (1 : Nat) = i
    · subst hi
      rw [List.getD_eq_getElem?_getD, List.getElem?_set, if_pos rfl]
      split_ifs
      · simp only [Option.getD_some]
        rw [List.nodup_cons]
        exact ⟨hpbin 1, gB3 1⟩
      · simp
    · rw [getD_set_ne _ _ _ _ hi]
      exact gB3 i
  · intro i j hij x hxi hxj
    have hxi2 : x ∈ (M.bins.set 1 (p :: M.bins.getD 1 [])).getD i [] := hxi
    have hxj2 : x ∈ (M.bins.set 1 (p :: M.bins.getD 1 [])).getD j [] := hxj
    by_cases hi : (1 : Nat) = i
    · subst hi
      rw [getD_set_ne _ _ _ _ hij] at hxj2
      rcases mem_of_getD_set _ _ _ _ _ hxi2 with h | h
      · rcases List.mem_cons.mp h with h1 | h1
        · subst h1
          exact hpbin j hxj2
        · exact gB4 1 j hij x h1 hxj2
      · exact gB4 1 j hij x h hxj2
    · rw [getD_set_ne _ _ _ _ hi] at hxi2
      by_cases hj : (1 : Nat) = j
      · subst hj
        rcases mem_of_getD_set _ _ _ _ _ hxj2 with h | h
        · rcases List.mem_cons.mp h with h1 | h1
          · subst h1
            exact hpbin i hxi2
          · exact gB4 i 1 hij x hxi2 h1
        · exact gB4 i 1 hij x hxi2 h
      · rw [getD_set_ne _ _ _ _ hj] at hxj2
        exact gB4 i j hij x hxi2 hxj2
  · intro j x hx
    have hx2 : x ∈ M.fastbins.getD j [] := hx
    obtain ⟨fx, hfx1, hfx2⟩ := gF2 j x hx2
    have hxp : x ≠ p := fun hh => hpfast j (hh ▸ hx2)
    refine ⟨fx, ?_, hfx2⟩
    show (setChunkStatus M p CStatus.unsorted).chunkAt x = some fx
    rw [hSne x hxp]
    exact hfx1
  · exact gF3
  · exact gF4
  · intro x fx hfx hfxs hxp
    show (setChunkStatus M p CStatus.unsorted).chunkAt x = some fx
    rw [hSne x hxp]
    exact hfx

/-- The placement phase of a consolidation iteration preserves the frame,
the fastbin table and every other fastbin-status chunk, provided the placed
chunk `p` extends exactly to `nextchunk`, is fresh, and `nextsize` is the
size actually found at `nextchunk` (or `nextchunk` holds no chunk). -/
theorem consPlace_frame (t1 : AState) (a p nextchunk nextsize : Nat)
    (c mp : HChunk)
    (hf : frame8 a c t1)
    (hmp : t1.chunkAt p = some mp)
    (hext : p + mp.csize = nextchunk)
    (hptop : p ≠ t1.top)
    (hpa : p ≠ a)
    (hpbin : ∀ j, p ∉ t1.bins.getD j [])
    (hpfast : ∀ j, p ∉ t1.fastbins.getD j [])
    (hns : t1.chunkAt nextchunk = none ∨
      ∃ g, t1.chunkAt nextchunk = some g ∧ nextsize = g.csize) :
    frame8 a c (consolidatePlace t1 p nextchunk nextsize) ∧
      (consolidatePlace t1 p nextchunk nextsize).fastbins = t1.fastbins ∧
      (∀ x fx, t1.chunkAt x = some fx → fx.status = CStatus.fast → x ≠ p →
        (consolidatePlace t1 p nextchunk nextsize).chunkAt x = some fx) := by
  obtain ⟨g1, g2, g3, g4, ⟨tc, htc, htcs⟩, gL, gP, gB2, gB3, gB4, gF2, gF3,
    gF4⟩ := hf
  have hmppos : 0 < mp.csize := gP mp (chunkAt_mem t1 p mp hmp)
  have htopbin : ∀ j, t1.top ∉ t1.bins.getD j [] := by
    intro j hmem
    obtain ⟨b, hb1, hb2⟩ := gB2 j t1.top hmem
    rw [htc] at hb1
    injection hb1 with hb1
    rw [← hb1] at hb2
    rcases hb2 with h | h <;> (rw [htcs] at h; exact absurd h (by decide))
  have htopfast : ∀ j, t1.top ∉ t1.fastbins.getD j [] := by
    intro j hmem
    obtain ⟨fx, hb1, hb2⟩ := gF2 j t1.top hmem
    rw [htc] at hb1
    injection hb1 with hb1
    rw [← hb1] at hb2
    rw [htcs] at hb2
    exact absurd hb2 (by decide)
  simp only [consolidatePlace]
  by_cases hne : nextchunk = t1.top
  · -- the chunk borders top: fold it into top
    rw [if_neg (not_not_intro hne)]
    have h2 : t1.chunkAt (p + mp.csize) = some tc := by
      rw [hext, hne]
      exact htc
    have htcpos : 0 < tc.csize := gP tc (chunkAt_mem t1 t1.top tc htc)
    have hane : a ≠ t1.top :=
      chunkAt_status_ne t1 a t1.top c tc g1 htc (by rw [g2, htcs]; decide)
    have hm2 : (heapMergeAt t1 p).chunkAt p =
        some ⟨mp.csize + tc.csize, mp.status, mp.data⟩ :=
      chunkAt_heapMergeAt_succ t1 p mp tc gP hmp h2
    have habs : (heapMergeAt t1 p).chunkAt (p + mp.csize) = none :=
      chunkAt_heapMergeAt_absorbed t1 p mp tc gP hmp h2
    have habs2 : (heapMergeAt t1 p).chunkAt t1.top = none := by
      rw [← hne, ← hext]
      exact habs
    have hfr : ∀ x, x ≠ p → x ≠ t1.top →
        (heapMergeAt t1 p).chunkAt x = t1.chunkAt x := by
      intro x hx1 hx2
      apply chunkAt_heapMergeAt_frame t1 p x hx1
      intro c1 hc1
      rw [hmp] at hc1
      injection hc1 with hc1
      subst hc1
      rw [hext, hne]
      exact hx2
    have hA2 : (heapMergeAt t1 p).chunkAt a = some c := by
      rw [hfr a (Ne.symm hpa) hane]
      exact g1
    refine ⟨⟨?_, g2, g3, g4, ?_, ?_, ?_, ?_, ?_, ?_, ?_, ?_, ?_⟩, rfl, ?_⟩
    · show (setChunkStatus (heapMergeAt t1 p) p CStatus.top).chunkAt a = some c
      rw [chunkAt_setChunkStatus_ne _ _ _ _ hpa]
      exact hA2
    · refine ⟨⟨mp.csize + tc.csize, CStatus.top, mp.data⟩, ?_, rfl⟩
      show (setChunkStatus (heapMergeAt t1 p) p CStatus.top).chunkAt p =
        some ⟨mp.csize + tc.csize, CStatus.top, mp.data⟩
      rw [chunkAt_setChunkStatus_self, hm2]
      rfl
    · intro x cx hx
      show x ≤ p
      have hx2 : (setChunkStatus (heapMergeAt t1 p) p CStatus.top).chunkAt x =
          some cx := hx
      by_cases hxp : x = p
      · omega
      · obtain ⟨cw, hcw⟩ := chunkAt_mapChunk_sub (heapMergeAt t1 p) p
          (fun ch => { ch with status := CStatus.top }) (fun _ => rfl) x cx hx2
        by_cases hxt : x = t1.top
        · rw [hxt] at hcw
          rw [habs2] at hcw
          simp at hcw
        · rw [hfr x hxp hxt] at hcw
          have hxle := gL x cw hcw
          have hdj := chunkAt_disjoint t1 x p cw mp hcw hmp hxp
          rcases hdj with hd | hd
          · have := gP cw (chunkAt_mem t1 x cw hcw)
            omega
          · omega
    · show ∀ ch ∈ (setChunkStatus (heapMergeAt t1 p) p CStatus.top).heap,
        0 < ch.csize
      exact sizes_mapChunk (heapMergeAt t1 p) p
        (fun ch => { ch with status := CStatus.top }) (fun _ => rfl)
        (sizes_heapMergeAt t1 p gP)
    · intro i x hx
      have hx2 : x ∈ t1.bins.getD i [] := hx
      obtain ⟨b, hb1, hb2⟩ := gB2 i x hx2
      have hxp : x ≠ p := fun hh => hpbin i (hh ▸ hx2)
      have hxt : x ≠ t1.top := fun hh => htopbin i (hh ▸ hx2)
      refine ⟨b, ?_, hb2⟩
      show (setChunkStatus (heapMergeAt t1 p) p CStatus.top).chunkAt x = some b
      rw [chunkAt_setChunkStatus_ne _ _ _ _ (Ne.symm hxp), hfr x hxp hxt]
      exact hb1
    · exact gB3
    · exact gB4
    · intro j x hx
      have hx2 : x ∈ t1.fastbins.getD j [] := hx
      obtain ⟨fx, hfx1, hfx2⟩ := gF2 j x hx2
      have hxp : x ≠ p := fun hh => hpfast j (hh ▸ hx2)
      have hxt : x ≠ t1.top := fun hh => htopfast j (hh ▸ hx2)
      refine ⟨fx, ?_, hfx2⟩
      show (setChunkStatus (heapMergeAt t1 p) p CStatus.top).chunkAt x = some fx
      rw [chunkAt_setChunkStatus_ne _ _ _ _ (Ne.symm hxp), hfr x hxp hxt]
      exact hfx1
    · exact gF3
    · exact gF4
    · intro x fx hfx hfxs hxp
      have hxt : x ≠ t1.top := chunkAt_status_ne t1 x t1.top fx tc hfx htc
        (by rw [hfxs, htcs]; decide)
      show (setChunkStatus (heapMergeAt t1 p) p CStatus.top).chunkAt x = some fx
      rw [chunkAt_setChunkStatus_ne _ _ _ _ (Ne.symm hxp), hfr x hxp hxt]
      exact hfx
  rw [if_pos hne]
  by_cases hni : pbitAt t1 (nextchunk + nextsize) = true
  · -- the successor is in use: place the chunk unmerged
    rw [if_neg (not_not_intro hni)]
    have hres := consPlace_unsorted t1 a p c mp
      ⟨g1, g2, g3, g4, ⟨tc, htc, htcs⟩, gL, gP, gB2, gB3, gB4, gF2, gF3, gF4⟩
      hmp hptop hpa hpbin hpfast
    exact ⟨hres.1, rfl, hres.2⟩
  · -- forward merge into the unsorted queue
    rw [if_pos hni]
    simp only [Bool.not_eq_true] at hni
    rcases hns with hnone | ⟨g, hg, hgsz⟩
    · -- no chunk at nextchunk: the merge is a no-op on the heap
      have hgu : (unlinkAddr t1 nextchunk).chunkAt (p + mp.csize) = none := by
        show t1.chunkAt (p + mp.csize) = none
        rw [hext]
        exact hnone
      have hMeq : heapMergeAt (unlinkAddr t1 nextchunk) p =
          unlinkAddr t1 nextchunk :=
        heapMergeAt_eq_of_last (unlinkAddr t1 nextchunk) p mp gP hmp hgu
      rw [hMeq]
      have hfM : frame8 a c (unlinkAddr t1 nextchunk) := by
        refine ⟨g1, g2, g3, g4, ⟨tc, htc, htcs⟩, gL, gP, ?_, ?_, ?_, gF2, gF3,
          gF4⟩
        · intro i x hx
          have hx2 : x ∈ (t1.bins.getD i []).erase nextchunk := by
            rw [← unlink_getD]
            exact hx
          exact gB2 i x ((List.Nodup.mem_erase_iff (gB3 i)).mp hx2).2
        · intro i
          show ((unlinkAddr t1 nextchunk).bins.getD i []).Nodup
          rw [unlink_getD]
          exact (gB3 i).erase nextchunk
        · intro i j hij x hxi hxj
          have hxi2 : x ∈ (t1.bins.getD i []).erase nextchunk := by
            rw [← unlink_getD]
            exact hxi
          have hxj2 : x ∈ (t1.bins.getD j []).erase nextchunk := by
            rw [← unlink_getD]
            exact hxj
          exact gB4 i j hij x ((List.Nodup.mem_erase_iff (gB3 i)).mp hxi2).2
            ((List.Nodup.mem_erase_iff (gB3 j)).mp hxj2).2
      have hpbinM : ∀ j, p ∉ (unlinkAddr t1 nextchunk).bins.getD j [] := by
        intro j hmem
        have hmem2 : p ∈ (t1.bins.getD j []).erase nextchunk := by
          rw [← unlink_getD]
          exact hmem
        exact hpbin j ((List.Nodup.mem_erase_iff (gB3 j)).mp hmem2).2
      have hres := consPlace_unsorted (unlinkAddr t1 nextchunk) a p c mp hfM
        hmp hptop hpa hpbinM hpfast
      exact ⟨hres.1, rfl, fun x fx hfx hfxs hxp => hres.2 x fx hfx hfxs hxp⟩
    · -- a chunk of size nextsize sits at nextchunk; it is free, so absorb it
      obtain ⟨q, hq, hqni, hqnf⟩ := pbit_false_prev t1 (nextchunk + nextsize)
        hni
      have hgpos : 0 < g.csize := gP g (chunkAt_mem t1 nextchunk g hg)
      have hqg : q = g := by
        have hpg : t1.prevChunkOf (nextchunk + g.csize) = some g :=
          prevChunk_of_chunkAt t1.heap t1.heapBase nextchunk g hg hgpos
        rw [hgsz] at hq
        rw [hpg] at hq
        exact (Option.some.inj hq).symm
      subst hqg
      have hgna : nextchunk ≠ a :=
        chunkAt_status_ne t1 nextchunk a q c hg g1 (by rw [g2]; exact hqni)
      have hgu : (unlinkAddr t1 nextchunk).chunkAt (p + mp.csize) = some q := by
        show t1.chunkAt (p + mp.csize) = some q
        rw [hext]
        exact hg
      have hM : (heapMergeAt (unlinkAddr t1 nextchunk) p).chunkAt p =
          some ⟨mp.csize + q.csize, mp.status, mp.data⟩ :=
        chunkAt_heapMergeAt_succ (unlinkAddr t1 nextchunk) p mp q gP hmp hgu
      have hfrM : ∀ x, x ≠ p → x ≠ nextchunk →
          (heapMergeAt (unlinkAddr t1 nextchunk) p).chunkAt x =
            t1.chunkAt x := by
        intro x hx1 hx2
        apply chunkAt_heapMergeAt_frame (unlinkAddr t1 nextchunk) p x hx1
        intro c1 hc1
        have hc2 : t1.chunkAt p = some c1 := hc1
        rw [hmp] at hc2
        injection hc2 with hc2
        subst hc2
        rw [hext]
        exact hx2
      have hfM : frame8 a c (heapMergeAt (unlinkAddr t1 nextchunk) p) := by
        refine ⟨?_, g2, g3, g4, ⟨tc, ?_, htcs⟩, ?_, ?_, ?_, ?_, ?_, ?_, ?_,
          ?_⟩
        · rw [hfrM a (Ne.symm hpa) (Ne.symm hgna)]
          exact g1
        · show (heapMergeAt (unlinkAddr t1 nextchunk) p).chunkAt t1.top =
            some tc
          rw [hfrM t1.top (Ne.symm hptop) (fun hh => hne hh.symm)]
          exact htc
        · intro x cx hx
          show x ≤ t1.top
          obtain ⟨cw, hcw⟩ :=
            chunkAt_heapMergeAt_sub (unlinkAddr t1 nextchunk) p x cx hx
          exact gL x cw hcw
        · show ∀ ch ∈ (heapMergeAt (unlinkAddr t1 nextchunk) p).heap,
            0 < ch.csize
          exact sizes_heapMergeAt (unlinkAddr t1 nextchunk) p gP
        · intro i x hx
          have hx2 : x ∈ (t1.bins.getD i []).erase nextchunk := by
            rw [← unlink_getD]
            exact hx
          obtain ⟨hxg, hxmem⟩ := (List.Nodup.mem_erase_iff (gB3 i)).mp hx2
          obtain ⟨b, hb1, hb2⟩ := gB2 i x hxmem
          have hxp : x ≠ p := fun hh => hpbin i (hh ▸ hxmem)
          refine ⟨b, ?_, hb2⟩
          rw [hfrM x hxp hxg]
          exact hb1
        · intro i
          show (((unlinkAddr t1 nextchunk).bins).getD i []).Nodup
          rw [unlink_getD]
          exact (gB3 i).erase nextchunk
        · intro i j hij x hxi hxj
          have hxi2 : x ∈ (t1.bins.getD i []).erase nextchunk := by
            rw [← unlink_getD]
            exact hxi
          have hxj2 : x ∈ (t1.bins.getD j []).erase nextchunk := by
            rw [← unlink_getD]
            exact hxj
          exact gB4 i j hij x ((List.Nodup.mem_erase_iff (gB3 i)).mp hxi2).2
            ((List.Nodup.mem_erase_iff (gB3 j)).mp hxj2).2
        · intro jj x hx
          have hx2 : x ∈ t1.fastbins.getD jj [] := hx
          obtain ⟨fx, hfx1, hfx2⟩ := gF2 jj x hx2
          have hxp : x ≠ p := fun hh => hpfast jj (hh ▸ hx2)
          have hxg : x ≠ nextchunk := chunkAt_status_ne t1 x nextchunk fx q
            hfx1 hg (by rw [hfx2]; exact fun hh => hqnf hh.symm)
          refine ⟨fx, ?_, hfx2⟩
          rw [hfrM x hxp hxg]
          exact hfx1
        · exact gF3
        · exact gF4
      have hpbinM : ∀ j,
          p ∉ (heapMergeAt (unlinkAddr t1 nextchunk) p).bins.getD j [] := by
        intro j hmem
        have hmem2 : p ∈ (t1.bins.getD j []).erase nextchunk := by
          rw [← unlink_getD]
          exact hmem
        exact hpbin j ((List.Nodup.mem_erase_iff (gB3 j)).mp hmem2).2
      have hpfastM : ∀ j,
          p ∉ (heapMergeAt (unlinkAddr t1 nextchunk) p).fastbins.getD j [] :=
        fun j hmem => hpfast j hmem
      have hres := consPlace_unsorted (heapMergeAt (unlinkAddr t1 nextchunk) p)
        a p c ⟨mp.csize + q.csize, mp.status, mp.data⟩ hfM hM hptop hpa hpbinM
        hpfastM
      refine ⟨hres.1, rfl, ?_⟩
      intro x fx hfx hfxs hxp
      have hxg : x ≠ nextchunk := chunkAt_status_ne t1 x nextchunk fx q hfx hg
        (by rw [hfxs]; exact fun hh => hqnf hh.symm)
      exact hres.2 x fx (by rw [hfrM x hxp hxg]; exact hfx) hfxs hxp
/-- One `malloc_consolidate` iteration preserves the frame, the fastbin
table and every other fastbin-status chunk, provided `p0` holds a
fastbin-status chunk that is linked in no fastbin. -/
theorem consChunk_frame (t : AState) (a p0 : Nat) (c f0 : HChunk)
    (hf : frame8 a c t)
    (hp0 : t.chunkAt p0 = some f0) (hp0s : f0.status = CStatus.fast)
    (hp0fb : ∀ j, p0 ∉ t.fastbins.getD j []) :
    frame8 a c (consolidateChunk t p0) ∧
      (consolidateChunk t p0).fastbins = t.fastbins ∧
      (∀ x fx, t.chunkAt x = some fx → fx.status = CStatus.fast → x ≠ p0 →
        (consolidateChunk t p0).chunkAt x = some fx) := by
  obtain ⟨g1, g2, g3, g4, ⟨tc, htc, htcs⟩, gL, gP, gB2, gB3, gB4, gF2, gF3,
    gF4⟩ := hf
  have hf2 : frame8 a c t :=
    ⟨g1, g2, g3, g4, ⟨tc, htc, htcs⟩, gL, gP, gB2, gB3, gB4, gF2, gF3, gF4⟩
  have hsz : chunksizeAt t p0 = f0.csize := by simp only [chunksizeAt, hp0]
  have hf0pos : 0 < f0.csize := gP f0 (chunkAt_mem t p0 f0 hp0)
  have hp0a : p0 ≠ a :=
    chunkAt_status_ne t p0 a f0 c hp0 g1 (by rw [hp0s, g2]; decide)
  have hp0top : p0 ≠ t.top :=
    chunkAt_status_ne t p0 t.top f0 tc hp0 htc (by rw [hp0s, htcs]; decide)
  have hp0bin : ∀ j, p0 ∉ t.bins.getD j [] := by
    intro j hj
    obtain ⟨b, hb1, hb2⟩ := gB2 j p0 hj
    rw [hp0] at hb1
    injection hb1 with hb1
    rw [← hb1] at hb2
    rcases hb2 with h | h <;> (rw [hp0s] at h; exact absurd h (by decide))
  simp only [consolidateChunk, hsz]
  by_cases hpb : pbitAt t p0 = true
  · -- no backward merge
    simp only [if_neg (not_not_intro hpb)]
    have hns : t.chunkAt (p0 + f0.csize) = none ∨
        ∃ g, t.chunkAt (p0 + f0.csize) = some g ∧
          chunksizeAt t (p0 + f0.csize) = g.csize := by
      rcases hnx : t.chunkAt (p0 + f0.csize) with _ | g
      · exact Or.inl rfl
      · exact Or.inr ⟨g, rfl, by simp only [chunksizeAt, hnx]⟩
    exact consPlace_frame t a p0 (p0 + f0.csize)
      (chunksizeAt t (p0 + f0.csize)) c f0 hf2 hp0 rfl hp0top hp0a hp0bin
      hp0fb hns
  · -- backward merge with the free physical predecessor
    simp only [if_pos hpb]
    simp only [Bool.not_eq_true] at hpb
    obtain ⟨pc, hpc, hpcni, hpcnf⟩ := pbit_false_prev t p0 hpb
    have hprevsz : prevsizeAt t p0 = pc.csize := by
      simp only [prevsizeAt, hpc]
    rw [hprevsz]
    obtain ⟨hple, hpat⟩ := chunkAt_of_prevChunkOf t p0 pc gP hpc
    have hpcpos : 0 < pc.csize :=
      gP pc (chunkAt_mem t (p0 - pc.csize) pc hpat)
    have hpp0 : p0 - pc.csize + pc.csize = p0 := by omega
    have htop_ne_p : t.top ≠ p0 - pc.csize := by
      intro h
      have := gL p0 f0 hp0
      omega
    have hap : a ≠ p0 - pc.csize :=
      chunkAt_status_ne t a (p0 - pc.csize) c pc g1 hpat
        (by rw [g2]; exact fun hh => hpcni hh.symm)
    have hpatu :
        (unlinkAddr t (p0 - pc.csize)).chunkAt (p0 - pc.csize) = some pc :=
      hpat
    have hsucc : (unlinkAddr t (p0 - pc.csize)).chunkAt
        (p0 - pc.csize + pc.csize) = some f0 := by
      show t.chunkAt (p0 - pc.csize + pc.csize) = some f0
      rw [hpp0]
      exact hp0
    have hm : (heapMergeAt (unlinkAddr t (p0 - pc.csize))
        (p0 - pc.csize)).chunkAt (p0 - pc.csize) =
        some ⟨pc.csize + f0.csize, pc.status, pc.data⟩ :=
      chunkAt_heapMergeAt_succ (unlinkAddr t (p0 - pc.csize)) (p0 - pc.csize)
        pc f0 gP hpatu hsucc
    have hfr1 : ∀ x, x ≠ p0 - pc.csize → x ≠ p0 →
        (heapMergeAt (unlinkAddr t (p0 - pc.csize))
          (p0 - pc.csize)).chunkAt x = t.chunkAt x := by
      intro x hx1 hx2
      apply chunkAt_heapMergeAt_frame (unlinkAddr t (p0 - pc.csize))
        (p0 - pc.csize) x hx1
      intro c1 hc1
      have hc2 : t.chunkAt (p0 - pc.csize) = some c1 := hc1
      rw [hpat] at hc2
      injection hc2 with hc2
      subst hc2
      rw [hpp0]
      exact hx2
    have hfM : frame8 a c
        (heapMergeAt (unlinkAddr t (p0 - pc.csize)) (p0 - pc.csize)) := by
      refine ⟨?_, g2, g3, g4, ⟨tc, ?_, htcs⟩, ?_, ?_, ?_, ?_, ?_, ?_, ?_, ?_⟩
      · rw [hfr1 a hap (Ne.symm hp0a)]
        exact g1
      · show (heapMergeAt (unlinkAddr t (p0 - pc.csize))
          (p0 - pc.csize)).chunkAt t.top = some tc
        rw [hfr1 t.top htop_ne_p (Ne.symm hp0top)]
        exact htc
      · intro x cx hx
        show x ≤ t.top
        obtain ⟨cw, hcw⟩ := chunkAt_heapMergeAt_sub
          (unlinkAddr t (p0 - pc.csize)) (p0 - pc.csize) x cx hx
        exact gL x cw hcw
      · show ∀ ch ∈ (heapMergeAt (unlinkAddr t (p0 - pc.csize))
          (p0 - pc.csize)).heap, 0 < ch.csize
        exact sizes_heapMergeAt (unlinkAddr t (p0 - pc.csize))
          (p0 - pc.csize) gP
      · intro i x hx
        have hx2 : x ∈ (t.bins.getD i []).erase (p0 - pc.csize) := by
          rw [← unlink_getD]
          exact hx
        obtain ⟨hxp, hxmem⟩ := (List.Nodup.mem_erase_iff (gB3 i)).mp hx2
        obtain ⟨b, hb1, hb2⟩ := gB2 i x hxmem
        have hxp0 : x ≠ p0 := fun hh => hp0bin i (hh ▸ hxmem)
        refine ⟨b, ?_, hb2⟩
        rw [hfr1 x hxp hxp0]
        exact hb1
      · intro i
        show (((unlinkAddr t (p0 - pc.csize)).bins).getD i []).Nodup
        rw [unlink_getD]
        exact (gB3 i).erase (p0 - pc.csize)
      · intro i j hij x hxi hxj
        have hxi2 : x ∈ (t.bins.getD i []).erase (p0 - pc.csize) := by
          rw [← unlink_getD]
          exact hxi
        have hxj2 : x ∈ (t.bins.getD j []).erase (p0 - pc.csize) := by
          rw [← unlink_getD]
          exact hxj
        exact gB4 i j hij x ((List.Nodup.mem_erase_iff (gB3 i)).mp hxi2).2
          ((List.Nodup.mem_erase_iff (gB3 j)).mp hxj2).2
      · intro j x hx
        have hx2 : x ∈ t.fastbins.getD j [] := hx
        obtain ⟨fx, hfx1, hfx2⟩ := gF2 j x hx2
        have hxp : x ≠ p0 - pc.csize := chunkAt_status_ne t x (p0 - pc.csize)
          fx pc hfx1 hpat (by rw [hfx2]; exact fun hh => hpcnf hh.symm)
        have hxp0 : x ≠ p0 := fun hh => hp0fb j (hh ▸ hx2)
        refine ⟨fx, ?_, hfx2⟩
        rw [hfr1 x hxp hxp0]
        exact hfx1
      · exact gF3
      · exact gF4
    have hpbinM : ∀ j, (p0 - pc.csize) ∉ (heapMergeAt
        (unlinkAddr t (p0 - pc.csize)) (p0 - pc.csize)).bins.getD j [] := by
      intro j hmem
      have hmem2 : (p0 - pc.csize) ∈
          (t.bins.getD j []).erase (p0 - pc.csize) := by
        rw [← unlink_getD]
        exact hmem
      exact ((List.Nodup.mem_erase_iff (gB3 j)).mp hmem2).1 rfl
    have hpfastM : ∀ j, (p0 - pc.csize) ∉ (heapMergeAt
        (unlinkAddr t (p0 - pc.csize)) (p0 - pc.csize)).fastbins.getD j [] := by
      intro j hmem
      have hmem2 : (p0 - pc.csize) ∈ t.fastbins.getD j [] := hmem
      obtain ⟨fx, hfx1, hfx2⟩ := gF2 j _ hmem2
      rw [hpat] at hfx1
      injection hfx1 with hfx1
      rw [← hfx1] at hfx2
      exact hpcnf hfx2
    have hptopM : (p0 - pc.csize) ≠ (heapMergeAt
        (unlinkAddr t (p0 - pc.csize)) (p0 - pc.csize)).top :=
      fun hh => htop_ne_p hh.symm
    have hnsM : (heapMergeAt (unlinkAddr t (p0 - pc.csize))
        (p0 - pc.csize)).chunkAt (p0 + f0.csize) = none ∨
        ∃ g, (heapMergeAt (unlinkAddr t (p0 - pc.csize))
          (p0 - pc.csize)).chunkAt (p0 + f0.csize) = some g ∧
          chunksizeAt t (p0 + f0.csize) = g.csize := by
      have hfrn : (heapMergeAt (unlinkAddr t (p0 - pc.csize))
          (p0 - pc.csize)).chunkAt (p0 + f0.csize) =
          t.chunkAt (p0 + f0.csize) :=
        hfr1 (p0 + f0.csize) (by omega) (by omega)
      rcases hnx : t.chunkAt (p0 + f0.csize) with _ | g
      · exact Or.inl (by rw [hfrn, hnx])
      · exact Or.inr ⟨g, by rw [hfrn, hnx], by simp only [chunksizeAt, hnx]⟩
    have hres := consPlace_frame
      (heapMergeAt (unlinkAddr t (p0 - pc.csize)) (p0 - pc.csize))
      a (p0 - pc.csize) (p0 + f0.csize) (chunksizeAt t (p0 + f0.csize))
      c ⟨pc.csize + f0.csize, pc.status, pc.data⟩ hfM hm
      (show p0 - pc.csize + (pc.csize + f0.csize) = p0 + f0.csize by omega)
      hptopM (fun hh => hap hh.symm) hpbinM hpfastM hnsM
    refine ⟨hres.1, ?_, ?_⟩
    · rw [hres.2.1]
      rfl
    · intro x fx hfx hfxs hxp0
      have hxp : x ≠ p0 - pc.csize := chunkAt_status_ne t x (p0 - pc.csize)
        fx pc hfx hpat (by rw [hfxs]; exact fun hh => hpcnf hh.symm)
      exact hres.2.2 x fx (by rw [hfr1 x hxp hxp0]; exact hfx) hfxs hxp

/-- Folding consolidation over a duplicate-free chain of fresh
fastbin-status chunks preserves the frame and the fastbin table. -/
theorem consFold_frame (l : List Nat) :
    ∀ (t : AState) (a : Nat) (c : HChunk), frame8 a c t →
      (∀ x ∈ l, (∃ f, t.chunkAt x = some f ∧ f.status = CStatus.fast) ∧
        ∀ j, x ∉ t.fastbins.getD j []) →
      l.Nodup →
      frame8 a c (l.foldl consolidateChunk t) ∧
        (l.foldl consolidateChunk t).fastbins = t.fastbins := by
  induction l with
  | nil => exact fun t a c hf _ _ => ⟨hf, rfl⟩
  | cons p0 rest ih =>
    intro t a c hf hl hnd
    rw [List.foldl_cons]
    obtain ⟨⟨f0, hp0, hp0s⟩, hp0fb⟩ := hl p0 (by simp)
    obtain ⟨hfc, hfb2, hstab⟩ := consChunk_frame t a p0 c f0 hf hp0 hp0s hp0fb
    rw [List.nodup_cons] at hnd
    have hl2 : ∀ x ∈ rest,
        (∃ f, (consolidateChunk t p0).chunkAt x = some f ∧
          f.status = CStatus.fast) ∧
        ∀ j, x ∉ (consolidateChunk t p0).fastbins.getD j [] := by
      intro x hx
      have hxne : x ≠ p0 := fun h => hnd.1 (h ▸ hx)
      obtain ⟨⟨fx, hfx, hfxs⟩, hxfb⟩ := hl x (List.mem_cons_of_mem p0 hx)
      refine ⟨⟨fx, hstab x fx hfx hfxs hxne, hfxs⟩, ?_⟩
      intro j
      rw [hfb2]
      exact hxfb j
    obtain ⟨hres, hresfb⟩ := ih (consolidateChunk t p0) a c hfc hl2 hnd.2
    exact ⟨hres, by rw [hresfb, hfb2]⟩

/-- The fastbin sweep of `malloc_consolidate` preserves the frame. -/
theorem consBins_frame (count : Nat) :
    ∀ (t : AState) (i a : Nat) (c : HChunk), frame8 a c t →
      frame8 a c (consolidateBins count t i) := by
  induction count with
  | zero => exact fun t i a c hf => hf
  | succ n ih =>
    intro t i a c hf
    obtain ⟨g1, g2, g3, g4, gT, gL, gP, gB2, gB3, gB4, gF2, gF3, gF4⟩ := hf
    simp only [consolidateBins]
    apply ih
    have hf1 : frame8 a c { t with fastbins := t.fastbins.set i [] } := by
      refine ⟨g1, g2, g3, g4, gT, gL, gP, gB2, gB3, gB4, ?_, ?_, ?_⟩
      · intro j x hx
        have hx2 : x ∈ (t.fastbins.set i []).getD j [] := hx
        rcases mem_of_getD_set _ _ _ _ _ hx2 with h | h
        · simp at h
        · exact gF2 j x h
      · intro j
        show ((t.fastbins.set i []).getD j []).Nodup
        by_cases hij : i = j
        · subst hij
          rw [getD_set_nil]
          exact List.nodup_nil
        · rw [getD_set_ne _ _ _ _ hij]
          exact gF3 j
      · intro j k hjk x hxj hxk
        have hxj2 : x ∈ (t.fastbins.set i []).getD j [] := hxj
        have hxk2 : x ∈ (t.fastbins.set i []).getD k [] := hxk
        rcases mem_of_getD_set _ _ _ _ _ hxj2 with h | h
        · simp at h
        · rcases mem_of_getD_set _ _ _ _ _ hxk2 with h2 | h2
          · simp at h2
          · exact gF4 j k hjk x h h2
    have hl : ∀ x ∈ t.fastbins.getD i [],
        (∃ f, ({ t with fastbins := t.fastbins.set i [] } : AState).chunkAt x =
          some f ∧ f.status = CStatus.fast) ∧
        ∀ j, x ∉ ({ t with fastbins := t.fastbins.set i [] } :
          AState).fastbins.getD j [] := by
      intro x hx
      refine ⟨gF2 i x hx, ?_⟩
      intro j hxj
      have hxj2 : x ∈ (t.fastbins.set i []).getD j [] := hxj
      by_cases hij : i = j
      · subst hij
        rw [getD_set_nil] at hxj2
        simp at hxj2
      · rw [getD_set_ne _ _ _ _ hij] at hxj2
        exact gF4 i j hij x hx hxj2
    exact (consFold_frame (t.fastbins.getD i [])
      { t with fastbins := t.fastbins.set i [] } a c hf1 hl (gF3 i)).1

/-- Full `malloc_consolidate` preserves the frame. -/
theorem consolidate_frame (t : AState) (a : Nat) (c : HChunk)
    (hf : frame8 a c t) : frame8 a c (malloc_consolidate t) := by
  have hmf : get_max_fast_val t.max_fast ≠ 0 := hf.2.2.2.1
  have hraw : t.max_fast ≠ 0 := raw_max_fast_ne_zero t hmf
  simp only [malloc_consolidate, if_pos hraw]
  apply consBins_frame
  obtain ⟨g1, g2, g3, g4, gT, gL, gP, gB2, gB3, gB4, gF2, gF3, gF4⟩ := hf
  refine ⟨g1, g2, g3, ?_, gT, gL, gP, gB2, gB3, gB4, gF2, gF3, gF4⟩
  rw [get_mf_clear_fastchunks]
  exact g4
/-- Routing a delinked chunk `victim` (whose record is unsorted/binned) into
a bin slot rebuilt from old entries of that slot and `victim` itself
preserves the frame. -/
theorem f8_binPlace (t : AState) (a victim vidx : Nat) (c b : HChunk)
    (blist2 : List Nat)
    (hf : frame8 a c t)
    (hvb : t.chunkAt victim = some b)
    (hbs : b.status = CStatus.unsorted ∨ b.status = CStatus.binned)
    (hvnb : ∀ j, victim ∉ t.bins.getD j [])
    (hbl : ∀ x ∈ blist2, x = victim ∨ x ∈ t.bins.getD vidx [])
    (hblnd : blist2.Nodup) :
    frame8 a c
      { setChunkStatus (mark_bin t vidx) victim CStatus.binned with
        bins := (setChunkStatus (mark_bin t vidx) victim
          CStatus.binned).bins.set vidx blist2 } := by
  obtain ⟨g1, g2, g3, g4, ⟨tc, htc, htcs⟩, gL, gP, gB2, gB3, gB4, gF2, gF3,
    gF4⟩ := hf
  have hva : victim ≠ a := chunkAt_status_ne t victim a b c hvb g1
    (by rcases hbs with h | h <;> (rw [h, g2]; decide))
  have hvt : victim ≠ t.top := chunkAt_status_ne t victim t.top b tc hvb htc
    (by rcases hbs with h | h <;> (rw [h, htcs]; decide))
  have hvfb : ∀ j, victim ∉ t.fastbins.getD j [] := by
    intro j hmem
    obtain ⟨fx, hfx1, hfx2⟩ := gF2 j victim hmem
    rw [hvb] at hfx1
    injection hfx1 with hfx1
    rw [← hfx1] at hfx2
    rcases hbs with h | h <;> (rw [h] at hfx2; exact absurd hfx2 (by decide))
  have hSne : ∀ x, x ≠ victim →
      (setChunkStatus (mark_bin t vidx) victim CStatus.binned).chunkAt x =
        t.chunkAt x :=
    fun x hx =>
      chunkAt_setChunkStatus_ne (mark_bin t vidx) victim CStatus.binned x
        (Ne.symm hx)
  have hSself :
      (setChunkStatus (mark_bin t vidx) victim CStatus.binned).chunkAt
        victim = some ⟨b.csize, CStatus.binned, b.data⟩ := by
    rw [chunkAt_setChunkStatus_self]
    show (t.chunkAt victim).map
      (fun ch => { ch with status := CStatus.binned }) = _
    rw [hvb]
    rfl
  refine ⟨?_, g2, g3, g4, ?_, ?_, ?_, ?_, ?_, ?_, ?_, ?_, ?_⟩
  · show (setChunkStatus (mark_bin t vidx) victim CStatus.binned).chunkAt a =
      some c
    rw [hSne a (Ne.symm hva)]
    exact g1
  · refine ⟨tc, ?_, htcs⟩
    show (setChunkStatus (mark_bin t vidx) victim CStatus.binned).chunkAt
      t.top = some tc
    rw [hSne t.top (Ne.symm hvt)]
    exact htc
  · intro x cx hx
    show x ≤ t.top
    have hx2 : (setChunkStatus (mark_bin t vidx) victim
        CStatus.binned).chunkAt x = some cx := hx
    obtain ⟨cw, hcw⟩ := chunkAt_mapChunk_sub (mark_bin t vidx) victim
      (fun ch => { ch with status := CStatus.binned }) (fun _ => rfl) x cx hx2
    exact gL x cw hcw
  · show ∀ ch ∈ (setChunkStatus (mark_bin t vidx) victim
      CStatus.binned).heap, 0 < ch.csize
    exact sizes_mapChunk (mark_bin t vidx) victim
      (fun ch => { ch with status := CStatus.binned }) (fun _ => rfl) gP
  · intro i x hx
    have hx2 : x ∈ (t.bins.set vidx blist2).getD i [] := hx
    have hres : x = victim ∨ x ∈ t.bins.getD i [] ∨
        x ∈ t.bins.getD vidx [] := by
      rcases mem_of_getD_set _ _ _ _ _ hx2 with h | h
      · rcases hbl x h with h1 | h1
        · exact Or.inl h1
        · exact Or.inr (Or.inr h1)
      · exact Or.inr (Or.inl h)
    rcases hres with h | h | h
    · subst h
      exact ⟨⟨b.csize, CStatus.binned, b.data⟩, hSself, Or.inr rfl⟩
    · obtain ⟨b2, hb1, hb2⟩ := gB2 i x h
      have hxv : x ≠ victim := fun hh => hvnb i (hh ▸ h)
      refine ⟨b2, ?_, hb2⟩
      show (setChunkStatus (mark_bin t vidx) victim CStatus.binned).chunkAt
        x = some b2
      rw [hSne x hxv]
      exact hb1
    · obtain ⟨b2, hb1, hb2⟩ := gB2 vidx x h
      have hxv : x ≠ victim := fun hh => hvnb vidx (hh ▸ h)
      refine ⟨b2, ?_, hb2⟩
      show (setChunkStatus (mark_bin t vidx) victim CStatus.binned).chunkAt
        x = some b2
      rw [hSne x hxv]
      exact hb1
  · intro i
    show ((t.bins.set vidx blist2).getD i []).Nodup
    by_cases hi : vidx = i
    · subst hi
      rw [List.getD_eq_getElem?_getD, List.getElem?_set, if_pos rfl]
      split_ifs
      · simp only [Option.getD_some]
        exact hblnd
      · simp
    · rw [getD_set_ne _ _ _ _ hi]
      exact gB3 i
  · intro i j hij x hxi hxj
    have hxi2 : x ∈ (t.bins.set vidx blist2).getD i [] := hxi
    have hxj2 : x ∈ (t.bins.set vidx blist2).getD j [] := hxj
    by_cases hi : vidx = i
    · subst hi
      rw [getD_set_ne _ _ _ _ hij] at hxj2
      rcases mem_of_getD_set _ _ _ _ _ hxi2 with h | h
      · rcases hbl x h with h1 | h1
        · subst h1
          exact hvnb j hxj2
        · exact gB4 vidx j hij x h1 hxj2
      · exact gB4 vidx j hij x h hxj2
    · rw [getD_set_ne _ _ _ _ hi] at hxi2
      by_cases hj : vidx = j
      · subst hj
        rcases mem_of_getD_set _ _ _ _ _ hxj2 with h | h
        · rcases hbl x h with h1 | h1
          · subst h1
            exact hvnb i hxi2
          · exact gB4 i vidx hij x hxi2 h1
        · exact gB4 i vidx hij x hxi2 h
      · rw [getD_set_ne _ _ _ _ hj] at hxj2
        exact gB4 i j hij x hxi2 hxj2
  · intro j x hx
    have hx2 : x ∈ t.fastbins.getD j [] := hx
    obtain ⟨fx, hfx1, hfx2⟩ := gF2 j x hx2
    have hxv : x ≠ victim := fun hh => hvfb j (hh ▸ hx2)
    refine ⟨fx, ?_, hfx2⟩
    show (setChunkStatus (mark_bin t vidx) victim CStatus.binned).chunkAt x =
      some fx
    rw [hSne x hxv]
    exact hfx1
  · exact gF3
  · exact gF4

/-- The drain's placement of an unconsumed chunk preserves the frame. -/
theorem f8_drainVictim_frame (t : AState) (a victim size : Nat) (c b : HChunk)
    (hf : frame8 a c t)
    (hvb : t.chunkAt victim = some b)
    (hbs : b.status = CStatus.unsorted ∨ b.status = CStatus.binned)
    (hvnb : ∀ j, victim ∉ t.bins.getD j []) :
    frame8 a c (drainBinVictim t victim size) := by
  obtain ⟨g1, g2, g3, g4, gT, gL, gP, gB2, gB3, gB4, gF2, gF3, gF4⟩ := hf
  have hf2 : frame8 a c t :=
    ⟨g1, g2, g3, g4, gT, gL, gP, gB2, gB3, gB4, gF2, gF3, gF4⟩
  simp only [drainBinVictim]
  split_ifs with h1 h2 h3
  · exact f8_binPlace t a victim (smallbin_index size) c b
      (victim :: t.bins.getD (smallbin_index size) []) hf2 hvb hbs hvnb
      (fun x hx => by
        rcases List.mem_cons.mp hx with h | h
        · exact Or.inl h
        · exact Or.inr h)
      (by
        rw [List.nodup_cons]
        exact ⟨hvnb (smallbin_index size), gB3 (smallbin_index size)⟩)
  · rcases hbl0 : t.bins.getD (largebin_index size) [] with _ | ⟨b0, rest⟩ <;>
      simp only []
    · exact f8_binPlace t a victim (largebin_index size) c b
        (victim :: []) hf2 hvb hbs hvnb
        (fun x hx => by
          rcases List.mem_cons.mp hx with h | h
          · exact Or.inl h
          · simp at h)
        (List.nodup_singleton victim)
    · exact f8_binPlace t a victim (largebin_index size) c b
        ((b0 :: rest) ++ [victim]) hf2 hvb hbs hvnb
        (fun x hx => by
          rcases List.mem_append.mp hx with h | h
          · exact Or.inr (by rw [hbl0]; exact h)
          · simp at h
            exact Or.inl h)
        (nodup_append_single (b0 :: rest) victim
          (by rw [← hbl0]; exact hvnb _) (by rw [← hbl0]; exact gB3 _))
  · rcases hbl0 : t.bins.getD (largebin_index size) [] with _ | ⟨b0, rest⟩ <;>
      simp only []
    · exact f8_binPlace t a victim (largebin_index size) c b
        (victim :: []) hf2 hvb hbs hvnb
        (fun x hx => by
          rcases List.mem_cons.mp hx with h | h
          · exact Or.inl h
          · simp at h)
        (List.nodup_singleton victim)
    · exact f8_binPlace t a victim (largebin_index size) c b
        (sortedInsert t (size ||| 1) victim (b0 :: rest)) hf2 hvb hbs hvnb
        (fun x hx => by
          rcases mem_sortedInsert t _ victim _ x hx with h | h
          · exact Or.inl h
          · exact Or.inr (by rw [hbl0]; exact h))
        (nodup_sortedInsert t (size ||| 1) victim (b0 :: rest)
          (by rw [← hbl0]; exact hvnb _) (by rw [← hbl0]; exact gB3 _))
  · rcases hbl0 : t.bins.getD (largebin_index size) [] with _ | ⟨b0, rest⟩ <;>
      simp only []
    · exact f8_binPlace t a victim (largebin_index size) c b
        (victim :: []) hf2 hvb hbs hvnb
        (fun x hx => by
          rcases List.mem_cons.mp hx with h | h
          · exact Or.inl h
          · simp at h)
        (List.nodup_singleton victim)
    · exact f8_binPlace t a victim (largebin_index size) c b
        (victim :: (b0 :: rest)) hf2 hvb hbs hvnb
        (fun x hx => by
          rcases List.mem_cons.mp hx with h | h
          · exact Or.inl h
          · exact Or.inr (by rw [hbl0]; exact h))
        (by
          rw [List.nodup_cons]
          refine ⟨?_, by rw [← hbl0]; exact gB3 _⟩
          rw [← hbl0]
          exact hvnb _)

/-- One drain iteration: the `next` outcome preserves the frame and the
direct mappings; the `exit` outcome returns the state unchanged. -/
theorem f8_drainIteration (t : AState) (nb a : Nat) (c : HChunk) :
    (∀ u, drainIteration t nb = DrainOutcome.next u →
      ((frame8 a c t → frame8 a c u) ∧ u.mmapped = t.mmapped)) ∧
    (∀ u, drainIteration t nb = DrainOutcome.exit u → u = t) := by
  simp only [drainIteration]
  rcases hl : (t.bins.getD 1 []).getLast? with _ | victim <;> simp only [hl]
  · constructor
    · intro u h
      exact absurd h (by simp)
    · intro u h
      injection h with h
      exact h.symm
  · split_ifs with h1 h2
    · exact ⟨fun u h => absurd h (by simp), fun u h => absurd h (by simp)⟩
    · exact ⟨fun u h => absurd h (by simp), fun u h => absurd h (by simp)⟩
    · constructor
      · intro u h
        injection h with h
        subst h
        constructor
        · intro hf
          obtain ⟨g1, g2, g3, g4, gT, gL, gP, gB2, gB3, gB4, gF2, gF3,
            gF4⟩ := hf
          have hvm : victim ∈ t.bins.getD 1 [] :=
            List.mem_of_getLast?_eq_some hl
          obtain ⟨b, hvb, hbs⟩ := gB2 1 victim hvm
          have hXsub : ∀ k x, x ∈
              (t.bins.set 1 (t.bins.getD 1 []).dropLast).getD k [] →
              x ∈ t.bins.getD k [] ∨ x ∈ t.bins.getD 1 [] := by
            intro k x hx
            by_cases hk : (1 : Nat) = k
            · subst hk
              rw [List.getD_eq_getElem?_getD, List.getElem?_set, if_pos rfl]
                at hx
              split_ifs at hx
              · simp only [Option.getD_some] at hx
                exact Or.inr (List.dropLast_subset _ hx)
              · simp at hx
            · rw [getD_set_ne _ _ _ _ hk] at hx
              exact Or.inl hx
          have hfX : frame8 a c
              { t with bins := t.bins.set 1 (t.bins.getD 1 []).dropLast } := by
            refine ⟨g1, g2, g3, g4, gT, gL, gP, ?_, ?_, ?_, gF2, gF3, gF4⟩
            · intro i x hx
              rcases hXsub i x hx with hh | hh
              · exact gB2 i x hh
              · exact gB2 1 x hh
            · intro i
              show ((t.bins.set 1 (t.bins.getD 1 []).dropLast).getD i
                []).Nodup
              by_cases hi : (1 : Nat) = i
              · subst hi
                rw [List.getD_eq_getElem?_getD, List.getElem?_set, if_pos rfl]
                split_ifs
                · simp only [Option.getD_some]
                  exact List.Sublist.nodup (List.dropLast_sublist _) (gB3 1)
                · simp
              · rw [getD_set_ne _ _ _ _ hi]
                exact gB3 i
            · intro i j hij x hxi hxj
              by_cases hi : (1 : Nat) = i
              · subst hi
                rw [List.getD_eq_getElem?_getD, List.getElem?_set, if_pos rfl]
                  at hxi
                rw [getD_set_ne _ _ _ _ hij] at hxj
                split_ifs at hxi
                · simp only [Option.getD_some] at hxi
                  exact gB4 1 j hij x (List.dropLast_subset _ hxi) hxj
                · simp at hxi
              · rw [getD_set_ne _ _ _ _ hi] at hxi
                by_cases hj : (1 : Nat) = j
                · subst hj
                  rw [List.getD_eq_getElem?_getD, List.getElem?_set,
                    if_pos rfl] at hxj
                  split_ifs at hxj
                  · simp only [Option.getD_some] at hxj
                    exact gB4 i 1 hij x hxi (List.dropLast_subset _ hxj)
                  · simp at hxj
                · rw [getD_set_ne _ _ _ _ hj] at hxj
                  exact gB4 i j hij x hxi hxj
          have hvnbX : ∀ j, victim ∉
              ({ t with bins := t.bins.set 1 (t.bins.getD 1 []).dropLast } :
                AState).bins.getD j [] := by
            intro j hmem
            have hmem2 : victim ∈
                (t.bins.set 1 (t.bins.getD 1 []).dropLast).getD j [] := hmem
            by_cases hj : (1 : Nat) = j
            · subst hj
              rw [List.getD_eq_getElem?_getD, List.getElem?_set, if_pos rfl]
                at hmem2
              split_ifs at hmem2
              · simp only [Option.getD_some] at hmem2
                exact getLast?_notMem_dropLast _ victim (gB3 1) hl hmem2
              · simp at hmem2
            · rw [getD_set_ne _ _ _ _ hj] at hmem2
              exact gB4 1 j hj victim hvm hmem2
          exact f8_drainVictim_frame
            { t with bins := t.bins.set 1 (t.bins.getD 1 []).dropLast }
            a victim (chunksizeAt t victim) c b hfX hvb hbs hvnbX
        · rfl
      · intro u h
        exact absurd h (by simp)
/-- `sysmallocFinish` on a failing allocation leaves the heap chunks and the
direct mappings unchanged. -/
theorem f8_sysmallocFinish (t : AState) (nb : Nat)
    (hn : (sysmallocFinish t nb).1 = none) :
    (∀ x, (sysmallocFinish t nb).2.chunkAt x = t.chunkAt x) ∧
      (sysmallocFinish t nb).2.mmapped = t.mmapped := by
  simp only [sysmallocFinish] at hn ⊢
  split_ifs at hn ⊢ <;>
    first
      | (simp at hn; done)
      | exact ⟨fun x => rfl, rfl⟩

/-- The contiguous extension branch of `sysmalloc`, when it fails, preserves
the frame chunk and the direct mappings. -/
theorem f8_sysmallocSbrk (t : AState) (nb a : Nat) (c : HChunk)
    (hn : (sysmallocSbrk t nb).1 = none) :
    (frame8 a c t → (sysmallocSbrk t nb).2.chunkAt a = some c) ∧
      (sysmallocSbrk t nb).2.mmapped = t.mmapped := by
  simp only [sysmallocSbrk] at hn ⊢
  split_ifs at hn ⊢ <;>
    first
      | (simp at hn; done)
      | exact ⟨fun hf => hf.1, rfl⟩
      | (refine ⟨?_, (f8_sysmallocFinish _ nb hn).2⟩
         intro hf
         have h6 := frame8_top_pos a c t hf
         omega)
      | (refine ⟨?_, (f8_sysmallocFinish _ nb hn).2⟩
         intro hf
         rw [(f8_sysmallocFinish _ nb hn).1 a]
         rw [chunkAt_mapChunk_lt _ _ _ a (frame8_a_lt_top a c t hf)]
         exact hf.1)

/-- `sysmallocCore`, when it fails, preserves the frame chunk and the direct
mappings. -/
theorem f8_sysmallocCore (t : AState) (nb a : Nat) (c : HChunk)
    (hn : (sysmallocCore t nb).1 = none) :
    (frame8 a c t → (sysmallocCore t nb).2.chunkAt a = some c) ∧
      (sysmallocCore t nb).2.mmapped = t.mmapped := by
  simp only [sysmallocCore] at hn ⊢
  split_ifs at hn ⊢ <;>
    first
      | exact f8_sysmallocSbrk t nb a c hn
      | (simp at hn; done)

/-- `sysmalloc`, when it fails, preserves the frame chunk; it preserves the
direct mappings provided the retry continuation does on failure. -/
theorem f8_sysmalloc (retry : Retry)
    (hrm : ∀ (u : AState) (n : Nat), (retry u n).1 = none →
      (retry u n).2.mmapped = u.mmapped)
    (a : Nat) (c : HChunk)
    (hrf : ∀ (u : AState) (n : Nat), (retry u n).1 = none →
      frame8 a c u → (retry u n).2.chunkAt a = some c)
    (t : AState) (nb : Nat)
    (hn : (sysmalloc retry t nb).1 = none) :
    (frame8 a c t → (sysmalloc retry t nb).2.chunkAt a = some c) ∧
      (sysmalloc retry t nb).2.mmapped = t.mmapped := by
  simp only [sysmalloc] at hn ⊢
  split_ifs at hn ⊢ with h1
  · refine ⟨?_, ?_⟩
    · intro hf
      exact hrf _ _ hn (consolidate_frame t a c hf)
    · rw [hrm _ _ hn, mm_malloc_consolidate]
  · exact f8_sysmallocCore t nb a c hn

/-- `use_top`, when it fails, preserves the frame chunk and (given a
well-behaved retry) the direct mappings. -/
theorem f8_mallocUseTop (retry : Retry)
    (hrm : ∀ (u : AState) (n : Nat), (retry u n).1 = none →
      (retry u n).2.mmapped = u.mmapped)
    (a : Nat) (c : HChunk)
    (hrf : ∀ (u : AState) (n : Nat), (retry u n).1 = none →
      frame8 a c u → (retry u n).2.chunkAt a = some c)
    (t : AState) (nb : Nat)
    (hn : (mallocUseTop retry t nb).1 = none) :
    (frame8 a c t → (mallocUseTop retry t nb).2.chunkAt a = some c) ∧
      (mallocUseTop retry t nb).2.mmapped = t.mmapped := by
  simp only [mallocUseTop] at hn ⊢
  split_ifs at hn ⊢ <;>
    first
      | exact f8_sysmalloc retry hrm a c hrf t nb hn
      | (simp at hn; done)

/-- The binmap scan, when it fails, preserves the frame chunk and (given a
well-behaved retry) the direct mappings. -/
theorem f8_mallocBinmapScan (retry : Retry)
    (hrm : ∀ (u : AState) (n : Nat), (retry u n).1 = none →
      (retry u n).2.mmapped = u.mmapped)
    (a : Nat) (c : HChunk)
    (hrf : ∀ (u : AState) (n : Nat), (retry u n).1 = none →
      frame8 a c u → (retry u n).2.chunkAt a = some c) :
    ∀ (b : Nat) (s : AState) (nb block bit binIdx : Nat),
      (mallocBinmapScan retry s nb block bit binIdx b).1 = none →
      ((frame8 a c s →
        (mallocBinmapScan retry s nb block bit binIdx b).2.chunkAt a =
          some c) ∧
        (mallocBinmapScan retry s nb block bit binIdx b).2.mmapped =
          s.mmapped) := by
  intro b
  induction b with
  | zero =>
    intro s nb block bit binIdx hn
    exact f8_mallocUseTop retry hrm a c hrf s nb hn
  | succ n ih =>
    intro s nb block bit binIdx hn
    simp only [mallocBinmapScan] at hn ⊢
    rcases hl : (s.bins.getD binIdx []).getLast? with _ | victim <;>
      rcases hb : binmapNextBlock s block with _ | bnext <;>
        simp only [hl, hb] at hn ⊢ <;>
          split_ifs at hn ⊢ <;>
            first
              | exact f8_mallocUseTop retry hrm a c hrf s nb hn
              | exact ih s nb bnext 1 (bnext <<< BINMAPSHIFT) hn
              | exact ih s nb block (u32 (bit <<< 1)) (binIdx + 1) hn
              | exact ih _ nb block (u32 (bit <<< 1)) (binIdx + 1) hn
              | (simp at hn; done)

/-- Entry to the binmap scan, failing case. -/
theorem f8_mallocBinmapStart (retry : Retry)
    (hrm : ∀ (u : AState) (n : Nat), (retry u n).1 = none →
      (retry u n).2.mmapped = u.mmapped)
    (a : Nat) (c : HChunk)
    (hrf : ∀ (u : AState) (n : Nat), (retry u n).1 = none →
      frame8 a c u → (retry u n).2.chunkAt a = some c)
    (t : AState) (nb idx : Nat)
    (hn : (mallocBinmapStart retry t nb idx).1 = none) :
    (frame8 a c t → (mallocBinmapStart retry t nb idx).2.chunkAt a = some c) ∧
      (mallocBinmapStart retry t nb idx).2.mmapped = t.mmapped :=
  f8_mallocBinmapScan retry hrm a c hrf _ t nb _ _ _ hn

/-- The large-bin search loop, failing case. -/
theorem f8_mallocLargeScanLoop (retry : Retry)
    (hrm : ∀ (u : AState) (n : Nat), (retry u n).1 = none →
      (retry u n).2.mmapped = u.mmapped)
    (a : Nat) (c : HChunk)
    (hrf : ∀ (u : AState) (n : Nat), (retry u n).1 = none →
      frame8 a c u → (retry u n).2.chunkAt a = some c) :
    ∀ (l : List Nat) (s : AState) (nb idx : Nat),
      (mallocLargeScanLoop retry s nb idx l).1 = none →
      ((frame8 a c s →
        (mallocLargeScanLoop retry s nb idx l).2.chunkAt a = some c) ∧
        (mallocLargeScanLoop retry s nb idx l).2.mmapped = s.mmapped) := by
  intro l
  induction l with
  | nil =>
    intro s nb idx hn
    exact f8_mallocBinmapStart retry hrm a c hrf s nb idx hn
  | cons victim rest ih =>
    intro s nb idx hn
    simp only [mallocLargeScanLoop] at hn ⊢
    split_ifs at hn ⊢ <;>
      first
        | exact ih s nb idx hn
        | (simp at hn; done)

/-- The targeted large-bin search, failing case. -/
theorem f8_mallocLargeScan (retry : Retry)
    (hrm : ∀ (u : AState) (n : Nat), (retry u n).1 = none →
      (retry u n).2.mmapped = u.mmapped)
    (a : Nat) (c : HChunk)
    (hrf : ∀ (u : AState) (n : Nat), (retry u n).1 = none →
      frame8 a c u → (retry u n).2.chunkAt a = some c)
    (t : AState) (nb idx : Nat)
    (hn : (mallocLargeScan retry t nb idx).1 = none) :
    (frame8 a c t → (mallocLargeScan retry t nb idx).2.chunkAt a = some c) ∧
      (mallocLargeScan retry t nb idx).2.mmapped = t.mmapped := by
  simp only [mallocLargeScan] at hn ⊢
  split_ifs at hn ⊢ <;>
    first
      | exact f8_mallocLargeScanLoop retry hrm a c hrf _ t nb idx hn
      | exact f8_mallocBinmapStart retry hrm a c hrf t nb idx hn

/-- The drain loop, failing case. -/
theorem f8_mallocDrainLoop (retry : Retry)
    (hrm : ∀ (u : AState) (n : Nat), (retry u n).1 = none →
      (retry u n).2.mmapped = u.mmapped)
    (a : Nat) (c : HChunk)
    (hrf : ∀ (u : AState) (n : Nat), (retry u n).1 = none →
      frame8 a c u → (retry u n).2.chunkAt a = some c) :
    ∀ (d : Nat) (s : AState) (nb idx : Nat),
      (mallocDrainLoop retry s nb idx d).1 = none →
      ((frame8 a c s →
        (mallocDrainLoop retry s nb idx d).2.chunkAt a = some c) ∧
        (mallocDrainLoop retry s nb idx d).2.mmapped = s.mmapped) := by
  intro d
  induction d with
  | zero =>
    intro s nb idx hn
    exact f8_mallocLargeScan retry hrm a c hrf s nb idx hn
  | succ n ih =>
    intro s nb idx hn
    simp only [mallocDrainLoop] at hn ⊢
    rcases hd : drainIteration s nb with ⟨mem, u⟩ | u | u <;>
      simp only [hd] at hn ⊢
    · simp at hn
    · obtain ⟨hnext, _⟩ := f8_drainIteration s nb a c
      obtain ⟨hu1, hu2⟩ := hnext u hd
      obtain ⟨hl1, hl2⟩ := ih u nb idx hn
      exact ⟨fun hf => hl1 (hu1 hf), by rw [hl2, hu2]⟩
    · obtain ⟨_, hexit⟩ := f8_drainIteration s nb a c
      have hu : u = s := hexit u hd
      subst hu
      exact f8_mallocLargeScan retry hrm a c hrf u nb idx hn

/-- The unsorted-queue drain, failing case. -/
theorem f8_mallocDrain (retry : Retry)
    (hrm : ∀ (u : AState) (n : Nat), (retry u n).1 = none →
      (retry u n).2.mmapped = u.mmapped)
    (a : Nat) (c : HChunk)
    (hrf : ∀ (u : AState) (n : Nat), (retry u n).1 = none →
      frame8 a c u → (retry u n).2.chunkAt a = some c)
    (t : AState) (nb idx : Nat)
    (hn : (mallocDrain retry t nb idx).1 = none) :
    (frame8 a c t → (mallocDrain retry t nb idx).2.chunkAt a = some c) ∧
      (mallocDrain retry t nb idx).2.mmapped = t.mmapped :=
  f8_mallocDrainLoop retry hrm a c hrf _ t nb idx hn

/-- The small-bin attempt, failing case. -/
theorem f8_mallocSmall (retry : Retry)
    (hrm : ∀ (u : AState) (n : Nat), (retry u n).1 = none →
      (retry u n).2.mmapped = u.mmapped)
    (a : Nat) (c : HChunk)
    (hrf : ∀ (u : AState) (n : Nat), (retry u n).1 = none →
      frame8 a c u → (retry u n).2.chunkAt a = some c)
    (t : AState) (nb : Nat)
    (hn : (mallocSmall retry t nb).1 = none) :
    (frame8 a c t → (mallocSmall retry t nb).2.chunkAt a = some c) ∧
      (mallocSmall retry t nb).2.mmapped = t.mmapped := by
  simp only [mallocSmall] at hn ⊢
  rcases hl : (t.bins.getD (smallbin_index nb) []).getLast? with _ | victim <;>
    simp only [hl] at hn ⊢ <;>
      split_ifs at hn ⊢ <;>
        first
          | exact f8_mallocDrain retry hrm a c hrf t nb _ hn
          | (simp at hn; done)
          | (constructor
             · intro hf
               obtain ⟨hm1, _⟩ := f8_mallocDrain retry hrm a c hrf _ nb _ hn
               exact hm1 (consolidate_frame t a c hf)
             · obtain ⟨_, hm2⟩ := f8_mallocDrain retry hrm a c hrf _ nb _ hn
               rw [hm2, mm_malloc_consolidate])

/-- The fastbin attempt, failing case. -/
theorem f8_mallocFast (retry : Retry)
    (hrm : ∀ (u : AState) (n : Nat), (retry u n).1 = none →
      (retry u n).2.mmapped = u.mmapped)
    (a : Nat) (c : HChunk)
    (hrf : ∀ (u : AState) (n : Nat), (retry u n).1 = none →
      frame8 a c u → (retry u n).2.chunkAt a = some c)
    (t : AState) (nb : Nat)
    (hn : (mallocFast retry t nb).1 = none) :
    (frame8 a c t → (mallocFast retry t nb).2.chunkAt a = some c) ∧
      (mallocFast retry t nb).2.mmapped = t.mmapped := by
  simp only [mallocFast] at hn ⊢
  rcases hl : (t.fastbins.getD (fastbin_index nb) []).head? with _ | victim <;>
    simp only [hl] at hn ⊢ <;>
      split_ifs at hn ⊢ <;>
        first
          | exact f8_mallocSmall retry hrm a c hrf t nb hn
          | (simp at hn; done)

/-- `malloc`, when it fails, leaves the frame chunk allocated and the direct
mappings unchanged. -/
theorem f8_malloc (a : Nat) (c : HChunk) :
    ∀ (fuel : Nat) (t : AState) (bytes : Nat),
      (malloc fuel t bytes).1 = none →
      ((frame8 a c t → (malloc fuel t bytes).2.chunkAt a = some c) ∧
        (malloc fuel t bytes).2.mmapped = t.mmapped) := by
  intro fuel
  induction fuel with
  | zero => exact fun t bytes _ => ⟨fun hf => hf.1, rfl⟩
  | succ f ih =>
    intro t bytes hn
    have hrm : ∀ (u : AState) (n : Nat), (malloc f u n).1 = none →
        (malloc f u n).2.mmapped = u.mmapped := fun u n h => (ih u n h).2
    have hrf : ∀ (u : AState) (n : Nat), (malloc f u n).1 = none →
        frame8 a c u → (malloc f u n).2.chunkAt a = some c :=
      fun u n h hf => (ih u n h).1 hf
    simp only [malloc] at hn ⊢
    split_ifs at hn ⊢ <;>
      first
        | exact ⟨fun hf => hf.1, rfl⟩
        | exact f8_mallocFast (malloc f) hrm a c hrf t _ hn
        | exact f8_mallocUseTop (malloc f) hrm a c hrf t _ hn
        | (constructor
           · intro hf
             exact absurd (by assumption : t.max_fast = 0)
               (raw_max_fast_ne_zero t hf.2.2.2.1)
           · obtain ⟨_, hm2⟩ := f8_mallocUseTop (malloc f) hrm a c hrf _ _ hn
             rw [hm2, mm_malloc_consolidate])

/-- `reallocSplit` always succeeds, returning the payload of `newp`. -/
theorem reallocSplit_fst (s : AState) (newp newsize nb : Nat) :
    (reallocSplit s newp newsize nb).1 = some (newp + 2 * SIZE_SZ) := by
  simp only [reallocSplit]
  split_ifs <;> rfl

/-- C8: if `realloc` returns null on a non-null pointer, the chunk of that
pointer is still allocated with its payload unchanged — for a heap chunk
(in use, non-mmapped, satisfying the structural frame conditions `frame8`)
the chunk record is untouched; for a direct-mapped chunk its mapping is
untouched. -/
theorem C8_realloc_null_preserves (fuel : Nat) (s s1 : AState)
    (oldmem bytes : Nat) (c : HChunk) (mc : MmChunk)
    (hmem : oldmem ≠ 0)
    (hrun : realloc fuel s oldmem bytes = (none, s1)) :
    (frame8 (oldmem - 2 * SIZE_SZ) c s →
      chunk_is_mmapped s (oldmem - 2 * SIZE_SZ) = false →
      s1.chunkAt (oldmem - 2 * SIZE_SZ) = some c ∧
        c.status = CStatus.inuse ∧
        dataAt s1 (oldmem - 2 * SIZE_SZ) = c.data) ∧
    (mmLookup s (oldmem - 2 * SIZE_SZ) = some mc →
      chunk_is_mmapped s (oldmem - 2 * SIZE_SZ) = true →
      mmLookup s1 (oldmem - 2 * SIZE_SZ) = some mc) := by
  simp only [realloc] at hrun
  split_ifs at hrun <;>
    first
      | exact absurd (by assumption : oldmem = 0) hmem
      | (have hco := congrArg Prod.fst hrun
         rw [reallocSplit_fst] at hco
         simp at hco)
      | (simp at hrun; done)
      | (injection hrun with h1 h2
         obtain rfl : s1 = s := h2.symm
         refine ⟨fun hf _ => ⟨hf.1, hf.2.1, by simp only [dataAt, hf.1]⟩,
           fun hmc _ => hmc⟩)
      | (rcases hm : malloc fuel s (request2size bytes - MALLOC_ALIGN_MASK)
           with ⟨_ | newmem, s2⟩ <;> simp only [hm] at hrun
         · injection hrun with h1 h2
           obtain rfl : s1 = s2 := h2.symm
           have hml := f8_malloc (oldmem - 2 * SIZE_SZ) c fuel s
             (request2size bytes - MALLOC_ALIGN_MASK) (by rw [hm])
           rw [hm] at hml
           constructor
           · intro hf _
             refine ⟨hml.1 hf, hf.2.1, by simp only [dataAt, hml.1 hf]⟩
           · intro hmc _
             simp only [mmLookup] at hmc ⊢
             rw [hml.2]
             exact hmc
         · first
             | (split_ifs at hrun <;>
                 first
                   | (have hco := congrArg Prod.fst hrun
                      rw [reallocSplit_fst] at hco
                      simp at hco)
                   | (simp at hrun; done))
             | (simp at hrun; done))

/-- C8, witness: on the exhausted-OS example state, `realloc` of the in-use
chunk's payload 4112 to 8000 bytes fails, and the 32-byte in-use chunk at
4096 survives with its payload intact. -/
theorem C8_witness :
    (realloc 10 C8exState 4112 8000).2.chunkAt (4112 - 2 * SIZE_SZ) =
        some ⟨32, CStatus.inuse, []⟩ ∧
      (⟨32, CStatus.inuse, []⟩ : HChunk).status = CStatus.inuse ∧
      dataAt (realloc 10 C8exState 4112 8000).2 (4112 - 2 * SIZE_SZ) =
        (⟨32, CStatus.inuse, []⟩ : HChunk).data :=
  (C8_realloc_null_preserves 10 C8exState (realloc 10 C8exState 4112 8000).2
      4112 8000 ⟨32, CStatus.inuse, []⟩ ⟨0, 0, []⟩ (by decide) rfl).1
    (by
      refine ⟨by decide, by decide, by decide, by decide,
        ⟨⟨4064, CStatus.top, []⟩, by decide, by decide⟩, ?_, by decide, ?_,
        ?_, ?_, ?_, ?_, ?_⟩
      · intro x cx hx
        have hbse : C8exState.heapBase = 4096 := by decide
        have hhp : C8exState.heap =
            [⟨32, CStatus.inuse, []⟩, ⟨4064, CStatus.top, []⟩] := by decide
        have htp : C8exState.top = 4128 := by decide
        rw [htp]
        have hx2 : chunkAtGo 4096
            [⟨32, CStatus.inuse, []⟩, ⟨4064, CStatus.top, []⟩] x =
              some cx := by
          rw [← hbse, ← hhp]
          exact hx
        simp only [chunkAtGo] at hx2
        split_ifs at hx2
        · omega
        · omega
      · intro i x hx
        rw [List.getD_eq_getElem?_getD,
          show C8exState.bins = List.replicate 96 [] from by decide,
          List.getElem?_replicate] at hx
        split_ifs at hx <;> simp at hx
      · intro i
        rw [List.getD_eq_getElem?_getD,
          show C8exState.bins = List.replicate 96 [] from by decide,
          List.getElem?_replicate]
        split_ifs <;> simp
      · intro i j hij x hx
        rw [List.getD_eq_getElem?_getD,
          show C8exState.bins = List.replicate 96 [] from by decide,
          List.getElem?_replicate] at hx
        split_ifs at hx <;> simp at hx
      · intro i x hx
        rw [List.getD_eq_getElem?_getD,
          show C8exState.fastbins = List.replicate 11 [] from by decide,
          List.getElem?_replicate] at hx
        split_ifs at hx <;> simp at hx
      · intro i
        rw [List.getD_eq_getElem?_getD,
          show C8exState.fastbins = List.replicate 11 [] from by decide,
          List.getElem?_replicate]
        split_ifs <;> simp
      · intro i j hij x hx
        rw [List.getD_eq_getElem?_getD,
          show C8exState.fastbins = List.replicate 11 [] from by decide,
          List.getElem?_replicate] at hx
        split_ifs at hx <;> simp at hx)
    (by decide)

end Dlmalloc
